import Mathlib

/-!
A verification development of the Go package `pathfinder` (`graph.go`).

Shallow embedding of the Go package `pathfinder` (file `graph.go`): the graph
data model, its mutations and the query `ShortestPath`.

Modelling decisions, each visible in the definitions below.

* A Go `*Node` is the position of the node in `g.Nodes`: every node is allocated
  by `AddNode` and appended to `g.Nodes`, so positions and pointers correspond
  one to one.  An `Edge` stores the position of its target.
* `float64`.  Every finite `float64` is an integer multiple of `2^-1074`; a
  finite cost or distance is held as that integer, and the two zeros, which
  compare equal and add alike, are one value.  `Dist.add` is the `float64`
  addition of Go: the exact sum, rounded to 53 significant bits (to nearest,
  ties to even), overflowing to `+Inf` or `-Inf` from `2^1024` on.  Edge costs
  are finite, so NaN never arises and a distance is a finite value, `+Inf` or
  `-Inf` (`Dist`).  `f64 x` is the cost with value `x`; `graph.F64Costs` says
  that the costs of a graph are `float64` values, and the theorems hold for
  every integer cost.
* The maps `distance` and `previousNode` are total functions whose value at an
  absent key is the Go zero value (`0`, `nil`).
* `sort.Slice` belongs to the Go standard library and is a parameter
  `sortSlice` of the query; `SortContract` is its documented contract (the
  result is a permutation of the argument, ordered by `less`).
  `insertionSort` is the algorithm `sort.Slice` runs on slices of at most six
  elements in every Go release (at most twelve since Go 1.19).
* Loops carry a fuel counting iterations: `hang` is returned when the fuel
  runs out, `panic` when `nodeByPayload` panics.
-/

namespace Pathfinder

/-! ## `float64` -/

/-- Binary search for the position of the leading bit of `n`: `j` rounds that
try the steps `2^(j-1), …, 2, 1` on top of `acc`. -/
def bitSearch (n : Nat) : Nat → Nat → Nat
  | 0, acc => acc
  | j + 1, acc =>
    if n >>> (acc + 2 ^ j) = 0 then bitSearch n j acc else bitSearch n j (acc + 2 ^ j)

/-- The position of the leading bit of `n` (for `0 < n < 2^4096`). -/
def ilog2 (n : Nat) : Nat := bitSearch n 12 0

/-- The number of low bits of `n` that do not fit into a significand of 53 bits. -/
def dropBits (n : Nat) : Nat := ilog2 n - 52

/-- Rounding of a magnitude to 53 significant bits, to nearest, ties to even. -/
def roundNat (n : Nat) : Nat :=
  let k := dropBits n
  let q := n >>> k
  let r := n - q <<< k
  if 1 <<< k < 2 * r ∨ (2 * r = 1 <<< k ∧ q % 2 = 1) then (q + 1) <<< k else q <<< k

/-- The least magnitude that is too large for `float64`: `2^1024`, in units of
`2^-1074`. -/
def overflowAt : Nat := 1 <<< 2098

/-- A `float64` distance that is not NaN: a finite value, `+Inf` or `-Inf`.  A
finite value is held as the integer `c` with value `c * 2^-1074`: every finite
`float64` is such a multiple. -/
inductive Dist where
  | ninf
  | fin (c : Int)
  | inf
deriving DecidableEq, Repr

/-- The `float64` nearest to the real number `s * 2^-1074` (ties to even), with
overflow to an infinity: the result of a `float64` operation whose exact result
is `s * 2^-1074`. -/
def f64round (s : Int) : Dist :=
  if 0 ≤ s then
    if s.toNat < overflowAt ∧ roundNat s.toNat < overflowAt then
      Dist.fin (roundNat s.toNat) else Dist.inf
  else
    if (-s).toNat < overflowAt ∧ roundNat (-s).toNat < overflowAt then
      Dist.fin (-(roundNat (-s).toNat : Int)) else Dist.ninf

/-- The cost with value `x`, in units of `2^-1074`: a `float64` whenever `x` is
one, as every integer `x` with `|x| ≤ 2^53` is. -/
def f64 (x : Int) : Int := x * ((1 <<< 1074 : Nat) : Int)

namespace Dist

/-- The Go expression `d + c` for a distance `d` and a finite edge cost `c`. -/
def add : Dist → Int → Dist
  | fin x, c => f64round (x + c)
  | inf, _ => inf
  | ninf, _ => ninf

/-- The Go comparison `a < b` on distances. -/
def lt : Dist → Dist → Bool
  | ninf, ninf => false
  | ninf, _ => true
  | fin _, ninf => false
  | fin x, fin y => decide (x < y)
  | fin _, inf => true
  | inf, _ => false

/-- The comparison `a <= b` on distances. -/
def le : Dist → Dist → Bool
  | ninf, _ => true
  | fin _, ninf => false
  | fin x, fin y => decide (x ≤ y)
  | fin _, inf => true
  | inf, inf => true
  | inf, _ => false

/-- The distance is a `float64` value: rounding leaves it as it is. -/
def IsF64 (d : Dist) : Prop := d.add 0 = d

instance (d : Dist) : Decidable d.IsF64 := inferInstanceAs (Decidable (d.add 0 = d))

end Dist

/-- Rounding of `n` to a multiple of `2^k`, to nearest, ties to the even
multiple: what `roundNat` computes with shifts, for `k = dropBits n`. -/
def roundAt (k n : Nat) : Nat :=
  if 2 ^ k < 2 * (n % 2 ^ k) ∨ (2 * (n % 2 ^ k) = 2 ^ k ∧ (n / 2 ^ k) % 2 = 1) then
    (n / 2 ^ k + 1) * 2 ^ k
  else n / 2 ^ k * 2 ^ k

/-! ## Data model -/

/-- Go `type Edge struct { Node *Node; Cost float64 }`; `Cost` is a finite
`float64`, held in units of `2^-1074`. -/
structure Edge where
  Node : Nat
  Cost : Int
deriving DecidableEq, Repr

/-- Go `type Node struct { Payload interface{}; Disabled bool; Edges []Edge }`. -/
structure Node (P : Type) where
  Payload : P
  Disabled : Bool
  Edges : List Edge
deriving DecidableEq, Repr

/-- Go `type graph struct { Nodes []*Node }`. -/
structure graph (P : Type) where
  Nodes : List (Node P)
deriving DecidableEq, Repr

/-- Go `var ErrNoPath = errors.New(...)`: the only error value of the package. -/
inductive Error where
  | ErrNoPath
deriving DecidableEq, Repr

/-- Go `NewGraph`. -/
def NewGraph (P : Type) : graph P := ⟨[]⟩

variable {P : Type}

/-- The field `Disabled` read through a node pointer (`false` for a position
outside the graph; well-formed graphs have no such pointer). -/
def graph.disabledAt (g : graph P) (i : Nat) : Bool :=
  match g.Nodes[i]? with
  | some n => n.Disabled
  | none => false

/-- The field `Edges` read through a node pointer (empty for a position outside
the graph). -/
def graph.edgesAt (g : graph P) (i : Nat) : List Edge :=
  match g.Nodes[i]? with
  | some n => n.Edges
  | none => []

/-- The loop of `nodeByPayload` over `g.Nodes`, started at position `i`. -/
def nodeByPayloadFrom [DecidableEq P] (payload : P) : List (Node P) → Nat → Option Nat
  | [], _ => none
  | n :: ns, i => if payload = n.Payload then some i else nodeByPayloadFrom payload ns (i + 1)

/-- Go `nodeByPayload`: the first node whose payload equals `payload`;
`none` stands for the panic. -/
def graph.nodeByPayload [DecidableEq P] (g : graph P) (payload : P) : Option Nat :=
  nodeByPayloadFrom payload g.Nodes 0

/-- Go `AddNode`. -/
def graph.AddNode (g : graph P) (payload : P) : graph P :=
  ⟨g.Nodes ++ [⟨payload, false, []⟩]⟩

/-- The assignment `n.Edges = append(n.Edges, e)` through the pointer `i`. -/
def graph.appendEdge (g : graph P) (i : Nat) (e : Edge) : graph P :=
  match g.Nodes[i]? with
  | some n => ⟨g.Nodes.set i { n with Edges := n.Edges ++ [e] }⟩
  | none => g

/-- The assignment `n.Disabled = b` through the pointer `i`. -/
def graph.setDisabled (g : graph P) (i : Nat) (b : Bool) : graph P :=
  match g.Nodes[i]? with
  | some n => ⟨g.Nodes.set i { n with Disabled := b }⟩
  | none => g

/-- Outcome of a mutating call: the graph it leaves behind, and whether it
returned or panicked. -/
inductive Mutation (P : Type) where
  | returned (g : graph P)
  | panicked (g : graph P)
deriving DecidableEq, Repr

/-- The graph left behind by a mutating call. -/
def Mutation.graph : Mutation P → Pathfinder.graph P
  | returned g => g
  | panicked g => g

/-- Go `AddEdge`: both payloads are resolved before the edge is appended. -/
def graph.AddEdge [DecidableEq P] (g : graph P) (fromPayload toPayload : P) (cost : Int) :
    Mutation P :=
  match g.nodeByPayload fromPayload with
  | none => .panicked g
  | some fromNode =>
    match g.nodeByPayload toPayload with
    | none => .panicked g
    | some toNode => .returned (g.appendEdge fromNode ⟨toNode, cost⟩)

/-- Go `AddBidirectionalEdge`: `AddEdge(from, to)` then `AddEdge(to, from)`. -/
def graph.AddBidirectionalEdge [DecidableEq P] (g : graph P) (fromPayload toPayload : P)
    (cost : Int) : Mutation P :=
  match g.AddEdge fromPayload toPayload cost with
  | .panicked g1 => .panicked g1
  | .returned g1 => g1.AddEdge toPayload fromPayload cost

/-- Go `EnableNode`. -/
def graph.EnableNode [DecidableEq P] (g : graph P) (payload : P) : Mutation P :=
  match g.nodeByPayload payload with
  | none => .panicked g
  | some n => .returned (g.setDisabled n false)

/-- Go `DisableNode`. -/
def graph.DisableNode [DecidableEq P] (g : graph P) (payload : P) : Mutation P :=
  match g.nodeByPayload payload with
  | none => .panicked g
  | some n => .returned (g.setDisabled n true)

/-! ## The query -/

/-- The working state of `ShortestPath`: the two maps and the slice `nodesLeft`. -/
structure State where
  distance : Nat → Dist
  previousNode : Nat → Option Nat
  nodesLeft : List Nat

/-- Map assignment `m[k] = v`. -/
def assign {α : Type} (m : Nat → α) (k : Nat) (v : α) : Nat → α :=
  fun j => if j = k then v else m j

/-- The state after `for _, n := range g.Nodes { distance[n] = +Inf; nodesLeft = append(nodesLeft, n) }`
run on the positions `ns`. -/
def initLoop (ns : List Nat) (st : State) : State :=
  ns.foldl (fun s n => { s with distance := assign s.distance n Dist.inf,
                                nodesLeft := s.nodesLeft ++ [n] }) st

/-- The state at the head of the selection loop. -/
def initState (g : graph P) (src : Nat) : State :=
  let st := initLoop (List.range g.Nodes.length) ⟨fun _ => Dist.fin 0, fun _ => none, []⟩
  { st with distance := assign st.distance src (Dist.fin 0) }

/-- One iteration of `for _, edge := range chosenOne.Edges`. -/
def relaxEdge (g : graph P) (chosenOne : Nat) (st : State) (edge : Edge) : State :=
  if g.disabledAt edge.Node then st
  else
    let cost := (st.distance chosenOne).add edge.Cost
    if Dist.lt cost (st.distance edge.Node) then
      { st with distance := assign st.distance edge.Node cost,
                previousNode := assign st.previousNode edge.Node (some chosenOne) }
    else st

/-- The loop `for _, edge := range chosenOne.Edges`. -/
def relaxEdges (g : graph P) (chosenOne : Nat) (st : State) (edges : List Edge) : State :=
  edges.foldl (relaxEdge g chosenOne) st

/-- The comparison function handed to `sort.Slice`. -/
def lessBy (distance : Nat → Dist) (a b : Nat) : Bool :=
  Dist.lt (distance a) (distance b)

/-- The selection loop `for len(nodesLeft) > 0`; `none` when the fuel runs out.
With `earlyExit = true` this is the loop of the source; with `false` it is the
loop without the `break`.  `sort.Slice` sorts in place, so the slice keeps its
length; a `sortSlice` that returns the empty list for a non-empty slice is
outside the contract and stops the loop with `none`. -/
def mainLoop (sortSlice : (Nat → Nat → Bool) → List Nat → List Nat) (earlyExit : Bool)
    (g : graph P) (dst : Nat) : Nat → State → Option State
  | 0, st => if st.nodesLeft.length > 0 then none else some st
  | fuel + 1, st =>
    if st.nodesLeft.length > 0 then
      match sortSlice (lessBy st.distance) st.nodesLeft with
      | [] => none
      | chosenOne :: rest =>
        let st1 : State := { st with nodesLeft := rest }
        if earlyExit && decide (chosenOne = dst) then some st1
        else mainLoop sortSlice earlyExit g dst fuel
          (relaxEdges g chosenOne st1 (g.edgesAt chosenOne))
    else some st

/-- The loop `for currentNode != nil` that rebuilds the path; `none` when the
fuel runs out (or when `currentNode` is not a node of the graph, which does not
happen: the map `previousNode` only ever holds selected nodes). -/
def walkBack (g : graph P) (previousNode : Nat → Option Nat) :
    Nat → Option Nat → List P → Option (List P)
  | _, none, path => some path
  | 0, some _, _ => none
  | fuel + 1, some currentNode, path =>
    match g.Nodes[currentNode]? with
    | some n => walkBack g previousNode fuel (previousNode currentNode) (n.Payload :: path)
    | none => none

/-- Outcome of a call of `ShortestPath`. -/
inductive Outcome (P : Type) where
  | panic
  | hang
  | ret (path : List P) (cost : Dist) (err : Option Error)
deriving DecidableEq, Repr

/-- The body of `ShortestPath` after both payloads are resolved. -/
def shortestPathNodes (sortSlice : (Nat → Nat → Bool) → List Nat → List Nat) (earlyExit : Bool)
    (fuel : Nat) (g : graph P) (src dst : Nat) : Outcome P :=
  if g.disabledAt src then .ret [] Dist.inf (some .ErrNoPath)
  else
    match mainLoop sortSlice earlyExit g dst fuel (initState g src) with
    | none => .hang
    | some st =>
      let walked :=
        if (st.previousNode dst).isSome || decide (src = dst) then
          walkBack g st.previousNode fuel (some dst) []
        else some []
      match walked with
      | none => .hang
      | some path =>
        if path.length = 0 then .ret path (st.distance dst) (some .ErrNoPath)
        else .ret path (st.distance dst) none

/-- Go `ShortestPath`. -/
def graph.ShortestPath [DecidableEq P] (sortSlice : (Nat → Nat → Bool) → List Nat → List Nat)
    (fuel : Nat) (g : graph P) (fromPayload toPayload : P) : Outcome P :=
  match g.nodeByPayload fromPayload with
  | none => .panic
  | some src =>
    match g.nodeByPayload toPayload with
    | none => .panic
    | some dst => shortestPathNodes sortSlice true fuel g src dst

/-! ## `sort.Slice` -/

/-- The inner loop of Go's `insertionSort`: the element `x` is swapped towards
the front while `less x y` holds for its left neighbour `y`.  The argument is
the sorted prefix, nearest neighbour first. -/
def bubble (less : Nat → Nat → Bool) (x : Nat) : List Nat → List Nat
  | [] => [x]
  | y :: ys => if less x y then y :: bubble less x ys else x :: y :: ys

/-- Go's `insertionSort`, which is `sort.Slice` on short slices. -/
def insertionSort (less : Nat → Nat → Bool) (l : List Nat) : List Nat :=
  (l.foldl (fun sortedPrefix x => bubble less x sortedPrefix) []).reverse

/-- The documented contract of `sort.Slice` for the comparison functions the
query hands to it: the slice is permuted, and afterwards no element is `less`
than an element in front of it. -/
def SortContract (sortSlice : (Nat → Nat → Bool) → List Nat → List Nat) : Prop :=
  ∀ (distance : Nat → Dist) (l : List Nat),
    (sortSlice (lessBy distance) l).Perm l ∧
    (sortSlice (lessBy distance) l).Pairwise (fun a b => lessBy distance b a = false)

/-! ## Walks -/

/-- Every edge points to a node of the graph.  `AddEdge` stores the node that
`nodeByPayload` returns, so every graph built through the API is well formed. -/
def graph.WF (g : graph P) : Prop :=
  ∀ n ∈ g.Nodes, ∀ e ∈ n.Edges, e.Node < g.Nodes.length

/-- Every edge cost is non-negative. -/
def graph.NonNeg (g : graph P) : Prop :=
  ∀ n ∈ g.Nodes, ∀ e ∈ n.Edges, 0 ≤ e.Cost

/-- Every edge cost is a `float64` value. -/
def graph.F64Costs (g : graph P) : Prop :=
  ∀ n ∈ g.Nodes, ∀ e ∈ n.Edges, (Dist.fin e.Cost).IsF64

instance (g : graph P) : Decidable g.WF := by unfold graph.WF; infer_instance

instance (g : graph P) : Decidable g.F64Costs := by unfold graph.F64Costs; infer_instance

instance (g : graph P) : Decidable g.NonNeg := by unfold graph.NonNeg; infer_instance

/-- The edges `es` form a directed walk that starts at node `u`: the first edge
is in the edge list of `u`, each next edge in the edge list of the target of
the edge before it. -/
def IsWalk (g : graph P) : Nat → List Edge → Prop
  | _, [] => True
  | u, e :: es => e ∈ g.edgesAt u ∧ IsWalk g e.Node es

/-- The node at which a walk from `u` along `es` ends. -/
def walkEnd : Nat → List Edge → Nat
  | u, [] => u
  | _, e :: es => walkEnd e.Node es

/-- The summed edge cost of a walk. -/
def walkCost : List Edge → Int
  | [] => 0
  | e :: es => e.Cost + walkCost es

/-- The cost of a walk as the code accumulates it, started at the distance `d`:
each edge cost is added to the running distance with `float64` addition, in the
order of the walk. -/
def walkDist (d : Dist) (es : List Edge) : Dist :=
  es.foldl (fun a e => a.add e.Cost) d

/-- The `float64` cost of a walk: its edge costs added up from 0 in the order
of the walk, each addition rounded. -/
def roundedCost (es : List Edge) : Dist :=
  walkDist (Dist.fin 0) es

/-- No addition along the walk rounds: the exact sum of the costs of every
initial part of the walk is a `float64`. -/
def ExactSums (es : List Edge) : Prop :=
  ∀ n, n ≤ es.length → (Dist.fin (walkCost (es.take n))).IsF64

instance (es : List Edge) : Decidable (ExactSums es) := by unfold ExactSums; infer_instance

/-- The nodes of a walk from `u` along `es`, in order, `u` first. -/
def walkNodes (u : Nat) (es : List Edge) : List Nat :=
  u :: es.map Edge.Node

/-- The payloads of a list of nodes. -/
def graph.payloads (g : graph P) (ns : List Nat) : List P :=
  ns.filterMap (fun i => (g.Nodes[i]?).map Node.Payload)

instance (g : graph P) : (u : Nat) → (es : List Edge) → Decidable (IsWalk g u es)
  | _, [] => isTrue trivial
  | u, e :: es =>
    have := instDecidableIsWalk g e.Node es
    inferInstanceAs (Decidable (e ∈ g.edgesAt u ∧ IsWalk g e.Node es))

/-! ## Order on distances -/

instance : LinearOrder Dist where
  le a b := Dist.le a b = true
  lt a b := Dist.lt a b = true
  le_refl a := by cases a <;> simp [Dist.le]
  le_trans a b c := by
    cases a <;> cases b <;> cases c <;> (simp [Dist.le]; try omega)
  lt_iff_le_not_le a b := by
    cases a <;> cases b <;> (simp [Dist.le, Dist.lt]; try omega)
  le_antisymm a b := by
    cases a <;> cases b <;> (simp [Dist.le]; try omega)
  le_total a b := by
    cases a <;> cases b <;> (simp [Dist.le]; try omega)
  decidableLE a b := inferInstanceAs (Decidable (Dist.le a b = true))
  decidableLT a b := inferInstanceAs (Decidable (Dist.lt a b = true))

instance (a b : Dist) : Decidable (a ≤ b) := inferInstanceAs (Decidable (Dist.le a b = true))

/-! ## Invariants of the selection loop -/

/-- Along the walk from `u` by `es`, the recorded predecessor of every node
after `u` is the node before it. -/
def Linked (previousNode : Nat → Option Nat) : Nat → List Edge → Prop
  | _, [] => True
  | u, e :: es => previousNode e.Node = some u ∧ Linked previousNode e.Node es

/-- The walk `es` is the path recorded for `v` in the state `st`: it leads from
`src` to `v` over enabled nodes, its `float64` cost is `distance[v]`, it follows the
`previousNode` links, visits no node twice, and every node on it other than `v`
has left `nodesLeft`. -/
structure TreePath (g : graph P) (src : Nat) (st : State) (v : Nat) (es : List Edge) : Prop where
  walk : IsWalk g src es
  end_eq : walkEnd src es = v
  enabled : ∀ e ∈ es, g.disabledAt e.Node = false
  cost : st.distance v = roundedCost es
  linked : Linked st.previousNode src es
  nodup : (walkNodes src es).Nodup
  settled : ∀ u ∈ walkNodes src es, u = v ∨ u ∉ st.nodesLeft

/-- The part of the loop invariant that holds at every point of the loop. -/
structure Core (g : graph P) (src : Nat) (st : State) : Prop where
  left_lt : ∀ y ∈ st.nodesLeft, y < g.Nodes.length
  left_nodup : st.nodesLeft.Nodup
  src_lt : src < g.Nodes.length
  dist_src : st.distance src = Dist.fin 0
  nonneg : ∀ v, Dist.fin 0 ≤ st.distance v
  tree : ∀ v, v < g.Nodes.length → st.distance v ≠ Dist.inf → ∃ es, TreePath g src st v es
  prev_none : ∀ v, v < g.Nodes.length →
    (st.previousNode v = none ↔ v = src ∨ st.distance v = Dist.inf)
  rep : ∀ v, (st.distance v).IsF64

/-- The invariant at the head of the selection loop. -/
structure HeadInv (g : graph P) (src : Nat) (st : State) : Prop where
  core : Core g src st
  order : ∀ u, u < g.Nodes.length → u ∉ st.nodesLeft →
    ∀ y ∈ st.nodesLeft, st.distance u ≤ st.distance y
  closed : ∀ u, u ∉ st.nodesLeft → ∀ e ∈ g.edgesAt u, g.disabledAt e.Node = false →
    st.distance e.Node ≤ (st.distance u).add e.Cost

/-- The invariant while the edges of `cur` are relaxed. -/
structure MidInv (g : graph P) (src cur : Nat) (st : State) : Prop where
  core : Core g src st
  cur_lt : cur < g.Nodes.length
  cur_nl : cur ∉ st.nodesLeft
  maxcur : ∀ u, u < g.Nodes.length → u ∉ st.nodesLeft → st.distance u ≤ st.distance cur
  curmin : ∀ y ∈ st.nodesLeft, st.distance cur ≤ st.distance y

/-- What relaxations leave alone: `nodesLeft`, and the entries of the nodes
that have left `nodesLeft`; distances only go down. -/
structure Frame (st st' : State) : Prop where
  left_eq : st'.nodesLeft = st.nodesLeft
  dist_le : ∀ v, st'.distance v ≤ st.distance v
  dist_eq : ∀ u, u ∉ st.nodesLeft → st'.distance u = st.distance u
  prev_eq : ∀ u, u ∉ st.nodesLeft → st'.previousNode u = st.previousNode u

/-! ## Example graphs -/

/-- The graph of the test `toggle node`: nodes `a b c d`, edges `a→b (1)`,
`a→c (10)`, `b→d (1)`, `c→d (1)`. -/
def exampleGraph : graph String :=
  ⟨[⟨"a", false, [⟨1, f64 1⟩, ⟨2, f64 10⟩]⟩, ⟨"b", false, [⟨3, f64 1⟩]⟩,
    ⟨"c", false, [⟨3, f64 1⟩]⟩, ⟨"d", false, []⟩]⟩

/-- The graph `exampleGraph` after `DisableNode("b")`. -/
def exampleGraphB : graph String :=
  ⟨[⟨"a", false, [⟨1, f64 1⟩, ⟨2, f64 10⟩]⟩, ⟨"b", true, [⟨3, f64 1⟩]⟩,
    ⟨"c", false, [⟨3, f64 1⟩]⟩, ⟨"d", false, []⟩]⟩

/-- Six nodes `a x m q p t` added in this order, with the edges `a→x (1)`,
`a→m (2)`, `x→p (10)`, `m→p (1)`, `m→q (1)`, `q→t (1)`, `p→t (1)`: the two
paths `a m p t` and `a m q t` both cost 4. -/
def tieGraph : graph String :=
  ⟨[⟨"a", false, [⟨1, f64 1⟩, ⟨2, f64 2⟩]⟩, ⟨"x", false, [⟨4, f64 10⟩]⟩,
    ⟨"m", false, [⟨4, f64 1⟩, ⟨3, f64 1⟩]⟩, ⟨"q", false, [⟨5, f64 1⟩]⟩,
    ⟨"p", false, [⟨5, f64 1⟩]⟩, ⟨"t", false, []⟩]⟩

/-- Three nodes `a b c` with the edges `a→b (2^53 + 2)`, `a→c (2^53 + 4)` and
`b→c (1)`: the sum `(2^53 + 2) + 1` is not a `float64` and rounds to
`2^53 + 4`. -/
def roundGraph : graph String :=
  ⟨[⟨"a", false, [⟨1, f64 9007199254740994⟩, ⟨2, f64 9007199254740996⟩]⟩,
    ⟨"b", false, [⟨2, f64 1⟩]⟩, ⟨"c", false, []⟩]⟩

/-- Four nodes `a b c d` in a line, with the edges `a→b (2^53)`, `b→c (1)` and
`c→d (1)`: in `float64`, `2^53 + 1` rounds to `2^53`. -/
def absorbGraph : graph String :=
  ⟨[⟨"a", false, [⟨1, f64 9007199254740992⟩]⟩, ⟨"b", false, [⟨2, f64 1⟩]⟩,
    ⟨"c", false, [⟨3, f64 1⟩]⟩, ⟨"d", false, []⟩]⟩

/-- Three nodes `a b c` in a line, with the edges `a→b (2^1023)` and
`b→c (2^1023)`: in `float64`, `2^1023 + 2^1023` is `+Inf`. -/
def overflowGraph : graph String :=
  ⟨[⟨"a", false, [⟨1, f64 ((1 <<< 1023 : Nat) : Int)⟩]⟩,
    ⟨"b", false, [⟨2, f64 ((1 <<< 1023 : Nat) : Int)⟩]⟩, ⟨"c", false, []⟩]⟩

/-! ## Graphs built through the API -/

/-- The graphs reachable from `NewGraph()` by calls of `AddNode`, `AddEdge`,
`AddBidirectionalEdge`, `EnableNode` and `DisableNode` that return. -/
inductive Reachable [DecidableEq P] : graph P → Prop where
  | newGraph : Reachable (NewGraph P)
  | addNode {g : graph P} (p : P) : Reachable g → Reachable (g.AddNode p)
  | addEdge {g g' : graph P} (a b : P) (cost : Int) :
      Reachable g → g.AddEdge a b cost = .returned g' → Reachable g'
  | addBidirectionalEdge {g g' : graph P} (a b : P) (cost : Int) :
      Reachable g → g.AddBidirectionalEdge a b cost = .returned g' → Reachable g'
  | enableNode {g g' : graph P} (p : P) :
      Reachable g → g.EnableNode p = .returned g' → Reachable g'
  | disableNode {g g' : graph P} (p : P) :
      Reachable g → g.DisableNode p = .returned g' → Reachable g'

/-! ## The query without the early exit -/

/-- The variant of `ShortestPath` the specification compares the source with:
the same algorithm, except that the selection loop has no `break` and keeps
selecting and relaxing until `nodesLeft` is empty. -/
def graph.ShortestPathNoBreak [DecidableEq P]
    (sortSlice : (Nat → Nat → Bool) → List Nat → List Nat)
    (fuel : Nat) (g : graph P) (fromPayload toPayload : P) : Outcome P :=
  match g.nodeByPayload fromPayload with
  | none => .panic
  | some src =>
    match g.nodeByPayload toPayload with
    | none => .panic
    | some dst => shortestPathNodes sortSlice false fuel g src dst

/-! ## More example graphs -/

/-- Two nodes `a b` with the edges `a→a (-1)` and `a→b (1)`. -/
def negativeLoopGraph : graph String :=
  ⟨[⟨"a", false, [⟨0, f64 (-1)⟩, ⟨1, f64 1⟩]⟩, ⟨"b", false, []⟩]⟩

/-- Two nodes `a b` and the edge `a→b (1)`. -/
def twoNodeGraph : graph String :=
  ⟨[⟨"a", false, [⟨1, f64 1⟩]⟩, ⟨"b", false, []⟩]⟩

/-! # Lemmas -/

namespace Dist

theorem lt_iff (a b : Dist) : Dist.lt a b = true ↔ a < b := Iff.rfl

theorem le_iff (a b : Dist) : Dist.le a b = true ↔ a ≤ b := Iff.rfl

theorem lt_false_iff (a b : Dist) : Dist.lt a b = false ↔ b ≤ a := by
  rw [← not_lt, ← lt_iff]; simp

@[simp] theorem fin_le_fin (x y : Int) : fin x ≤ fin y ↔ x ≤ y := by
  rw [← le_iff]; simp [Dist.le]

@[simp] theorem fin_lt_fin (x y : Int) : fin x < fin y ↔ x < y := by
  rw [← lt_iff]; simp [Dist.lt]

@[simp] theorem le_inf (a : Dist) : a ≤ inf := by
  rw [← le_iff]; cases a <;> simp [Dist.le]

@[simp] theorem ninf_le (a : Dist) : ninf ≤ a := by
  rw [← le_iff]; cases a <;> simp [Dist.le]

@[simp] theorem inf_le (a : Dist) : inf ≤ a ↔ a = inf := by
  rw [← le_iff]; cases a <;> simp [Dist.le]

@[simp] theorem not_inf_lt (a : Dist) : ¬ inf < a := by
  rw [← lt_iff]; simp [Dist.lt]

theorem ne_inf_of_lt {a b : Dist} (h : a < b) : a ≠ inf := by
  rintro rfl; exact not_inf_lt _ h

end Dist

/-! ## `float64`: the leading bit -/

theorem two_pow_le_two_pow {a b : Nat} (h : a ≤ b) : 2 ^ a ≤ 2 ^ b :=
  Nat.pow_le_pow_right (by decide) h

theorem two_pow_lt_two_pow {a b : Nat} (h : a < b) : 2 ^ a < 2 ^ b :=
  Nat.pow_lt_pow_right (by decide) h

theorem lt_of_two_pow_lt {a b : Nat} (h : 2 ^ a < 2 ^ b) : a < b :=
  (Nat.pow_lt_pow_iff_right (by decide : 1 < 2)).1 h

theorem bitSearch_zero : ∀ (j acc : Nat), bitSearch 0 j acc = acc
  | 0, _ => rfl
  | j + 1, acc => by
    simp only [bitSearch, Nat.zero_shiftRight, if_true]
    exact bitSearch_zero j acc

theorem bitSearch_spec (n : Nat) : ∀ (j acc : Nat), 2 ^ acc ≤ n → n < 2 ^ (acc + 2 ^ j) →
    2 ^ bitSearch n j acc ≤ n ∧ n < 2 ^ (bitSearch n j acc + 1)
  | 0, acc, h1, h2 => by
    simp only [bitSearch]
    exact ⟨h1, by simpa using h2⟩
  | j + 1, acc, h1, h2 => by
    simp only [bitSearch]
    have hpos : 0 < 2 ^ (acc + 2 ^ j) := Nat.two_pow_pos _
    split
    · rename_i hz
      rw [Nat.shiftRight_eq_div_pow] at hz
      have hlt : n < 2 ^ (acc + 2 ^ j) := by
        by_contra hge
        have : 1 ≤ n / 2 ^ (acc + 2 ^ j) :=
          (Nat.le_div_iff_mul_le hpos).2 (by simpa using Nat.le_of_not_lt hge)
        omega
      exact bitSearch_spec n j acc h1 hlt
    · rename_i hz
      rw [Nat.shiftRight_eq_div_pow] at hz
      have hge : 2 ^ (acc + 2 ^ j) ≤ n := by
        by_contra hlt
        exact hz (Nat.div_eq_of_lt (Nat.lt_of_not_le hlt))
      refine bitSearch_spec n j (acc + 2 ^ j) hge ?_
      have : acc + 2 ^ j + 2 ^ j = acc + 2 ^ (j + 1) := by rw [pow_succ]; omega
      rw [this]; exact h2

/-- The range in which `ilog2` finds the leading bit. -/
theorem ilog2_spec {n : Nat} (h0 : 0 < n) (hn : n < 2 ^ 2 ^ 12) :
    2 ^ ilog2 n ≤ n ∧ n < 2 ^ (ilog2 n + 1) :=
  bitSearch_spec n 12 0 (by rw [Nat.pow_zero]; exact h0) (by rw [Nat.zero_add]; exact hn)

theorem ilog2_unique {n L : Nat} (hn : n < 2 ^ 2 ^ 12) (h1 : 2 ^ L ≤ n) (h2 : n < 2 ^ (L + 1)) :
    ilog2 n = L := by
  have h0 : 0 < n := lt_of_lt_of_le (Nat.two_pow_pos _) h1
  obtain ⟨s1, s2⟩ := ilog2_spec h0 hn
  have a : ilog2 n < L + 1 :=
    (Nat.pow_lt_pow_iff_right (by norm_num : 1 < 2)).1 (lt_of_le_of_lt s1 h2)
  have b : L < ilog2 n + 1 :=
    (Nat.pow_lt_pow_iff_right (by norm_num : 1 < 2)).1 (lt_of_le_of_lt h1 s2)
  omega

/-- Below `2^4096`, a magnitude has fewer than `53 + dropBits n` bits. -/
theorem lt_pow_dropBits {n : Nat} (hn : n < 2 ^ 2 ^ 12) : n < 2 ^ (53 + dropBits n) := by
  rcases Nat.eq_zero_or_pos n with rfl | h0
  · exact Nat.two_pow_pos _
  · obtain ⟨-, s2⟩ := ilog2_spec h0 hn
    refine lt_of_lt_of_le s2 (Nat.pow_le_pow_right (by norm_num) ?_)
    unfold dropBits; omega

theorem pow_dropBits_le {n : Nat} (hn : n < 2 ^ 2 ^ 12) (hk : 0 < dropBits n) :
    2 ^ (52 + dropBits n) ≤ n := by
  rcases Nat.eq_zero_or_pos n with rfl | h0
  · rw [dropBits, ilog2, bitSearch_zero] at hk
    omega
  · obtain ⟨s1, -⟩ := ilog2_spec h0 hn
    have : 52 + dropBits n = ilog2 n := by unfold dropBits at hk ⊢; omega
    rw [this]; exact s1

theorem dropBits_unique {n k : Nat} (hn : n < 2 ^ 2 ^ 12) (h1 : 2 ^ (52 + k) ≤ n)
    (h2 : n < 2 ^ (53 + k)) : dropBits n = k := by
  have h3 : 52 + k + 1 = 53 + k := by omega
  have : ilog2 n = 52 + k := ilog2_unique hn h1 (by rw [h3]; exact h2)
  unfold dropBits; omega

theorem dropBits_mono {m n : Nat} (hn : n < 2 ^ 2 ^ 12) (h : m ≤ n) :
    dropBits m ≤ dropBits n := by
  by_contra hlt
  have hk : 0 < dropBits m := by omega
  have a := pow_dropBits_le (lt_of_le_of_lt h hn) hk
  have b := lt_pow_dropBits hn
  have : 52 + dropBits m < 53 + dropBits n :=
    (Nat.pow_lt_pow_iff_right (by norm_num : 1 < 2)).1 (lt_of_le_of_lt (le_trans a h) b)
  omega

/-! ## `float64`: rounding a magnitude -/

theorem roundNat_eq (n : Nat) : roundNat n = roundAt (dropBits n) n := by
  unfold roundNat roundAt
  simp only [Nat.shiftRight_eq_div_pow, Nat.shiftLeft_eq, Nat.one_mul]
  have : n - n / 2 ^ dropBits n * 2 ^ dropBits n = n % 2 ^ dropBits n := by
    rw [Nat.mod_def, Nat.mul_comm]
  rw [this]

theorem roundAt_lower (k n : Nat) : n / 2 ^ k * 2 ^ k ≤ roundAt k n := by
  unfold roundAt
  split
  · exact Nat.mul_le_mul_right _ (Nat.le_succ _)
  · exact le_refl _

theorem roundAt_upper (k n : Nat) : roundAt k n ≤ (n / 2 ^ k + 1) * 2 ^ k := by
  unfold roundAt
  split
  · exact le_refl _
  · exact Nat.mul_le_mul_right _ (Nat.le_succ _)

theorem roundAt_mono (k : Nat) {m n : Nat} (h : m ≤ n) : roundAt k m ≤ roundAt k n := by
  have hu : 0 < 2 ^ k := Nat.two_pow_pos _
  have hq : m / 2 ^ k ≤ n / 2 ^ k := Nat.div_le_div_right h
  rcases Nat.lt_or_eq_of_le hq with hlt | heq
  · calc roundAt k m ≤ (m / 2 ^ k + 1) * 2 ^ k := roundAt_upper k m
      _ ≤ n / 2 ^ k * 2 ^ k := Nat.mul_le_mul_right _ hlt
      _ ≤ roundAt k n := roundAt_lower k n
  · have hm := Nat.div_add_mod m (2 ^ k)
    have hn := Nat.div_add_mod n (2 ^ k)
    rw [heq] at hm
    have hr : m % 2 ^ k ≤ n % 2 ^ k := by
      generalize 2 ^ k * (n / 2 ^ k) = A at hm hn
      omega
    unfold roundAt
    rw [heq]
    by_cases hup : 2 ^ k < 2 * (m % 2 ^ k) ∨
        (2 * (m % 2 ^ k) = 2 ^ k ∧ n / 2 ^ k % 2 = 1)
    · have hup' : 2 ^ k < 2 * (n % 2 ^ k) ∨
          (2 * (n % 2 ^ k) = 2 ^ k ∧ n / 2 ^ k % 2 = 1) := by
        rcases hup with h1 | ⟨h1, h2⟩
        · left; omega
        · rcases Nat.lt_or_eq_of_le hr with h3 | h3
          · left; omega
          · right; exact ⟨by omega, h2⟩
      rw [if_pos hup, if_pos hup']
    · rw [if_neg hup]
      split
      · exact Nat.mul_le_mul_right _ (Nat.le_succ _)
      · exact le_refl _

theorem roundAt_of_dvd {k n : Nat} (h : 2 ^ k ∣ n) : roundAt k n = n := by
  have hu : 0 < 2 ^ k := Nat.two_pow_pos _
  have hr : n % 2 ^ k = 0 := Nat.mod_eq_zero_of_dvd h
  unfold roundAt
  rw [hr]
  have : ¬ (2 ^ k < 2 * 0 ∨ (2 * 0 = 2 ^ k ∧ n / 2 ^ k % 2 = 1)) := by
    rintro (h1 | ⟨h1, -⟩) <;> omega
  rw [if_neg this]
  exact Nat.div_mul_cancel h

theorem roundAt_dvd (k n : Nat) : 2 ^ k ∣ roundAt k n := by
  unfold roundAt
  split <;> exact Dvd.intro_left _ rfl

/-- A rounded magnitude has fewer than `53 + dropBits n` bits, or is that power
of two. -/
theorem roundNat_le_pow {n : Nat} (hn : n < 2 ^ 2 ^ 12) : roundNat n ≤ 2 ^ (53 + dropBits n) := by
  rw [roundNat_eq]
  have hu : 0 < 2 ^ dropBits n := Nat.two_pow_pos _
  have hq : n / 2 ^ dropBits n < 2 ^ 53 := by
    rw [Nat.div_lt_iff_lt_mul hu, ← pow_add]
    exact lt_pow_dropBits hn
  calc roundAt (dropBits n) n ≤ (n / 2 ^ dropBits n + 1) * 2 ^ dropBits n := roundAt_upper _ _
    _ ≤ 2 ^ 53 * 2 ^ dropBits n := Nat.mul_le_mul_right _ hq
    _ = 2 ^ (53 + dropBits n) := (pow_add 2 53 _).symm

theorem roundNat_mono {m n : Nat} (hn : n < 2 ^ 2 ^ 12) (h : m ≤ n) :
    roundNat m ≤ roundNat n := by
  have hm : m < 2 ^ 2 ^ 12 := lt_of_le_of_lt h hn
  rcases Nat.lt_or_eq_of_le (dropBits_mono hn h) with hlt | heq
  · have hk : 0 < dropBits n := by omega
    have hu : 0 < 2 ^ dropBits n := Nat.two_pow_pos _
    have hq : 2 ^ 52 ≤ n / 2 ^ dropBits n := by
      rw [Nat.le_div_iff_mul_le hu, ← pow_add]
      exact pow_dropBits_le hn hk
    calc roundNat m ≤ 2 ^ (53 + dropBits m) := roundNat_le_pow hm
      _ ≤ 2 ^ (52 + dropBits n) := Nat.pow_le_pow_right (by norm_num) (by omega)
      _ = 2 ^ 52 * 2 ^ dropBits n := pow_add 2 52 _
      _ ≤ n / 2 ^ dropBits n * 2 ^ dropBits n := Nat.mul_le_mul_right _ hq
      _ ≤ roundAt (dropBits n) n := roundAt_lower _ _
      _ = roundNat n := (roundNat_eq n).symm
  · rw [roundNat_eq, roundNat_eq, heq]
    exact roundAt_mono _ h

/-- Rounding a rounded magnitude changes nothing. -/
theorem roundNat_idem {n : Nat} (hn : n < 2 ^ 4095) : roundNat (roundNat n) = roundNat n := by
  have hn' : n < 2 ^ 2 ^ 12 :=
    lt_of_lt_of_le hn (two_pow_le_two_pow (by decide))
  have hR : roundNat n < 2 ^ 2 ^ 12 := by
    have h1 := roundNat_le_pow hn'
    have h2 : 53 + dropBits n < 2 ^ 12 := by
      by_contra hge
      have hk : 0 < dropBits n := by
        have : (2 : Nat) ^ 12 = 4096 := by norm_num
        omega
      have := pow_dropBits_le hn' hk
      have : 52 + dropBits n < 4095 :=
        lt_of_two_pow_lt (lt_of_le_of_lt this hn)
      have : (2 : Nat) ^ 12 = 4096 := by norm_num
      omega
    exact lt_of_le_of_lt h1 (Nat.pow_lt_pow_right (by norm_num) h2)
  suffices hd : 2 ^ dropBits (roundNat n) ∣ roundNat n by
    rw [roundNat_eq (roundNat n), roundAt_of_dvd hd]
  rcases Nat.eq_zero_or_pos (dropBits n) with hk0 | hk
  · have : roundNat n = n := by
      rw [roundNat_eq, hk0]
      exact roundAt_of_dvd (by simp)
    rw [this, hk0]; simp
  · have hu : 0 < 2 ^ dropBits n := Nat.two_pow_pos _
    have hlow : 2 ^ (52 + dropBits n) ≤ roundNat n := by
      have hq : 2 ^ 52 ≤ n / 2 ^ dropBits n := by
        rw [Nat.le_div_iff_mul_le hu, ← pow_add]
        exact pow_dropBits_le hn' hk
      calc 2 ^ (52 + dropBits n) = 2 ^ 52 * 2 ^ dropBits n := pow_add 2 52 _
        _ ≤ n / 2 ^ dropBits n * 2 ^ dropBits n := Nat.mul_le_mul_right _ hq
        _ ≤ roundAt (dropBits n) n := roundAt_lower _ _
        _ = roundNat n := (roundNat_eq n).symm
    rcases Nat.lt_or_eq_of_le (roundNat_le_pow hn') with hlt | heq
    · rw [dropBits_unique hR hlow hlt, roundNat_eq]
      exact roundAt_dvd _ _
    · have h1 : 2 ^ (52 + (dropBits n + 1)) ≤ roundNat n := by
        rw [heq]; exact Nat.pow_le_pow_right (by norm_num) (by omega)
      have h2 : roundNat n < 2 ^ (53 + (dropBits n + 1)) := by
        rw [heq]; exact Nat.pow_lt_pow_right (by norm_num) (by omega)
      rw [dropBits_unique hR h1 h2, heq]
      exact Nat.pow_dvd_pow 2 (by omega)

/-! ## `float64`: rounding a sum -/

theorem one_shiftLeft_eq (k : Nat) : (1 <<< k : Nat) = 2 ^ k := Nat.one_shiftLeft k

theorem overflowAt_eq : overflowAt = 2 ^ 2098 := one_shiftLeft_eq 2098

theorem overflowAt_lt : overflowAt < 2 ^ 4095 := by
  rw [overflowAt_eq]
  exact two_pow_lt_two_pow (by decide)

theorem lt_span_of_lt_overflowAt {n : Nat} (h : n < overflowAt) : n < 2 ^ 2 ^ 12 :=
  lt_trans h (lt_of_lt_of_le overflowAt_lt (two_pow_le_two_pow (by decide)))

/-- A magnitude that rounds to a finite `float64` keeps doing so when it
shrinks. -/
theorem fits_mono {m n : Nat} (h : m ≤ n)
    (hn : n < overflowAt ∧ roundNat n < overflowAt) :
    m < overflowAt ∧ roundNat m < overflowAt :=
  ⟨lt_of_le_of_lt h hn.1,
    lt_of_le_of_lt (roundNat_mono (lt_span_of_lt_overflowAt hn.1) h) hn.2⟩

theorem fits_round {n : Nat} (hn : n < overflowAt ∧ roundNat n < overflowAt) :
    (roundNat n < overflowAt ∧ roundNat (roundNat n) < overflowAt) ∧
      roundNat (roundNat n) = roundNat n := by
  have hid := roundNat_idem (lt_trans hn.1 overflowAt_lt)
  exact ⟨⟨hn.2, by rw [hid]; exact hn.2⟩, hid⟩

theorem roundNat_zero : roundNat 0 = 0 := by
  rw [roundNat_eq]
  exact roundAt_of_dvd (dvd_zero _)

theorem f64round_zero : f64round 0 = Dist.fin 0 := by
  have h0 : (0 : Nat) < overflowAt := by decide
  simp [f64round, roundNat_zero, h0]

/-- Rounding is monotone. -/
theorem f64round_mono {s t : Int} (h : s ≤ t) : f64round s ≤ f64round t := by
  unfold f64round
  by_cases hs : 0 ≤ s
  · have ht : 0 ≤ t := le_trans hs h
    rw [if_pos hs, if_pos ht]
    have hnat : s.toNat ≤ t.toNat := Int.toNat_le_toNat h
    by_cases hft : t.toNat < overflowAt ∧ roundNat t.toNat < overflowAt
    · rw [if_pos hft, if_pos (fits_mono hnat hft), Dist.fin_le_fin]
      exact Int.ofNat_le.2 (roundNat_mono (lt_span_of_lt_overflowAt hft.1) hnat)
    · rw [if_neg hft]; exact Dist.le_inf _
  · rw [if_neg hs]
    by_cases ht : 0 ≤ t
    · rw [if_pos ht]
      split
      · split
        · rw [Dist.fin_le_fin]
          have a : (0 : Int) ≤ (roundNat (-s).toNat : Int) := Int.ofNat_nonneg _
          have b : (0 : Int) ≤ (roundNat t.toNat : Int) := Int.ofNat_nonneg _
          omega
        · exact Dist.le_inf _
      · exact Dist.ninf_le _
    · rw [if_neg ht]
      have hnat : (-t).toNat ≤ (-s).toNat := Int.toNat_le_toNat (by omega)
      by_cases hfs : (-s).toNat < overflowAt ∧ roundNat (-s).toNat < overflowAt
      · rw [if_pos hfs, if_pos (fits_mono hnat hfs), Dist.fin_le_fin]
        have := Int.ofNat_le.2 (roundNat_mono (lt_span_of_lt_overflowAt hfs.1) hnat)
        omega
      · rw [if_neg hfs]; exact Dist.ninf_le _

theorem f64round_nat {n : Nat} (hf : n < overflowAt ∧ roundNat n < overflowAt) :
    f64round (n : Int) = Dist.fin (roundNat n) := by
  unfold f64round
  rw [if_pos (Int.ofNat_nonneg n), Int.toNat_ofNat, if_pos hf]

theorem f64round_neg_nat {n : Nat} (hf : n < overflowAt ∧ roundNat n < overflowAt) :
    f64round (-(n : Int)) = Dist.fin (-(roundNat n : Int)) := by
  rcases Nat.eq_zero_or_pos n with hz | hp
  · subst hz
    rw [roundNat_zero]
    exact f64round_zero
  · unfold f64round
    have hneg : ¬ (0 : Int) ≤ -(n : Int) := by omega
    rw [if_neg hneg, neg_neg, Int.toNat_ofNat, if_pos hf]

/-- A rounded value is a `float64`: rounding it again changes nothing. -/
theorem f64round_idem {s x : Int} (h : f64round s = Dist.fin x) : f64round x = Dist.fin x := by
  unfold f64round at h
  by_cases hs : 0 ≤ s
  · rw [if_pos hs] at h
    by_cases hf : s.toNat < overflowAt ∧ roundNat s.toNat < overflowAt
    · rw [if_pos hf] at h
      obtain ⟨hf2, hid⟩ := fits_round hf
      have hx : x = (roundNat s.toNat : Int) := (Dist.fin.inj h).symm
      rw [hx, f64round_nat hf2, hid]
    · rw [if_neg hf] at h
      exact Dist.noConfusion h
  · rw [if_neg hs] at h
    by_cases hf : (-s).toNat < overflowAt ∧ roundNat (-s).toNat < overflowAt
    · rw [if_pos hf] at h
      obtain ⟨hf2, hid⟩ := fits_round hf
      have hx : x = -(roundNat (-s).toNat : Int) := (Dist.fin.inj h).symm
      rw [hx, f64round_neg_nat hf2, hid]
    · rw [if_neg hf] at h
      exact Dist.noConfusion h

namespace Dist

theorem add_le_add {a b : Dist} (h : a ≤ b) (c : Int) : a.add c ≤ b.add c := by
  cases a with
  | ninf => exact ninf_le _
  | inf =>
    rw [(inf_le b).1 h]
  | fin x =>
    cases b with
    | ninf => exact absurd h (by rw [← le_iff]; simp [Dist.le])
    | inf => exact le_inf _
    | fin y =>
      rw [fin_le_fin] at h
      exact f64round_mono (by omega)

theorem add_le_add_cost (a : Dist) {c d : Int} (h : c ≤ d) : a.add c ≤ a.add d := by
  cases a with
  | ninf => exact le_refl _
  | inf => exact le_refl _
  | fin x => exact f64round_mono (by omega)

/-- The result of an addition is a `float64`. -/
theorem add_isF64 (a : Dist) (c : Int) : (a.add c).IsF64 := by
  cases a with
  | ninf => rfl
  | inf => rfl
  | fin x =>
    show (f64round (x + c)).add 0 = f64round (x + c)
    cases hr : f64round (x + c) with
    | ninf => rfl
    | inf => rfl
    | fin y =>
      show f64round (y + 0) = fin y
      rw [Int.add_zero]
      exact f64round_idem hr

theorem isF64_zero : (fin 0).IsF64 := by
  show f64round (0 + 0) = fin 0
  exact f64round_zero

theorem isF64_inf : inf.IsF64 := rfl

/-- Adding a non-negative cost to a `float64` distance does not lower it. -/
theorem le_add {a : Dist} (ha : a.IsF64) {c : Int} (h : 0 ≤ c) : a ≤ a.add c := by
  have := add_le_add_cost a h
  rw [ha] at this
  exact this

theorem ne_inf_of_add_ne_inf {a : Dist} {c : Int} (h : a.add c ≠ inf) : a ≠ inf := by
  rintro rfl
  exact h rfl

/-- Sample additions.  `0.1 + 0.7` is `0.7999999999999999` and not `0.8` (in
units of `2^-1074`, `0.1` is `3602879701896397 * 2^1019`, `0.7` is
`3152519739159347 * 2^1022`, `0.7999999999999999` is `7205759403792793 * 2^1021`
and `0.8` is `3602879701896397 * 2^1022`); `2^53 + 1` is `2^53` and
`(2^53 + 2) + 1` is `2^53 + 4` (ties go to the even significand); the largest
`float64` plus itself is `+Inf`; the least positive `float64` plus itself is
twice it. -/
theorem add_examples :
    (fin ((3602879701896397 <<< 1019 : Nat) : Int)).add
        ((3152519739159347 <<< 1022 : Nat) : Int) =
      fin ((7205759403792793 <<< 1021 : Nat) : Int) ∧
    (fin (f64 9007199254740992)).add (f64 1) = fin (f64 9007199254740992) ∧
    (fin (f64 9007199254740994)).add (f64 1) = fin (f64 9007199254740996) ∧
    (fin ((9007199254740991 <<< 2045 : Nat) : Int)).add
        ((9007199254740991 <<< 2045 : Nat) : Int) = inf ∧
    (fin 1).add 1 = fin 2 := by
  decide

end Dist

/-! ## Reading the graph -/

theorem edgesAt_mem {g : graph P} {u : Nat} {e : Edge} (h : e ∈ g.edgesAt u) :
    ∃ n, g.Nodes[u]? = some n ∧ e ∈ n.Edges := by
  unfold graph.edgesAt at h
  cases hn : g.Nodes[u]? with
  | none => simp [hn] at h
  | some n => exact ⟨n, rfl, by simpa [hn] using h⟩

theorem edgesAt_lt {g : graph P} {u : Nat} {e : Edge} (h : e ∈ g.edgesAt u) :
    u < g.Nodes.length := by
  obtain ⟨n, hn, -⟩ := edgesAt_mem h
  exact (List.getElem?_eq_some_iff.1 hn).1

theorem edgesAt_target_lt {g : graph P} (hwf : g.WF) {u : Nat} {e : Edge}
    (h : e ∈ g.edgesAt u) : e.Node < g.Nodes.length := by
  obtain ⟨n, hn, he⟩ := edgesAt_mem h
  exact hwf n (List.getElem?_mem hn) e he

theorem edgesAt_cost_nonneg {g : graph P} (hnn : g.NonNeg) {u : Nat} {e : Edge}
    (h : e ∈ g.edgesAt u) : 0 ≤ e.Cost := by
  obtain ⟨n, hn, he⟩ := edgesAt_mem h
  exact hnn n (List.getElem?_mem hn) e he

theorem nodeByPayloadFrom_some [DecidableEq P] {p : P} :
    ∀ {l : List (Node P)} {i j : Nat}, nodeByPayloadFrom p l i = some j →
      i ≤ j ∧ ∃ n, l[j - i]? = some n ∧ n.Payload = p
  | [], _, _, h => by simp [nodeByPayloadFrom] at h
  | n :: ns, i, j, h => by
    unfold nodeByPayloadFrom at h
    split at h
    · rename_i hp
      cases h
      exact ⟨le_refl _, n, by simp, hp.symm⟩
    · obtain ⟨hle, m, hm, hmp⟩ := nodeByPayloadFrom_some h
      refine ⟨by omega, m, ?_, hmp⟩
      have : j - i = (j - (i + 1)) + 1 := by omega
      rw [this]; simpa using hm

theorem nodeByPayloadFrom_none [DecidableEq P] {p : P} :
    ∀ {l : List (Node P)} {i : Nat}, nodeByPayloadFrom p l i = none ↔ ∀ n ∈ l, n.Payload ≠ p
  | [], _ => by simp [nodeByPayloadFrom]
  | n :: ns, i => by
    unfold nodeByPayloadFrom
    split
    · rename_i hp
      simp [hp]
    · rename_i hp
      rw [nodeByPayloadFrom_none]
      simp [Ne.symm hp]

theorem nodeByPayload_some [DecidableEq P] {g : graph P} {p : P} {i : Nat}
    (h : g.nodeByPayload p = some i) : ∃ n, g.Nodes[i]? = some n ∧ n.Payload = p := by
  obtain ⟨-, n, hn, hp⟩ := nodeByPayloadFrom_some h
  exact ⟨n, by simpa using hn, hp⟩

theorem nodeByPayload_lt [DecidableEq P] {g : graph P} {p : P} {i : Nat}
    (h : g.nodeByPayload p = some i) : i < g.Nodes.length := by
  obtain ⟨n, hn, -⟩ := nodeByPayload_some h
  exact (List.getElem?_eq_some_iff.1 hn).1

theorem nodeByPayload_none [DecidableEq P] {g : graph P} {p : P} :
    g.nodeByPayload p = none ↔ ∀ n ∈ g.Nodes, n.Payload ≠ p :=
  nodeByPayloadFrom_none

theorem nodeByPayloadFrom_nodup [DecidableEq P] :
    ∀ {l : List (Node P)} {i k : Nat} {n : Node P}, (l.map Node.Payload).Nodup →
      l[k]? = some n → nodeByPayloadFrom n.Payload l i = some (i + k)
  | [], _, _, _, _, h => by simp at h
  | m :: ms, i, k, n, hnd, h => by
    unfold nodeByPayloadFrom
    cases k with
    | zero =>
      simp at h
      simp [h]
    | succ k =>
      simp at h
      have hmem : n ∈ ms := List.getElem?_mem h
      have hne : n.Payload ≠ m.Payload := by
        intro heq
        simp only [List.map_cons, List.nodup_cons, List.mem_map, not_exists, not_and] at hnd
        exact hnd.1 n hmem heq
      rw [if_neg hne]
      simp only [List.map_cons, List.nodup_cons] at hnd
      rw [nodeByPayloadFrom_nodup hnd.2 h]
      congr 1; omega

theorem nodeByPayload_of_nodup [DecidableEq P] {g : graph P}
    (hnd : (g.Nodes.map Node.Payload).Nodup) {k : Nat} {n : Node P}
    (h : g.Nodes[k]? = some n) : g.nodeByPayload n.Payload = some k := by
  have := nodeByPayloadFrom_nodup (i := 0) hnd h
  simpa [graph.nodeByPayload] using this

/-! ## Walks: composition -/

theorem isWalk_append {g : graph P} : ∀ {u : Nat} {es fs : List Edge},
    IsWalk g u (es ++ fs) ↔ IsWalk g u es ∧ IsWalk g (walkEnd u es) fs
  | _, [], _ => by simp [IsWalk, walkEnd]
  | u, e :: es, fs => by
    show (e ∈ g.edgesAt u ∧ IsWalk g e.Node (es ++ fs)) ↔
      (e ∈ g.edgesAt u ∧ IsWalk g e.Node es) ∧ IsWalk g (walkEnd e.Node es) fs
    rw [isWalk_append, and_assoc]

theorem walkEnd_append : ∀ {u : Nat} {es fs : List Edge},
    walkEnd u (es ++ fs) = walkEnd (walkEnd u es) fs
  | _, [], _ => rfl
  | _, e :: es, fs => by
    show walkEnd e.Node (es ++ fs) = walkEnd (walkEnd e.Node es) fs
    exact walkEnd_append

theorem walkCost_append : ∀ {es fs : List Edge},
    walkCost (es ++ fs) = walkCost es + walkCost fs
  | [], _ => by simp [walkCost]
  | e :: es, fs => by
    show e.Cost + walkCost (es ++ fs) = e.Cost + walkCost es + walkCost fs
    rw [walkCost_append]; omega

theorem walkNodes_append_singleton (u : Nat) (es : List Edge) (e : Edge) :
    walkNodes u (es ++ [e]) = walkNodes u es ++ [e.Node] := by
  simp [walkNodes]

theorem walkEnd_mem_walkNodes : ∀ (u : Nat) (es : List Edge), walkEnd u es ∈ walkNodes u es
  | _, [] => by simp [walkEnd, walkNodes]
  | u, e :: es => by
    have := walkEnd_mem_walkNodes e.Node es
    simp only [walkEnd, walkNodes, List.map_cons, List.mem_cons] at this ⊢
    right; exact this

theorem walkNodes_getLast? (u : Nat) (es : List Edge) :
    (walkNodes u es).getLast? = some (walkEnd u es) := by
  induction es generalizing u with
  | nil => simp [walkNodes, walkEnd]
  | cons e es ih =>
    have := ih e.Node
    simp only [walkNodes, walkEnd, List.map_cons] at this ⊢
    rw [List.getLast?_cons_cons]; exact this

theorem walkDist_append (d : Dist) (es fs : List Edge) :
    walkDist d (es ++ fs) = walkDist (walkDist d es) fs := by
  simp [walkDist, List.foldl_append]

theorem walkDist_cons (d : Dist) (e : Edge) (es : List Edge) :
    walkDist d (e :: es) = walkDist (d.add e.Cost) es := rfl

theorem roundedCost_append_singleton (es : List Edge) (e : Edge) :
    roundedCost (es ++ [e]) = (roundedCost es).add e.Cost := by
  simp [roundedCost, walkDist, List.foldl_append]

theorem walkDist_inf : ∀ (es : List Edge), walkDist Dist.inf es = Dist.inf
  | [] => rfl
  | e :: es => by rw [walkDist_cons]; exact walkDist_inf es

theorem walkDist_mono : ∀ (es : List Edge) {a b : Dist}, a ≤ b → walkDist a es ≤ walkDist b es
  | [], _, _, h => h
  | e :: es, _, _, h => by
    rw [walkDist_cons, walkDist_cons]
    exact walkDist_mono es (Dist.add_le_add h e.Cost)

theorem walkDist_isF64 : ∀ (es : List Edge) {d : Dist}, d.IsF64 → (walkDist d es).IsF64
  | [], _, h => h
  | e :: es, _, _ => by
    rw [walkDist_cons]
    exact walkDist_isF64 es (Dist.add_isF64 _ _)

/-- When no addition along the walk rounds, its `float64` cost is the exact sum
of its edge costs. -/
theorem roundedCost_exact (es : List Edge) (h : ExactSums es) :
    roundedCost es = Dist.fin (walkCost es) := by
  induction es using List.reverseRecOn with
  | nil =>
    show Dist.fin 0 = Dist.fin 0
    rfl
  | append_singleton es e ih =>
    have hes : ExactSums es := by
      intro n hn
      have := h n (by rw [List.length_append]; omega)
      rw [List.take_append_of_le_length hn] at this
      exact this
    have hlast := h (es ++ [e]).length (le_refl _)
    rw [List.take_length] at hlast
    have hsum : walkCost (es ++ [e]) = walkCost es + e.Cost := by
      rw [walkCost_append]; simp [walkCost]
    rw [roundedCost_append_singleton, ih hes, hsum]
    rw [hsum] at hlast
    have : (Dist.fin (walkCost es + e.Cost)).add 0 = Dist.fin (walkCost es + e.Cost) := hlast
    show f64round (walkCost es + e.Cost) = _
    have h2 : (Dist.fin (walkCost es + e.Cost)).add 0 = f64round (walkCost es + e.Cost) := by
      show f64round (walkCost es + e.Cost + 0) = _
      rw [Int.add_zero]
    rw [← h2]; exact this

theorem roundedCost_isF64 (es : List Edge) : (roundedCost es).IsF64 :=
  walkDist_isF64 es Dist.isF64_zero

theorem walkCost_nonneg {g : graph P} (hnn : g.NonNeg) : ∀ {u : Nat} {es : List Edge},
    IsWalk g u es → 0 ≤ walkCost es
  | _, [], _ => by simp [walkCost]
  | u, e :: es, h => by
    have h1 := edgesAt_cost_nonneg hnn h.1
    have h2 := walkCost_nonneg hnn h.2
    simp only [walkCost]; omega

theorem isWalk_nodes_lt {g : graph P} (hwf : g.WF) : ∀ {u : Nat} {es : List Edge},
    u < g.Nodes.length → IsWalk g u es → ∀ v ∈ walkNodes u es, v < g.Nodes.length
  | _, [], hu, _ => by simp [walkNodes]; exact hu
  | u, e :: es, hu, h => by
    intro v hv
    simp only [walkNodes, List.map_cons, List.mem_cons] at hv
    rcases hv with rfl | hv
    · exact hu
    · exact isWalk_nodes_lt hwf (edgesAt_target_lt hwf h.1) h.2 v (by simpa [walkNodes] using hv)

/-! ## `insertionSort` meets the contract of `sort.Slice` -/

theorem bubble_perm (less : Nat → Nat → Bool) (x : Nat) :
    ∀ l : List Nat, (bubble less x l).Perm (x :: l)
  | [] => by simp [bubble]
  | y :: ys => by
    unfold bubble
    split
    · exact ((bubble_perm less x ys).cons y).trans (List.Perm.swap x y ys)
    · exact List.Perm.refl _

theorem bubble_sorted (distance : Nat → Dist) (x : Nat) :
    ∀ l : List Nat, l.Pairwise (fun a b => lessBy distance a b = false) →
      (bubble (lessBy distance) x l).Pairwise (fun a b => lessBy distance a b = false)
  | [], _ => by simp [bubble]
  | y :: ys, h => by
    unfold bubble
    rw [List.pairwise_cons] at h
    split
    · rename_i hxy
      rw [List.pairwise_cons]
      refine ⟨?_, bubble_sorted distance x ys h.2⟩
      intro z hz
      rcases List.mem_cons.1 ((bubble_perm _ x ys).mem_iff.1 hz) with rfl | hz
      · simp only [lessBy, Dist.lt_iff, Dist.lt_false_iff] at hxy ⊢
        exact le_of_lt hxy
      · exact h.1 z hz
    · rename_i hxy
      rw [List.pairwise_cons]
      refine ⟨?_, List.pairwise_cons.2 h⟩
      intro z hz
      have hxy : lessBy distance x y = false := by simpa using hxy
      rcases List.mem_cons.1 hz with rfl | hz
      · exact hxy
      · have := h.1 z hz
        simp only [lessBy, Dist.lt_false_iff] at hxy this ⊢
        exact le_trans this hxy

theorem insertionSort_fold_perm (less : Nat → Nat → Bool) :
    ∀ (l acc : List Nat),
      (l.foldl (fun sortedPrefix x => bubble less x sortedPrefix) acc).Perm (l.reverse ++ acc)
  | [], acc => by simp
  | x :: xs, acc => by
    simp only [List.foldl_cons, List.reverse_cons, List.append_assoc, List.singleton_append]
    exact (insertionSort_fold_perm less xs _).trans
      (List.Perm.append_left _ (bubble_perm less x acc))

theorem insertionSort_fold_sorted (distance : Nat → Dist) :
    ∀ (l acc : List Nat), acc.Pairwise (fun a b => lessBy distance a b = false) →
      (l.foldl (fun sortedPrefix x => bubble (lessBy distance) x sortedPrefix) acc).Pairwise
        (fun a b => lessBy distance a b = false)
  | [], _, h => by simpa using h
  | x :: xs, acc, h => by
    simp only [List.foldl_cons]
    exact insertionSort_fold_sorted distance xs _ (bubble_sorted distance x acc h)

theorem insertionSort_contract : SortContract insertionSort := by
  intro distance l
  constructor
  · unfold insertionSort
    refine (List.reverse_perm _).trans ?_
    have := insertionSort_fold_perm (lessBy distance) l []
    simp only [List.append_nil] at this
    exact this.trans (List.reverse_perm _)
  · unfold insertionSort
    rw [List.pairwise_reverse]
    exact insertionSort_fold_sorted distance l [] List.Pairwise.nil

/-! ## Simple walks -/

/-- A walk can be cut at any node on it: the rest is a walk from that node to
the same end, over nodes and edges of the walk. -/
theorem walk_suffix {g : graph P} : ∀ {u : Nat} {es : List Edge} {v : Nat},
    IsWalk g u es → v ∈ walkNodes u es →
    ∃ fs, IsWalk g v fs ∧ walkEnd v fs = walkEnd u es ∧ (∀ e ∈ fs, e ∈ es) ∧
      (walkNodes v fs).Sublist (walkNodes u es)
  | u, [], v, _, hv => by
    have : v = u := by simpa [walkNodes] using hv
    subst this
    exact ⟨[], trivial, rfl, fun _ h => h, List.Sublist.refl _⟩
  | u, e :: es, v, hw, hv => by
    by_cases hvu : v = u
    · subst hvu
      exact ⟨e :: es, hw, rfl, fun _ h => h, List.Sublist.refl _⟩
    · have hv' : v ∈ walkNodes e.Node es := by
        simp only [walkNodes, List.map_cons, List.mem_cons] at hv ⊢
        rcases hv with h1 | h1
        · exact absurd h1 hvu
        · exact h1
      obtain ⟨fs, h1, h2, h3, h4⟩ := walk_suffix hw.2 hv'
      refine ⟨fs, h1, h2, fun e' he' => List.mem_cons_of_mem _ (h3 e' he'), ?_⟩
      exact List.Sublist.trans h4 (List.sublist_cons_self _ _)

/-- Every walk contains a walk between the same two nodes that visits no node
twice. -/
theorem exists_simple_walk {g : graph P} : ∀ {u : Nat} {es : List Edge}, IsWalk g u es →
    ∃ fs, IsWalk g u fs ∧ walkEnd u fs = walkEnd u es ∧ (∀ e ∈ fs, e ∈ es) ∧
      (walkNodes u fs).Nodup
  | u, [], _ => ⟨[], trivial, rfl, fun _ h => h, by simp [walkNodes]⟩
  | u, e :: es, hw => by
    obtain ⟨fs, h1, h2, h3, h4⟩ := exists_simple_walk hw.2
    by_cases hu : u ∈ walkNodes e.Node fs
    · obtain ⟨ks, k1, k2, k3, k4⟩ := walk_suffix h1 hu
      refine ⟨ks, k1, ?_, fun e' he' => List.mem_cons_of_mem _ (h3 e' (k3 e' he')), ?_⟩
      · rw [k2, h2]; rfl
      · exact List.Nodup.sublist k4 h4
    · refine ⟨e :: fs, ⟨hw.1, h1⟩, ?_, ?_, ?_⟩
      · show walkEnd e.Node fs = walkEnd e.Node es
        exact h2
      · intro e' he'
        rcases List.mem_cons.1 he' with h5 | h5
        · rw [h5]; exact List.mem_cons_self _ _
        · exact List.mem_cons_of_mem _ (h3 e' h5)
      · show (u :: walkNodes e.Node fs).Nodup
        exact List.nodup_cons.2 ⟨hu, h4⟩

theorem frame_refl (st : State) : Frame st st :=
  ⟨rfl, fun _ => le_refl _, fun _ _ => rfl, fun _ _ => rfl⟩

theorem frame_trans {a b c : State} (h1 : Frame a b) (h2 : Frame b c) : Frame a c where
  left_eq := h2.left_eq.trans h1.left_eq
  dist_le v := le_trans (h2.dist_le v) (h1.dist_le v)
  dist_eq u hu := (h2.dist_eq u (by rw [h1.left_eq]; exact hu)).trans (h1.dist_eq u hu)
  prev_eq u hu := (h2.prev_eq u (by rw [h1.left_eq]; exact hu)).trans (h1.prev_eq u hu)

theorem linked_append {prev : Nat → Option Nat} : ∀ {u : Nat} {es fs : List Edge},
    Linked prev u (es ++ fs) ↔ Linked prev u es ∧ Linked prev (walkEnd u es) fs
  | _, [], _ => by simp [Linked, walkEnd]
  | u, e :: es, fs => by
    show (prev e.Node = some u ∧ Linked prev e.Node (es ++ fs)) ↔
      (prev e.Node = some u ∧ Linked prev e.Node es) ∧ Linked prev (walkEnd e.Node es) fs
    rw [linked_append, and_assoc]

theorem linked_congr {prev prev' : Nat → Option Nat} : ∀ {u : Nat} {es : List Edge},
    (∀ e ∈ es, prev' e.Node = prev e.Node) → Linked prev u es → Linked prev' u es
  | _, [], _, _ => trivial
  | u, e :: es, h, hl => by
    refine ⟨?_, linked_congr (fun e' he' => h e' (List.mem_cons_of_mem _ he')) hl.2⟩
    rw [h e (List.mem_cons_self _ _)]; exact hl.1

theorem assign_same {α : Type} (m : Nat → α) (k : Nat) (v : α) : assign m k v k = v := by
  simp [assign]

theorem assign_other {α : Type} (m : Nat → α) {k j : Nat} (v : α) (h : j ≠ k) :
    assign m k v j = m j := by
  simp [assign, h]

/-- A tree path survives an assignment to a node that is not on it. -/
theorem treePath_assign {g : graph P} {src : Nat} {st : State} {w : Nat} {es : List Edge}
    (h : TreePath g src st w es) (v : Nat) (d : Dist) (p : Option Nat)
    (hv : v ∉ walkNodes src es) :
    TreePath g src { st with distance := assign st.distance v d,
                             previousNode := assign st.previousNode v p } w es where
  walk := h.walk
  end_eq := h.end_eq
  enabled := h.enabled
  cost := by
    have : w ≠ v := by
      rintro rfl
      exact hv (h.end_eq ▸ walkEnd_mem_walkNodes src es)
    show assign st.distance v d w = _
    rw [assign_other _ _ this]; exact h.cost
  linked := by
    refine linked_congr ?_ h.linked
    intro e he
    have : e.Node ≠ v := by
      rintro rfl
      exact hv (by simp only [walkNodes, List.mem_cons, List.mem_map]; exact Or.inr ⟨e, he, rfl⟩)
    exact assign_other _ _ this
  nodup := h.nodup
  settled := h.settled

/-- The new tree path of a node that has just been relaxed. -/
theorem treePath_extend {g : graph P} {src cur : Nat} {st : State} {es : List Edge} {e : Edge}
    (h : TreePath g src st cur es) (he : e ∈ g.edgesAt cur)
    (hen : g.disabledAt e.Node = false) (hcur : cur ∉ st.nodesLeft)
    (hv : e.Node ∈ st.nodesLeft) :
    TreePath g src
      { st with distance := assign st.distance e.Node ((st.distance cur).add e.Cost),
                previousNode := assign st.previousNode e.Node (some cur) }
      e.Node (es ++ [e]) := by
  have hout : ∀ u ∈ walkNodes src es, u ∉ st.nodesLeft := by
    intro u hu
    rcases h.settled u hu with rfl | hu'
    · exact hcur
    · exact hu'
  have hvn : e.Node ∉ walkNodes src es := fun hmem => hout _ hmem hv
  refine ⟨?_, ?_, ?_, ?_, ?_, ?_, ?_⟩
  · refine isWalk_append.2 ⟨h.walk, ?_⟩
    rw [h.end_eq]
    exact ⟨he, trivial⟩
  · rw [walkEnd_append]; rfl
  · intro e' he'
    rcases List.mem_append.1 he' with h1 | h1
    · exact h.enabled e' h1
    · rw [List.mem_singleton.1 h1]; exact hen
  · show assign st.distance e.Node _ e.Node = _
    rw [assign_same, h.cost, roundedCost_append_singleton]
  · refine linked_append.2 ⟨linked_congr ?_ h.linked, ?_⟩
    · intro e' he'
      have : e'.Node ≠ e.Node := by
        intro heq
        apply hvn
        rw [← heq]
        simp only [walkNodes, List.mem_cons, List.mem_map]
        exact Or.inr ⟨e', he', rfl⟩
      exact assign_other _ _ this
    · rw [h.end_eq]
      exact ⟨assign_same _ _ _, trivial⟩
  · rw [walkNodes_append_singleton]
    exact List.Nodup.append h.nodup (List.nodup_singleton _)
      (by intro u hu hu'; rw [List.mem_singleton.1 hu'] at hu; exact hvn hu)
  · intro u hu
    rw [walkNodes_append_singleton] at hu
    rcases List.mem_append.1 hu with h1 | h1
    · exact Or.inr (hout u h1)
    · exact Or.inl (List.mem_singleton.1 h1)

/-- One relaxation: the invariant is kept, only entries of nodes still in
`nodesLeft` change, and afterwards the relaxed edge is tight enough. -/
theorem relaxEdge_mid {g : graph P} (hwf : g.WF) (hnn : g.NonNeg) {src cur : Nat} {st : State}
    (h : MidInv g src cur st) {e : Edge} (he : e ∈ g.edgesAt cur) :
    MidInv g src cur (relaxEdge g cur st e) ∧ Frame st (relaxEdge g cur st e) ∧
    (g.disabledAt e.Node = false →
      (relaxEdge g cur st e).distance e.Node ≤
        ((relaxEdge g cur st e).distance cur).add e.Cost) := by
  have hc : 0 ≤ e.Cost := edgesAt_cost_nonneg hnn he
  have hvlt : e.Node < g.Nodes.length := edgesAt_target_lt hwf he
  unfold relaxEdge
  by_cases hd : g.disabledAt e.Node = true
  · rw [if_pos hd]
    exact ⟨h, frame_refl st, fun hf => by rw [hd] at hf; cases hf⟩
  rw [if_neg hd]
  have hen : g.disabledAt e.Node = false := by simpa using hd
  by_cases hlt : Dist.lt ((st.distance cur).add e.Cost) (st.distance e.Node) = true
  swap
  · simp only [hlt]
    refine ⟨h, frame_refl st, fun _ => ?_⟩
    have : Dist.lt ((st.distance cur).add e.Cost) (st.distance e.Node) = false := by
      simpa using hlt
    exact (Dist.lt_false_iff _ _).1 this
  simp only [hlt, if_true]
  have hlt' : (st.distance cur).add e.Cost < st.distance e.Node := (Dist.lt_iff _ _).1 hlt
  have hle : st.distance cur ≤ (st.distance cur).add e.Cost := Dist.le_add (h.core.rep cur) hc
  have hvl : e.Node ∈ st.nodesLeft := by
    by_contra hnl
    exact absurd (lt_of_lt_of_le hlt' (le_trans (h.maxcur _ hvlt hnl) hle)) (lt_irrefl _)
  have hvc : e.Node ≠ cur := fun heq => h.cur_nl (heq ▸ hvl)
  have hvs : e.Node ≠ src := by
    intro heq
    have h0 : st.distance e.Node = Dist.fin 0 := by rw [heq]; exact h.core.dist_src
    rw [h0] at hlt'
    exact absurd (lt_of_lt_of_le hlt' (le_trans (h.core.nonneg cur) hle)) (lt_irrefl _)
  have hfin : st.distance cur ≠ Dist.inf := Dist.ne_inf_of_add_ne_inf (Dist.ne_inf_of_lt hlt')
  obtain ⟨es, hes⟩ := h.core.tree cur h.cur_lt hfin
  have hcore : Core g src
      { st with distance := assign st.distance e.Node ((st.distance cur).add e.Cost),
                previousNode := assign st.previousNode e.Node (some cur) } := by
    refine ⟨h.core.left_lt, h.core.left_nodup, h.core.src_lt, ?_, ?_, ?_, ?_, ?_⟩
    · show assign st.distance e.Node _ src = _
      rw [assign_other _ _ (Ne.symm hvs)]; exact h.core.dist_src
    · intro w
      show _ ≤ assign st.distance e.Node _ w
      by_cases hw : w = e.Node
      · rw [hw, assign_same]; exact le_trans (h.core.nonneg cur) hle
      · rw [assign_other _ _ hw]; exact h.core.nonneg w
    · intro w hwlt hwd
      by_cases hw : w = e.Node
      · rw [hw]
        exact ⟨es ++ [e], treePath_extend hes he hen h.cur_nl hvl⟩
      · have hwd' : st.distance w ≠ Dist.inf := by
          have : assign st.distance e.Node ((st.distance cur).add e.Cost) w = st.distance w :=
            assign_other _ _ hw
          rw [← this]; exact hwd
        obtain ⟨fs, hfs⟩ := h.core.tree w hwlt hwd'
        refine ⟨fs, treePath_assign hfs _ _ _ ?_⟩
        intro hmem
        rcases hfs.settled _ hmem with h1 | h1
        · exact hw h1.symm
        · exact h1 hvl
    · intro w hwlt
      show assign st.previousNode e.Node (some cur) w = none ↔
        w = src ∨ assign st.distance e.Node _ w = Dist.inf
      by_cases hw : w = e.Node
      · rw [hw, assign_same, assign_same]
        constructor
        · intro hh; cases hh
        · rintro (h1 | h1)
          · exact absurd h1 hvs
          · exact absurd h1 (Dist.ne_inf_of_lt hlt')
      · rw [assign_other _ _ hw, assign_other _ _ hw]
        exact h.core.prev_none w hwlt
    · intro w
      show (assign st.distance e.Node _ w).IsF64
      by_cases hw : w = e.Node
      · rw [hw, assign_same]; exact Dist.add_isF64 _ _
      · rw [assign_other _ _ hw]; exact h.core.rep w
  refine ⟨⟨hcore, h.cur_lt, h.cur_nl, ?_, ?_⟩, ⟨rfl, ?_, ?_, ?_⟩, fun _ => ?_⟩
  · intro u hult hunl
    have hu : u ≠ e.Node := fun heq => hunl (heq ▸ hvl)
    show assign st.distance e.Node _ u ≤ assign st.distance e.Node _ cur
    rw [assign_other _ _ hu, assign_other _ _ (Ne.symm hvc)]
    exact h.maxcur u hult hunl
  · intro y hy
    show assign st.distance e.Node _ cur ≤ assign st.distance e.Node _ y
    rw [assign_other _ _ (Ne.symm hvc)]
    by_cases hyv : y = e.Node
    · rw [hyv, assign_same]; exact hle
    · rw [assign_other _ _ hyv]; exact h.curmin y hy
  · intro w
    show assign st.distance e.Node _ w ≤ _
    by_cases hw : w = e.Node
    · rw [hw, assign_same]; exact le_of_lt hlt'
    · rw [assign_other _ _ hw]
  · intro u hunl
    have hu : u ≠ e.Node := fun heq => hunl (heq ▸ hvl)
    exact assign_other _ _ hu
  · intro u hunl
    have hu : u ≠ e.Node := fun heq => hunl (heq ▸ hvl)
    exact assign_other _ _ hu
  · show assign st.distance e.Node _ e.Node ≤ (assign st.distance e.Node _ cur).add e.Cost
    rw [assign_same, assign_other _ _ (Ne.symm hvc)]

/-- The loop over the edges of `cur`: the invariant is kept and every edge of
the list is tight enough afterwards. -/
theorem relaxEdges_mid {g : graph P} (hwf : g.WF) (hnn : g.NonNeg) {src cur : Nat} :
    ∀ (es : List Edge) {st : State}, MidInv g src cur st → (∀ e ∈ es, e ∈ g.edgesAt cur) →
      MidInv g src cur (relaxEdges g cur st es) ∧ Frame st (relaxEdges g cur st es) ∧
      ∀ e ∈ es, g.disabledAt e.Node = false →
        (relaxEdges g cur st es).distance e.Node ≤
          ((relaxEdges g cur st es).distance cur).add e.Cost
  | [], st, h, _ => ⟨h, frame_refl st, fun _ he => by cases he⟩
  | e :: es, st, h, hes => by
    obtain ⟨h1, f1, c1⟩ := relaxEdge_mid hwf hnn h (hes e (List.mem_cons_self _ _))
    obtain ⟨h2, f2, c2⟩ := relaxEdges_mid hwf hnn es h1
      (fun e' he' => hes e' (List.mem_cons_of_mem _ he'))
    refine ⟨h2, frame_trans f1 f2, ?_⟩
    intro e' he' hen
    rcases List.mem_cons.1 he' with rfl | he'
    · have hcur : cur ∉ (relaxEdge g cur st e').nodesLeft := h1.cur_nl
      show (relaxEdges g cur (relaxEdge g cur st e') es).distance e'.Node ≤
        ((relaxEdges g cur (relaxEdge g cur st e') es).distance cur).add e'.Cost
      rw [f2.dist_eq cur hcur]
      exact le_trans (f2.dist_le _) (c1 hen)
    · exact c2 e' he' hen

theorem relaxEdges_nodesLeft (g : graph P) (cur : Nat) :
    ∀ (es : List Edge) (st : State), (relaxEdges g cur st es).nodesLeft = st.nodesLeft
  | [], _ => rfl
  | e :: es, st => by
    show (relaxEdges g cur (relaxEdge g cur st e) es).nodesLeft = _
    rw [relaxEdges_nodesLeft g cur es]
    simp only [relaxEdge]
    split_ifs <;> rfl

/-- What the sort contract says about the slice after sorting, when its first
element is `cur`. -/
theorem sorted_head {sortSlice : (Nat → Nat → Bool) → List Nat → List Nat}
    (hs : SortContract sortSlice) {distance : Nat → Dist} {l rest : List Nat} {cur : Nat}
    (h : sortSlice (lessBy distance) l = cur :: rest) :
    (cur :: rest).Perm l ∧ ∀ y ∈ l, distance cur ≤ distance y := by
  obtain ⟨hp, hso⟩ := hs distance l
  rw [h] at hp hso
  refine ⟨hp, fun y hy => ?_⟩
  rcases List.mem_cons.1 (hp.mem_iff.2 hy) with rfl | hy'
  · exact le_refl _
  · have := (List.pairwise_cons.1 hso).1 y hy'
    exact (Dist.lt_false_iff _ _).1 this

/-- One iteration of the selection loop keeps the invariant. -/
theorem iteration_inv {g : graph P} (hwf : g.WF) (hnn : g.NonNeg) {src cur : Nat} {st : State}
    {rest : List Nat} (h : HeadInv g src st) (hp : (cur :: rest).Perm st.nodesLeft)
    (hmin : ∀ y ∈ st.nodesLeft, st.distance cur ≤ st.distance y) :
    HeadInv g src (relaxEdges g cur { st with nodesLeft := rest } (g.edgesAt cur)) ∧
    Frame { st with nodesLeft := rest }
      (relaxEdges g cur { st with nodesLeft := rest } (g.edgesAt cur)) := by
  have hnd : (cur :: rest).Nodup := hp.nodup_iff.2 h.core.left_nodup
  have hcur : cur ∈ st.nodesLeft := hp.mem_iff.1 (List.mem_cons_self _ _)
  have hsub : ∀ y ∈ rest, y ∈ st.nodesLeft := fun y hy => hp.mem_iff.1 (List.mem_cons_of_mem _ hy)
  have hcases : ∀ u, u ∉ rest → u = cur ∨ u ∉ st.nodesLeft := by
    intro u hu
    by_cases huc : u = cur
    · exact Or.inl huc
    · right
      intro hmem
      rcases List.mem_cons.1 (hp.mem_iff.2 hmem) with h1 | h1
      · exact huc h1
      · exact hu h1
  have hmid : MidInv g src cur { st with nodesLeft := rest } := by
    refine ⟨⟨fun y hy => h.core.left_lt y (hsub y hy), (List.nodup_cons.1 hnd).2, h.core.src_lt,
      h.core.dist_src, h.core.nonneg, ?_, h.core.prev_none, h.core.rep⟩, h.core.left_lt cur hcur,
      (List.nodup_cons.1 hnd).1, ?_, fun y hy => hmin y (hsub y hy)⟩
    · intro v hv hd
      obtain ⟨es, hes⟩ := h.core.tree v hv hd
      exact ⟨es, ⟨hes.walk, hes.end_eq, hes.enabled, hes.cost, hes.linked, hes.nodup,
        fun u hu => (hes.settled u hu).imp id (fun hnl hmem => hnl (hsub u hmem))⟩⟩
    · intro u hult hunl
      rcases hcases u hunl with rfl | h1
      · exact le_refl _
      · exact h.order u hult h1 cur hcur
  obtain ⟨h2, f2, c2⟩ := relaxEdges_mid hwf hnn (g.edgesAt cur) hmid (fun e he => he)
  refine ⟨⟨h2.core, ?_, ?_⟩, f2⟩
  · intro u hult hunl y hy
    exact le_trans (h2.maxcur u hult hunl) (h2.curmin y hy)
  · intro u hunl e he hen
    rw [f2.left_eq] at hunl
    rcases hcases u hunl with rfl | h1
    · exact c2 e he hen
    · rw [f2.dist_eq u hunl]
      exact le_trans (f2.dist_le _) (h.closed u h1 e he hen)

/-- The state in which the selection loop stops: it is the state at the head of
the iteration that selected `dst`, with `dst` of least distance in `nodesLeft`. -/
theorem mainLoop_stop {sortSlice : (Nat → Nat → Bool) → List Nat → List Nat}
    (hs : SortContract sortSlice) {g : graph P} (hwf : g.WF) (hnn : g.NonNeg) {src dst : Nat} :
    ∀ (fuel : Nat) {st st' : State}, HeadInv g src st → dst ∈ st.nodesLeft →
      mainLoop sortSlice true g dst fuel st = some st' →
      ∃ st0, HeadInv g src st0 ∧ dst ∈ st0.nodesLeft ∧
        (∀ y ∈ st0.nodesLeft, st0.distance dst ≤ st0.distance y) ∧
        st'.distance = st0.distance ∧ st'.previousNode = st0.previousNode := by
  intro fuel
  induction fuel with
  | zero =>
    intro st st' h hd hm
    have hpos : st.nodesLeft.length > 0 := List.length_pos_of_mem hd
    simp only [mainLoop, hpos, if_true] at hm
    cases hm
  | succ fuel ih =>
    intro st st' h hd hm
    have hpos : st.nodesLeft.length > 0 := List.length_pos_of_mem hd
    simp only [mainLoop, hpos, if_true] at hm
    split at hm
    · cases hm
    · rename_i cur rest hsort
      obtain ⟨hp, hmin⟩ := sorted_head hs hsort
      by_cases hcd : cur = dst
      · simp only [hcd, Bool.true_and, decide_True, if_true, Option.some.injEq] at hm
        subst hm
        exact ⟨st, h, hd, fun y hy => hcd ▸ hmin y hy, rfl, rfl⟩
      · simp only [hcd, Bool.true_and, decide_False, Bool.false_eq_true, if_false] at hm
        obtain ⟨h2, f2⟩ := iteration_inv hwf hnn h hp hmin
        refine ih h2 ?_ hm
        rw [f2.left_eq]
        rcases List.mem_cons.1 (hp.mem_iff.2 hd) with h1 | h1
        · exact absurd h1.symm hcd
        · exact h1

/-- The selection loop returns when the fuel covers `nodesLeft`. -/
theorem mainLoop_returns {sortSlice : (Nat → Nat → Bool) → List Nat → List Nat}
    (hs : SortContract sortSlice) (earlyExit : Bool) (g : graph P) (dst : Nat) :
    ∀ (fuel : Nat) (st : State), st.nodesLeft.length ≤ fuel →
      ∃ st', mainLoop sortSlice earlyExit g dst fuel st = some st' := by
  intro fuel
  induction fuel with
  | zero =>
    intro st hl
    have : ¬ st.nodesLeft.length > 0 := by omega
    simp only [mainLoop, this, if_false]
    exact ⟨st, rfl⟩
  | succ fuel ih =>
    intro st hl
    by_cases hpos : st.nodesLeft.length > 0
    swap
    · simp only [mainLoop, hpos, if_false]
      exact ⟨st, rfl⟩
    simp only [mainLoop, hpos, if_true]
    have hplen := (hs st.distance st.nodesLeft).1.length_eq
    split
    · rename_i hsort
      rw [hsort] at hplen
      simp only [List.length_nil] at hplen
      omega
    · rename_i cur rest hsort
      rw [hsort] at hplen
      split
      · exact ⟨_, rfl⟩
      · apply ih
        rw [relaxEdges_nodesLeft]
        show rest.length ≤ fuel
        simp only [List.length_cons] at hplen
        omega

/-! ## The state at the head of the first iteration -/

theorem initLoop_eq : ∀ (ns : List Nat) (st : State),
    (initLoop ns st).nodesLeft = st.nodesLeft ++ ns ∧
    (initLoop ns st).previousNode = st.previousNode ∧
    ∀ i, (initLoop ns st).distance i = if i ∈ ns then Dist.inf else st.distance i
  | [], st => by simp [initLoop]
  | n :: ns, st => by
    obtain ⟨h1, h2, h3⟩ := initLoop_eq ns
      { st with distance := assign st.distance n Dist.inf, nodesLeft := st.nodesLeft ++ [n] }
    refine ⟨?_, ?_, ?_⟩
    · show (initLoop ns _).nodesLeft = _
      rw [h1]; simp
    · show (initLoop ns _).previousNode = _
      rw [h2]
    · intro i
      show (initLoop ns _).distance i = _
      rw [h3]
      by_cases hi : i ∈ ns
      · simp [hi]
      · by_cases hin : i = n
        · simp [hin, assign]
        · simp [hi, hin, assign]

theorem initState_nodesLeft (g : graph P) (src : Nat) :
    (initState g src).nodesLeft = List.range g.Nodes.length := by
  show (initLoop _ _).nodesLeft = _
  rw [(initLoop_eq _ _).1]; rfl

theorem initState_previousNode (g : graph P) (src : Nat) (i : Nat) :
    (initState g src).previousNode i = none := by
  show (initLoop _ _).previousNode i = _
  rw [(initLoop_eq _ _).2.1]

theorem initState_distance (g : graph P) (src : Nat) (i : Nat) :
    (initState g src).distance i =
      if i = src then Dist.fin 0 else if i < g.Nodes.length then Dist.inf else Dist.fin 0 := by
  show assign (initLoop _ _).distance src (Dist.fin 0) i = _
  by_cases hi : i = src
  · rw [hi, assign_same]; simp
  · rw [assign_other _ _ hi, (initLoop_eq _ _).2.2]
    simp [hi]

theorem initState_inv (g : graph P) {src : Nat} (hsrc : src < g.Nodes.length) :
    HeadInv g src (initState g src) := by
  have hleft := initState_nodesLeft g src
  refine ⟨⟨?_, ?_, hsrc, ?_, ?_, ?_, ?_, ?_⟩, ?_, ?_⟩
  · intro y hy
    rw [hleft] at hy
    exact List.mem_range.1 hy
  · rw [hleft]; exact List.nodup_range _
  · rw [initState_distance]; simp
  · intro v
    rw [initState_distance]
    split_ifs <;> simp
  · intro v hv hd
    rw [initState_distance] at hd
    have hvs : v = src := by
      by_contra hne
      simp [hne, hv] at hd
    subst hvs
    refine ⟨[], ⟨trivial, rfl, (fun e he => by cases he), ?_, trivial, (by simp [walkNodes]), ?_⟩⟩
    · rw [initState_distance]; simp [roundedCost, walkDist]
    · intro u hu
      left
      simpa [walkNodes] using hu
  · intro v hv
    rw [initState_previousNode, initState_distance]
    by_cases hvs : v = src
    · simp [hvs]
    · simp [hvs, hv]
  · intro v
    rw [initState_distance]
    split_ifs
    · exact Dist.isF64_zero
    · exact Dist.isF64_inf
    · exact Dist.isF64_zero
  · intro u hu hnl
    rw [hleft] at hnl
    exact absurd (List.mem_range.2 hu) hnl
  · intro u hnl e he
    rw [hleft] at hnl
    exact absurd (List.mem_range.2 (edgesAt_lt he)) hnl

/-! ## Every walk is at least as long as the distance found -/

/-- A walk that starts below the bound `b` ends below the `float64` cost
accumulated along it from `b`, or some node still in `nodesLeft` lies below
that. -/
theorem walk_bound {g : graph P} (hnn : g.NonNeg) {src : Nat} {st : State}
    (h : HeadInv g src st) : ∀ (es : List Edge) (u : Nat) (b : Dist), b.IsF64 →
      IsWalk g u es → (∀ e ∈ es, g.disabledAt e.Node = false) →
      (st.distance u ≤ b ∨ ∃ y ∈ st.nodesLeft, st.distance y ≤ b) →
      (st.distance (walkEnd u es) ≤ walkDist b es ∨
        ∃ y ∈ st.nodesLeft, st.distance y ≤ walkDist b es)
  | [], u, b, _, _, _, hq => hq
  | e :: es, u, b, hb, hw, hen, hq => by
    have hc : 0 ≤ e.Cost := edgesAt_cost_nonneg hnn hw.1
    have hmono : b ≤ b.add e.Cost := Dist.le_add hb hc
    have hstep : st.distance e.Node ≤ b.add e.Cost ∨
        ∃ y ∈ st.nodesLeft, st.distance y ≤ b.add e.Cost := by
      rcases hq with hq | ⟨y, hy, hq⟩
      · by_cases hu : u ∈ st.nodesLeft
        · exact Or.inr ⟨u, hu, le_trans hq hmono⟩
        · left
          have h1 := h.closed u hu e hw.1 (hen e (List.mem_cons_self _ _))
          have h2 := Dist.add_le_add hq e.Cost
          exact le_trans h1 h2
      · exact Or.inr ⟨y, hy, le_trans hq hmono⟩
    exact walk_bound hnn h es e.Node (b.add e.Cost) (Dist.add_isF64 _ _) hw.2
      (fun e' he' => hen e' (List.mem_cons_of_mem _ he')) hstep

/-- In the state in which the loop stops, `distance[dst]` is at most the
`float64` cost of every walk from `src` to `dst` over enabled nodes. -/
theorem dist_le_walk {g : graph P} (hnn : g.NonNeg) {src dst : Nat} {st : State}
    (h : HeadInv g src st) (hmin : ∀ y ∈ st.nodesLeft, st.distance dst ≤ st.distance y)
    {es : List Edge} (hw : IsWalk g src es) (hend : walkEnd src es = dst)
    (hen : ∀ e ∈ es, g.disabledAt e.Node = false) :
    st.distance dst ≤ roundedCost es := by
  have h0 : st.distance src ≤ Dist.fin 0 := by rw [h.core.dist_src]
  have := walk_bound hnn h es src (Dist.fin 0) Dist.isF64_zero hw hen (Or.inl h0)
  rw [hend] at this
  rcases this with h1 | ⟨y, hy, h1⟩
  · exact h1
  · exact le_trans (hmin y hy) h1

/-! ## Rebuilding the path -/

/-- The loop that walks the `previousNode` links back from the end of a linked
walk returns the payloads of the nodes of the walk, when the fuel covers them. -/
theorem walkBack_linked {g : graph P} {prev : Nat → Option Nat} {src : Nat}
    (hsrc : prev src = none) : ∀ (es : List Edge) (fuel : Nat) (acc : List P),
      Linked prev src es → (∀ v ∈ walkNodes src es, v < g.Nodes.length) →
      walkBack g prev fuel (some (walkEnd src es)) acc =
        if es.length + 1 ≤ fuel then some (g.payloads (walkNodes src es) ++ acc) else none := by
  intro es
  induction es using List.reverseRecOn with
  | nil =>
    intro fuel acc _ hlt
    have hs : src < g.Nodes.length := hlt src (by simp [walkNodes])
    cases fuel with
    | zero => simp [walkBack, walkEnd]
    | succ fuel =>
      simp only [walkEnd, walkBack, List.getElem?_eq_getElem hs, hsrc]
      simp [walkBack, graph.payloads, walkNodes, List.getElem?_eq_getElem hs]
  | append_singleton es e ih =>
    intro fuel acc hl hlt
    obtain ⟨hl1, hl2⟩ := linked_append.1 hl
    have hprev : prev e.Node = some (walkEnd src es) := hl2.1
    have hv : e.Node < g.Nodes.length :=
      hlt e.Node (by rw [walkNodes_append_singleton]; simp)
    have hlt' : ∀ v ∈ walkNodes src es, v < g.Nodes.length := by
      intro v hv'
      exact hlt v (by rw [walkNodes_append_singleton]; exact List.mem_append_left _ hv')
    have hend : walkEnd src (es ++ [e]) = e.Node := by rw [walkEnd_append]; rfl
    rw [hend]
    cases fuel with
    | zero => simp [walkBack]
    | succ fuel =>
      simp only [walkBack, List.getElem?_eq_getElem hv, hprev]
      rw [ih fuel _ hl1 hlt']
      have hpay : g.payloads (walkNodes src (es ++ [e])) =
          g.payloads (walkNodes src es) ++ [(g.Nodes[e.Node]).Payload] := by
        rw [walkNodes_append_singleton]
        simp [graph.payloads, List.filterMap_append, List.getElem?_eq_getElem hv]
      rw [hpay]
      simp

theorem payloads_length {g : graph P} : ∀ (ns : List Nat), (∀ v ∈ ns, v < g.Nodes.length) →
    (g.payloads ns).length = ns.length
  | [], _ => rfl
  | v :: ns, h => by
    have hv : v < g.Nodes.length := h v (List.mem_cons_self _ _)
    have := payloads_length ns (fun w hw => h w (List.mem_cons_of_mem _ hw))
    simp only [graph.payloads] at this ⊢
    simp [List.filterMap_cons, List.getElem?_eq_getElem hv, this]

/-- A list of nodes of the graph without repetition is no longer than the graph. -/
theorem nodup_length_le {n : Nat} {ns : List Nat} (hnd : ns.Nodup) (hlt : ∀ v ∈ ns, v < n) :
    ns.length ≤ n := by
  have hsub : ns ⊆ List.range n := fun v hv => List.mem_range.2 (hlt v hv)
  have := (List.subperm_of_subset hnd hsub).length_le
  simpa using this

/-! ## The three outcomes of the query on an enabled source -/

/-- The query on resolved nodes, the source enabled: it runs out of fuel only
when the fuel is below the number of nodes; otherwise it stops in a state that
satisfies the loop invariant with `dst` of least distance, and either `dst` was
never reached and the answer is `ErrNoPath`, or the answer is the recorded tree
path of `dst` with its distance. -/
theorem query_cases {sortSlice : (Nat → Nat → Bool) → List Nat → List Nat}
    (hs : SortContract sortSlice) {g : graph P} (hwf : g.WF) (hnn : g.NonNeg) {src dst : Nat}
    (hsrc : src < g.Nodes.length) (hdst : dst < g.Nodes.length)
    (hen : g.disabledAt src = false) (fuel : Nat) :
    (shortestPathNodes sortSlice true fuel g src dst = .hang ∧ fuel < g.Nodes.length) ∨
    ∃ st0, HeadInv g src st0 ∧ dst ∈ st0.nodesLeft ∧
      (∀ y ∈ st0.nodesLeft, st0.distance dst ≤ st0.distance y) ∧
      ((st0.distance dst = Dist.inf ∧ src ≠ dst ∧
          shortestPathNodes sortSlice true fuel g src dst =
            .ret [] Dist.inf (some .ErrNoPath)) ∨
       (∃ es, TreePath g src st0 dst es ∧ st0.distance dst ≠ Dist.inf ∧
          shortestPathNodes sortSlice true fuel g src dst =
            .ret (g.payloads (walkNodes src es)) (st0.distance dst) none)) := by
  have hinit := initState_inv g hsrc
  have hdl : dst ∈ (initState g src).nodesLeft := by
    rw [initState_nodesLeft]; exact List.mem_range.2 hdst
  unfold shortestPathNodes
  rw [hen]
  simp only [Bool.false_eq_true, if_false]
  cases hm : mainLoop sortSlice true g dst fuel (initState g src) with
  | none =>
    left
    refine ⟨rfl, ?_⟩
    by_contra hge
    obtain ⟨st', hst'⟩ := mainLoop_returns hs true g dst fuel (initState g src)
      (by rw [initState_nodesLeft, List.length_range]; omega)
    rw [hst'] at hm; cases hm
  | some st' =>
    obtain ⟨st0, h0, hd0, hmin, hdist, hprev⟩ := mainLoop_stop hs hwf hnn fuel hinit hdl hm
    simp only [hdist, hprev]
    have hps : st0.previousNode src = none := (h0.core.prev_none src hsrc).2 (Or.inl rfl)
    by_cases hcond : ((st0.previousNode dst).isSome || decide (src = dst)) = true
    · have hfin : st0.distance dst ≠ Dist.inf := by
        intro hinf
        have hpn : st0.previousNode dst = none := (h0.core.prev_none dst hdst).2 (Or.inr hinf)
        rw [hpn] at hcond
        simp only [Option.isSome_none, Bool.false_or, decide_eq_true_eq] at hcond
        rw [← hcond, h0.core.dist_src] at hinf
        cases hinf
      obtain ⟨es, hes⟩ := h0.core.tree dst hdst hfin
      have hlt : ∀ v ∈ walkNodes src es, v < g.Nodes.length :=
        isWalk_nodes_lt hwf hsrc hes.walk
      have hwb := walkBack_linked (g := g) hps es fuel [] hes.linked hlt
      rw [hes.end_eq] at hwb
      simp only [hcond, if_true, hwb]
      have hlen : es.length + 1 ≤ g.Nodes.length := by
        have := nodup_length_le hes.nodup hlt
        simpa [walkNodes] using this
      by_cases hf : es.length + 1 ≤ fuel
      · right
        refine ⟨st0, h0, hd0, hmin, Or.inr ⟨es, hes, hfin, ?_⟩⟩
        simp only [hf, if_true, List.append_nil]
        have hpl : (g.payloads (walkNodes src es)).length = es.length + 1 := by
          rw [payloads_length _ hlt]; simp [walkNodes]
        simp [hpl]
      · left
        simp only [hf, if_false]
        exact ⟨trivial, by omega⟩
    · right
      refine ⟨st0, h0, hd0, hmin, Or.inl ?_⟩
      have hcond' : st0.previousNode dst = none ∧ src ≠ dst := by
        simpa [Bool.or_eq_true] using hcond
      have hinf : st0.distance dst = Dist.inf := by
        rcases (h0.core.prev_none dst hdst).1 hcond'.1 with h1 | h1
        · exact absurd h1.symm hcond'.2
        · exact h1
      refine ⟨hinf, hcond'.2, ?_⟩
      simp [hcond'.1, hcond'.2, hinf]

theorem shortestPath_resolved [DecidableEq P]
    (sortSlice : (Nat → Nat → Bool) → List Nat → List Nat) (fuel : Nat) {g : graph P}
    {fromPayload toPayload : P} {src dst : Nat}
    (hsrc : g.nodeByPayload fromPayload = some src) (hdst : g.nodeByPayload toPayload = some dst) :
    g.ShortestPath sortSlice fuel fromPayload toPayload =
      shortestPathNodes sortSlice true fuel g src dst := by
  simp [graph.ShortestPath, hsrc, hdst]

theorem query_disabled (sortSlice : (Nat → Nat → Bool) → List Nat → List Nat)
    (earlyExit : Bool) (fuel : Nat) {g : graph P} {src : Nat} (dst : Nat)
    (hdis : g.disabledAt src = true) :
    shortestPathNodes sortSlice earlyExit fuel g src dst = .ret [] Dist.inf (some .ErrNoPath) := by
  simp [shortestPathNodes, hdis]

/-- A successful answer is the tree path of `dst` in the state in which the
loop stopped, and its distance. -/
theorem query_success {sortSlice : (Nat → Nat → Bool) → List Nat → List Nat}
    (hs : SortContract sortSlice) {g : graph P} (hwf : g.WF) (hnn : g.NonNeg) {src dst : Nat}
    (hsrc : src < g.Nodes.length) (hdst : dst < g.Nodes.length) {fuel : Nat}
    {path : List P} {c : Dist}
    (hret : shortestPathNodes sortSlice true fuel g src dst = .ret path c none) :
    g.disabledAt src = false ∧ ∃ st0, HeadInv g src st0 ∧
      (∀ y ∈ st0.nodesLeft, st0.distance dst ≤ st0.distance y) ∧
      ∃ es, TreePath g src st0 dst es ∧ path = g.payloads (walkNodes src es) ∧
        c = st0.distance dst := by
  have hen : g.disabledAt src = false := by
    by_contra hd
    have hd' : g.disabledAt src = true := by simpa using hd
    rw [query_disabled sortSlice true fuel dst hd'] at hret
    cases hret
  refine ⟨hen, ?_⟩
  rcases query_cases hs hwf hnn hsrc hdst hen fuel with ⟨hh, -⟩ | ⟨st0, h0, -, hmin, hc⟩
  · rw [hh] at hret; cases hret
  · rcases hc with ⟨-, -, hh⟩ | ⟨es, hes, -, hh⟩
    · rw [hh] at hret; cases hret
    · rw [hh] at hret
      injection hret with h1 h2 _
      exact ⟨st0, h0, hmin, es, hes, h1.symm, h2.symm⟩

/-- The payload of a node of the graph. -/
theorem payloads_cons {g : graph P} {v : Nat} {n : Node P} (hv : g.Nodes[v]? = some n)
    (ns : List Nat) : g.payloads (v :: ns) = n.Payload :: g.payloads ns := by
  simp [graph.payloads, List.filterMap_cons, hv]

theorem payloads_append (g : graph P) (ns ms : List Nat) :
    g.payloads (ns ++ ms) = g.payloads ns ++ g.payloads ms := by
  simp [graph.payloads, List.filterMap_append]

theorem mem_payloads {g : graph P} {v : Nat} {n : Node P} (hv : g.Nodes[v]? = some n)
    {ns : List Nat} (hmem : v ∈ ns) : n.Payload ∈ g.payloads ns := by
  simp only [graph.payloads, List.mem_filterMap]
  exact ⟨v, hmem, by simp [hv]⟩

theorem payloads_getLast? {g : graph P} {src : Nat} (es : List Edge)
    (hlt : ∀ v ∈ walkNodes src es, v < g.Nodes.length) {n : Node P}
    (hn : g.Nodes[walkEnd src es]? = some n) :
    (g.payloads (walkNodes src es)).getLast? = some n.Payload := by
  induction es using List.reverseRecOn with
  | nil =>
    simp only [walkEnd] at hn
    rw [walkNodes, List.map_nil, payloads_cons hn]
    rfl
  | append_singleton es e _ =>
    have hend : walkEnd src (es ++ [e]) = e.Node := by rw [walkEnd_append]; rfl
    rw [hend] at hn
    rw [walkNodes_append_singleton, payloads_append, payloads_cons hn]
    simp [graph.payloads]

theorem payloads_resolve [DecidableEq P] {g : graph P}
    (hnd : (g.Nodes.map Node.Payload).Nodup) : ∀ {ns : List Nat},
      (∀ v ∈ ns, v < g.Nodes.length) → (g.payloads ns).map g.nodeByPayload = ns.map some
  | [], _ => rfl
  | v :: ns, h => by
    have hv : v < g.Nodes.length := h v (List.mem_cons_self _ _)
    have hn : g.Nodes[v]? = some g.Nodes[v] := List.getElem?_eq_getElem hv
    rw [payloads_cons hn, List.map_cons, List.map_cons, nodeByPayload_of_nodup hnd hn,
      payloads_resolve hnd (fun w hw => h w (List.mem_cons_of_mem _ hw))]

/-! ## Facts that hold for every graph and every sorting function -/

/-- A node without recorded predecessor still has the distance `d0` it started with. -/
theorem relaxEdge_unreached (g : graph P) (cur : Nat) (d0 : Nat → Dist) {st : State} (e : Edge)
    (h : ∀ v, st.previousNode v = none → st.distance v = d0 v) :
    ∀ v, (relaxEdge g cur st e).previousNode v = none →
      (relaxEdge g cur st e).distance v = d0 v := by
  intro v
  simp only [relaxEdge]
  split_ifs
  · exact h v
  · show assign st.previousNode e.Node (some cur) v = none → assign st.distance e.Node _ v = d0 v
    by_cases hv : v = e.Node
    · rw [hv, assign_same]; intro hh; cases hh
    · rw [assign_other _ _ hv, assign_other _ _ hv]; exact h v
  · exact h v

theorem relaxEdges_unreached (g : graph P) (cur : Nat) (d0 : Nat → Dist) :
    ∀ (es : List Edge) {st : State}, (∀ v, st.previousNode v = none → st.distance v = d0 v) →
      ∀ v, (relaxEdges g cur st es).previousNode v = none →
        (relaxEdges g cur st es).distance v = d0 v
  | [], _, h => h
  | e :: es, _, h => relaxEdges_unreached g cur d0 es (relaxEdge_unreached g cur d0 e h)

theorem mainLoop_unreached (sortSlice : (Nat → Nat → Bool) → List Nat → List Nat)
    (earlyExit : Bool) (g : graph P) (dst : Nat) (d0 : Nat → Dist) :
    ∀ (fuel : Nat) {st st' : State}, (∀ v, st.previousNode v = none → st.distance v = d0 v) →
      mainLoop sortSlice earlyExit g dst fuel st = some st' →
      ∀ v, st'.previousNode v = none → st'.distance v = d0 v := by
  intro fuel
  induction fuel with
  | zero =>
    intro st st' h hm
    simp only [mainLoop] at hm
    split_ifs at hm
    cases hm; exact h
  | succ fuel ih =>
    intro st st' h hm
    simp only [mainLoop] at hm
    split_ifs at hm
    · split at hm
      · cases hm
      · split_ifs at hm
        · cases hm; exact h
        · rename_i cur rest _ _
          have h1 : ∀ v, (State.mk st.distance st.previousNode rest).previousNode v = none →
              (State.mk st.distance st.previousNode rest).distance v = d0 v := h
          exact ih (relaxEdges_unreached g cur d0 _ h1) hm
    · cases hm; exact h

/-- The loop that rebuilds the path only ever prepends to the path. -/
theorem walkBack_length (g : graph P) (prev : Nat → Option Nat) :
    ∀ (fuel : Nat) (cur : Option Nat) (acc path : List P),
      walkBack g prev fuel cur acc = some path →
      acc.length ≤ path.length ∧ (cur.isSome = true → acc.length < path.length) := by
  intro fuel
  induction fuel with
  | zero =>
    intro cur acc path h
    cases cur with
    | none => simp only [walkBack] at h; cases h; simp
    | some c => simp [walkBack] at h
  | succ fuel ih =>
    intro cur acc path h
    cases cur with
    | none => simp only [walkBack] at h; cases h; simp
    | some c =>
      simp only [walkBack] at h
      split at h
      · have := (ih _ _ _ h).1
        simp only [List.length_cons] at this
        exact ⟨by omega, fun _ => by omega⟩
      · cases h

/-! ## The effect of `EnableNode` and `DisableNode` -/

theorem setDisabled_getElem? (g : graph P) (i : Nat) (b : Bool) (j : Nat) :
    (g.setDisabled i b).Nodes[j]? =
      (g.Nodes[j]?).map (fun n => if j = i then { n with Disabled := b } else n) := by
  unfold graph.setDisabled
  cases hi : g.Nodes[i]? with
  | none =>
    by_cases hji : j = i
    · subst hji; simp [hi]
    · simp [hji]
  | some n =>
    have hil : i < g.Nodes.length := (List.getElem?_eq_some_iff.1 hi).1
    show (g.Nodes.set i _)[j]? = _
    rw [List.getElem?_set]
    by_cases hji : j = i
    · subst hji; simp [hi, hil]
    · simp [hji, Ne.symm hji]

theorem setDisabled_length (g : graph P) (i : Nat) (b : Bool) :
    (g.setDisabled i b).Nodes.length = g.Nodes.length := by
  unfold graph.setDisabled
  cases g.Nodes[i]? <;> simp

theorem setDisabled_payloadList (g : graph P) (i : Nat) (b : Bool) :
    (g.setDisabled i b).Nodes.map Node.Payload = g.Nodes.map Node.Payload := by
  apply List.ext_getElem?
  intro j
  rw [List.getElem?_map, List.getElem?_map, setDisabled_getElem?]
  cases g.Nodes[j]? with
  | none => rfl
  | some n => by_cases hji : j = i <;> simp [hji]

theorem nodeByPayloadFrom_congr [DecidableEq P] (p : P) :
    ∀ (l l' : List (Node P)) (i : Nat), l.map Node.Payload = l'.map Node.Payload →
      nodeByPayloadFrom p l i = nodeByPayloadFrom p l' i
  | [], [], _, _ => rfl
  | [], _ :: _, _, h => by simp at h
  | _ :: _, [], _, h => by simp at h
  | n :: ns, m :: ms, i, h => by
    simp only [List.map_cons, List.cons.injEq] at h
    simp only [nodeByPayloadFrom, h.1]
    rw [nodeByPayloadFrom_congr p ns ms (i + 1) h.2]

theorem setDisabled_nodeByPayload [DecidableEq P] (g : graph P) (i : Nat) (b : Bool) (p : P) :
    (g.setDisabled i b).nodeByPayload p = g.nodeByPayload p :=
  nodeByPayloadFrom_congr p _ _ 0 (setDisabled_payloadList g i b)

theorem setDisabled_edgesAt (g : graph P) (i : Nat) (b : Bool) (j : Nat) :
    (g.setDisabled i b).edgesAt j = g.edgesAt j := by
  unfold graph.edgesAt
  rw [setDisabled_getElem?]
  cases g.Nodes[j]? with
  | none => rfl
  | some n => by_cases hji : j = i <;> simp [hji]

theorem setDisabled_disabledAt (g : graph P) {i : Nat} (hi : i < g.Nodes.length) (b : Bool)
    (j : Nat) : (g.setDisabled i b).disabledAt j = if j = i then b else g.disabledAt j := by
  unfold graph.disabledAt
  rw [setDisabled_getElem?]
  by_cases hji : j = i
  · subst hji
    simp [List.getElem?_eq_getElem hi]
  · cases g.Nodes[j]? <;> simp [hji]

theorem setDisabled_payloads (g : graph P) (i : Nat) (b : Bool) (ns : List Nat) :
    (g.setDisabled i b).payloads ns = g.payloads ns := by
  unfold graph.payloads
  congr 1
  funext j
  rw [setDisabled_getElem?]
  cases g.Nodes[j]? with
  | none => rfl
  | some n => by_cases hji : j = i <;> simp [hji]

theorem setDisabled_wf {g : graph P} (hwf : g.WF) (i : Nat) (b : Bool) :
    (g.setDisabled i b).WF := by
  intro n hn e he
  obtain ⟨j, hj⟩ := List.mem_iff_getElem?.1 hn
  have hmem : e ∈ (g.setDisabled i b).edgesAt j := by
    simp only [graph.edgesAt, hj]; exact he
  rw [setDisabled_edgesAt] at hmem
  rw [setDisabled_length]
  exact edgesAt_target_lt hwf hmem

theorem setDisabled_nonNeg {g : graph P} (hnn : g.NonNeg) (i : Nat) (b : Bool) :
    (g.setDisabled i b).NonNeg := by
  intro n hn e he
  obtain ⟨j, hj⟩ := List.mem_iff_getElem?.1 hn
  have hmem : e ∈ (g.setDisabled i b).edgesAt j := by
    simp only [graph.edgesAt, hj]; exact he
  rw [setDisabled_edgesAt] at hmem
  exact edgesAt_cost_nonneg hnn hmem

theorem setDisabled_isWalk (g : graph P) (i : Nat) (b : Bool) :
    ∀ (es : List Edge) (u : Nat), IsWalk (g.setDisabled i b) u es ↔ IsWalk g u es
  | [], _ => Iff.rfl
  | e :: es, u => by
    show (e ∈ (g.setDisabled i b).edgesAt u ∧ IsWalk (g.setDisabled i b) e.Node es) ↔
      (e ∈ g.edgesAt u ∧ IsWalk g e.Node es)
    rw [setDisabled_edgesAt, setDisabled_isWalk g i b es]

/-- Disabling and then enabling an enabled node gives back the graph. -/
theorem setDisabled_roundTrip (g : graph P) (i : Nat) (hen : g.disabledAt i = false) :
    (g.setDisabled i true).setDisabled i false = g := by
  have hnodes : ((g.setDisabled i true).setDisabled i false).Nodes = g.Nodes := by
    apply List.ext_getElem?
    intro j
    rw [setDisabled_getElem?, setDisabled_getElem?]
    cases hj : g.Nodes[j]? with
    | none => rfl
    | some n =>
      by_cases hji : j = i
      · subst hji
        have hd : n.Disabled = false := by
          simpa [graph.disabledAt, hj] using hen
        simp only [Option.map_some', if_true]
        congr 1
        cases n
        simp only at hd
        simp [hd]
      · simp [hji]
  cases hg : (g.setDisabled i true).setDisabled i false
  cases g
  rw [hg] at hnodes
  simp only at hnodes
  rw [hnodes]

/-- The first node selected is the source. -/
theorem first_selected {sortSlice : (Nat → Nat → Bool) → List Nat → List Nat}
    (hs : SortContract sortSlice) (g : graph P) {src : Nat} (hsrc : src < g.Nodes.length) :
    ∃ rest, sortSlice (lessBy (initState g src).distance) (initState g src).nodesLeft =
      src :: rest := by
  have hlen := (hs (initState g src).distance (initState g src).nodesLeft).1.length_eq
  cases hsort : sortSlice (lessBy (initState g src).distance) (initState g src).nodesLeft with
  | nil =>
    rw [hsort, initState_nodesLeft, List.length_range] at hlen
    simp only [List.length_nil] at hlen
    omega
  | cons cur rest =>
    obtain ⟨hp, hmin⟩ := sorted_head hs hsort
    have hsl : src ∈ (initState g src).nodesLeft := by
      rw [initState_nodesLeft]; exact List.mem_range.2 hsrc
    have hcl : cur < g.Nodes.length := by
      have := hp.mem_iff.1 (List.mem_cons_self _ _)
      rw [initState_nodesLeft] at this
      exact List.mem_range.1 this
    have hle := hmin src hsl
    rw [initState_distance, initState_distance] at hle
    by_cases hcs : cur = src
    · exact ⟨rest, by rw [hcs]⟩
    · simp [hcs, hcl] at hle

/-- After disabling a node that is not on the returned path, the query succeeds
again with the same cost, on a path of enabled nodes: the payloads of a walk of
the graph that visits no node twice and has that cost. -/
theorem disable_offpath_core [DecidableEq P]
    {sortSlice : (Nat → Nat → Bool) → List Nat → List Nat} (hs : SortContract sortSlice)
    {g : graph P} (hwf : g.WF) (hnn : g.NonNeg) {fuel : Nat} {fromPayload toPayload x : P}
    {src dst xi : Nat} (hsrc : g.nodeByPayload fromPayload = some src)
    (hdst : g.nodeByPayload toPayload = some dst) (hxi : g.nodeByPayload x = some xi)
    {path : List P} {cost : Dist}
    (hret : g.ShortestPath sortSlice fuel fromPayload toPayload = .ret path cost none)
    (hx : x ∉ path) {fuel' : Nat} (hf : g.Nodes.length ≤ fuel') :
    ∃ es : List Edge,
      (g.setDisabled xi true).ShortestPath sortSlice fuel' fromPayload toPayload =
        .ret ((g.setDisabled xi true).payloads (walkNodes src es)) cost none ∧
      (∀ v ∈ walkNodes src es, (g.setDisabled xi true).disabledAt v = false) ∧
      xi ∉ walkNodes src es ∧
      IsWalk g src es ∧ walkEnd src es = dst ∧ (walkNodes src es).Nodup ∧
      roundedCost es = cost := by
  have hsl := nodeByPayload_lt hsrc
  have hdl := nodeByPayload_lt hdst
  have hxl := nodeByPayload_lt hxi
  rw [shortestPath_resolved sortSlice fuel hsrc hdst] at hret
  obtain ⟨hen, st0, h0, hmin, es, hes, hp, hc⟩ := query_success hs hwf hnn hsl hdl hret
  obtain ⟨nx, hnx, hnxp⟩ := nodeByPayload_some hxi
  have hxes : xi ∉ walkNodes src es := by
    intro hmem
    apply hx
    rw [hp, ← hnxp]
    exact mem_payloads hnx hmem
  have hsx : src ≠ xi := by
    intro heq
    apply hxes
    rw [← heq]
    simp [walkNodes]
  have hdA : ∀ v, (g.setDisabled xi true).disabledAt v = if v = xi then true else g.disabledAt v :=
    setDisabled_disabledAt g hxl true
  have hwf' := setDisabled_wf hwf xi true
  have hnn' := setDisabled_nonNeg hnn xi true
  have hlen' := setDisabled_length g xi true
  have hen' : (g.setDisabled xi true).disabledAt src = false := by
    rw [hdA, if_neg hsx]; exact hen
  have hsrc' : (g.setDisabled xi true).nodeByPayload fromPayload = some src := by
    rw [setDisabled_nodeByPayload]; exact hsrc
  have hdst' : (g.setDisabled xi true).nodeByPayload toPayload = some dst := by
    rw [setDisabled_nodeByPayload]; exact hdst
  have hwalk' : IsWalk (g.setDisabled xi true) src es := (setDisabled_isWalk g xi true es src).2 hes.walk
  have henes' : ∀ e ∈ es, (g.setDisabled xi true).disabledAt e.Node = false := by
    intro e he
    have hne : e.Node ≠ xi := by
      intro heq
      apply hxes
      simp only [walkNodes, List.mem_cons, List.mem_map]
      exact Or.inr ⟨e, he, heq⟩
    rw [hdA, if_neg hne]
    exact hes.enabled e he
  rw [shortestPath_resolved sortSlice fuel' hsrc' hdst']
  rcases query_cases hs hwf' hnn' (hlen'.symm ▸ hsl) (hlen'.symm ▸ hdl) hen' fuel'
    with ⟨-, hlt⟩ | ⟨st1, h1, -, hmin1, hcase⟩
  · rw [hlen'] at hlt; omega
  have hle1 : st1.distance dst ≤ roundedCost es :=
    dist_le_walk hnn' h1 hmin1 hwalk' hes.end_eq henes'
  have hfin0 : roundedCost es ≠ Dist.inf := by
    rw [← hes.cost]
    rcases query_cases hs hwf hnn hsl hdl hen fuel with ⟨hh, -⟩ | ⟨st2, -, -, -, hc2⟩
    · rw [hh] at hret; cases hret
    · rcases hc2 with ⟨-, -, hh⟩ | ⟨es2, -, hfin2, hh⟩
      · rw [hh] at hret; cases hret
      · rw [hh] at hret
        injection hret with _ h2 _
        rw [← hc, ← h2]; exact hfin2
  rcases hcase with ⟨hinf, -, -⟩ | ⟨es1, hes1, -, hout⟩
  · rw [hinf] at hle1
    exact absurd ((Dist.inf_le _).1 hle1) hfin0
  · have hall1 : ∀ v ∈ walkNodes src es1, (g.setDisabled xi true).disabledAt v = false := by
      intro v hv
      simp only [walkNodes, List.mem_cons, List.mem_map] at hv
      rcases hv with rfl | ⟨e, he, rfl⟩
      · exact hen'
      · exact hes1.enabled e he
    have hx1 : xi ∉ walkNodes src es1 := by
      intro hmem
      have := hall1 xi hmem
      rw [hdA, if_pos rfl] at this
      cases this
    have hwalk1 : IsWalk g src es1 := (setDisabled_isWalk g xi true es1 src).1 hes1.walk
    have hle0 : st0.distance dst ≤ roundedCost es1 := by
      refine dist_le_walk hnn h0 hmin hwalk1 hes1.end_eq ?_
      intro e he
      have := hes1.enabled e he
      rw [hdA] at this
      by_cases hne : e.Node = xi
      · rw [if_pos hne] at this; cases this
      · rw [if_neg hne] at this; exact this
    have hcost : st1.distance dst = cost := by
      rw [hc]
      apply le_antisymm
      · rw [hes.cost]; exact hle1
      · rw [hes1.cost]; exact hle0
    refine ⟨es1, ?_, hall1, hx1, hwalk1, hes1.end_eq, hes1.nodup, ?_⟩
    · rw [hout, hcost]
    · rw [← hes1.cost]; exact hcost

/-- On `exampleGraph`, the walk `a b d` is the only walk from `a` to `d` of
cost 2. -/
theorem exampleGraph_unique (es : List Edge) (hw : IsWalk exampleGraph 0 es)
    (hend : walkEnd 0 es = 3) (hc : roundedCost es = Dist.fin (f64 2)) :
    exampleGraph.payloads (walkNodes 0 es) = ["a", "b", "d"] := by
  match es, hw, hend, hc with
  | [], _, hend, _ => exact absurd hend (by decide)
  | [e1], hw, hend, _ =>
    have h1 : e1 ∈ [(⟨1, f64 1⟩ : Edge), ⟨2, f64 10⟩] := hw.1
    simp only [List.mem_cons, List.mem_singleton, List.not_mem_nil, or_false] at h1
    rcases h1 with rfl | rfl
    · exact absurd hend (by decide)
    · exact absurd hend (by decide)
  | [e1, e2], hw, _, hc =>
    have h1 : e1 ∈ [(⟨1, f64 1⟩ : Edge), ⟨2, f64 10⟩] := hw.1
    simp only [List.mem_cons, List.mem_singleton, List.not_mem_nil, or_false] at h1
    rcases h1 with rfl | rfl
    · have h2 : e2 ∈ [(⟨3, f64 1⟩ : Edge)] := hw.2.1
      rw [List.mem_singleton.1 h2]
      decide
    · have h2 : e2 ∈ [(⟨3, f64 1⟩ : Edge)] := hw.2.1
      rw [List.mem_singleton.1 h2] at hc
      exact absurd hc (by decide)
  | e1 :: e2 :: e3 :: _, hw, _, _ =>
    have h1 : e1 ∈ [(⟨1, f64 1⟩ : Edge), ⟨2, f64 10⟩] := hw.1
    simp only [List.mem_cons, List.mem_singleton, List.not_mem_nil, or_false] at h1
    rcases h1 with rfl | rfl
    · have h2 : e2 ∈ [(⟨3, f64 1⟩ : Edge)] := hw.2.1
      have h3 : e3 ∈ exampleGraph.edgesAt e2.Node := hw.2.2.1
      rw [List.mem_singleton.1 h2] at h3
      have h4 : e3 ∈ ([] : List Edge) := h3
      exact absurd h4 (List.not_mem_nil _)
    · have h2 : e2 ∈ [(⟨3, f64 1⟩ : Edge)] := hw.2.1
      have h3 : e3 ∈ exampleGraph.edgesAt e2.Node := hw.2.2.1
      rw [List.mem_singleton.1 h2] at h3
      have h4 : e3 ∈ ([] : List Edge) := h3
      exact absurd h4 (List.not_mem_nil _)

theorem query_ne_panic (sortSlice : (Nat → Nat → Bool) → List Nat → List Nat)
    (earlyExit : Bool) (fuel : Nat) (g : graph P) (src dst : Nat) :
    shortestPathNodes sortSlice earlyExit fuel g src dst ≠ .panic := by
  unfold shortestPathNodes
  split_ifs
  · intro h; cases h
  · cases mainLoop sortSlice earlyExit g dst fuel (initState g src) with
    | none => intro h; cases h
    | some st =>
      simp only
      cases (if ((st.previousNode dst).isSome || decide (src = dst)) = true then
          walkBack g st.previousNode fuel (some dst) [] else some []) with
      | none => intro h; cases h
      | some path =>
        simp only
        split_ifs <;> (intro h; cases h)

/-! ## The effect of `AddNode` and `AddEdge` -/

theorem nodeByPayloadFrom_first [DecidableEq P] {p : P} :
    ∀ {l : List (Node P)} {i j : Nat}, nodeByPayloadFrom p l i = some j →
      ∀ k, k < j - i → ∀ n, l[k]? = some n → n.Payload ≠ p
  | [], _, _, h => by simp [nodeByPayloadFrom] at h
  | m :: ms, i, j, h => by
    unfold nodeByPayloadFrom at h
    split at h
    · cases h
      intro k hk
      omega
    · rename_i hp
      have hle := (nodeByPayloadFrom_some h).1
      intro k hk n hn
      cases k with
      | zero =>
        simp only [List.getElem?_cons_zero, Option.some.injEq] at hn
        rw [← hn]
        exact fun heq => hp heq.symm
      | succ k =>
        simp only [List.getElem?_cons_succ] at hn
        exact nodeByPayloadFrom_first h k (by omega) n hn

/-- The node that `nodeByPayload` returns is the first one with the payload. -/
theorem nodeByPayload_first [DecidableEq P] {g : graph P} {p : P} {i : Nat}
    (h : g.nodeByPayload p = some i) :
    ∀ k, k < i → ∀ n, g.Nodes[k]? = some n → n.Payload ≠ p := by
  intro k hk n hn
  exact nodeByPayloadFrom_first h k (by omega) n hn

theorem appendEdge_getElem? (g : graph P) (i : Nat) (e : Edge) (j : Nat) :
    (g.appendEdge i e).Nodes[j]? =
      (g.Nodes[j]?).map (fun n => if j = i then { n with Edges := n.Edges ++ [e] } else n) := by
  unfold graph.appendEdge
  cases hi : g.Nodes[i]? with
  | none =>
    by_cases hji : j = i
    · subst hji; simp [hi]
    · simp [hji]
  | some n =>
    have hil : i < g.Nodes.length := (List.getElem?_eq_some_iff.1 hi).1
    show (g.Nodes.set i _)[j]? = _
    rw [List.getElem?_set]
    by_cases hji : j = i
    · subst hji; simp [hi, hil]
    · simp [hji, Ne.symm hji]

theorem appendEdge_length (g : graph P) (i : Nat) (e : Edge) :
    (g.appendEdge i e).Nodes.length = g.Nodes.length := by
  unfold graph.appendEdge
  cases g.Nodes[i]? <;> simp

theorem appendEdge_payloadList (g : graph P) (i : Nat) (e : Edge) :
    (g.appendEdge i e).Nodes.map Node.Payload = g.Nodes.map Node.Payload := by
  apply List.ext_getElem?
  intro j
  rw [List.getElem?_map, List.getElem?_map, appendEdge_getElem?]
  cases g.Nodes[j]? with
  | none => rfl
  | some n => by_cases hji : j = i <;> simp [hji]

theorem appendEdge_nodeByPayload [DecidableEq P] (g : graph P) (i : Nat) (e : Edge) (p : P) :
    (g.appendEdge i e).nodeByPayload p = g.nodeByPayload p :=
  nodeByPayloadFrom_congr p _ _ 0 (appendEdge_payloadList g i e)

theorem appendEdge_edgesAt (g : graph P) {i : Nat} (hi : i < g.Nodes.length) (e : Edge)
    (j : Nat) :
    (g.appendEdge i e).edgesAt j = if j = i then g.edgesAt i ++ [e] else g.edgesAt j := by
  unfold graph.edgesAt
  rw [appendEdge_getElem?]
  by_cases hji : j = i
  · subst hji
    simp [List.getElem?_eq_getElem hi]
  · cases g.Nodes[j]? <;> simp [hji]

theorem appendEdge_disabledAt (g : graph P) (i : Nat) (e : Edge) (j : Nat) :
    (g.appendEdge i e).disabledAt j = g.disabledAt j := by
  unfold graph.disabledAt
  rw [appendEdge_getElem?]
  cases g.Nodes[j]? with
  | none => rfl
  | some n => by_cases hji : j = i <;> simp [hji]

/-- A graph is well formed when every edge list read through a pointer holds
targets inside the graph. -/
theorem wf_iff_edgesAt (g : graph P) :
    g.WF ↔ ∀ j, ∀ e ∈ g.edgesAt j, e.Node < g.Nodes.length := by
  constructor
  · intro hwf j e he
    exact edgesAt_target_lt hwf he
  · intro h n hn e he
    obtain ⟨j, hj⟩ := List.mem_iff_getElem?.1 hn
    exact h j e (by simp only [graph.edgesAt, hj]; exact he)

theorem appendEdge_wf {g : graph P} (hwf : g.WF) {i : Nat} (e : Edge)
    (he : e.Node < g.Nodes.length) : (g.appendEdge i e).WF := by
  rw [wf_iff_edgesAt]
  intro j e' he'
  rw [appendEdge_length]
  by_cases hi : i < g.Nodes.length
  · rw [appendEdge_edgesAt g hi] at he'
    by_cases hji : j = i
    · rw [if_pos hji] at he'
      rcases List.mem_append.1 he' with h1 | h1
      · exact edgesAt_target_lt hwf h1
      · rw [List.mem_singleton.1 h1]; exact he
    · rw [if_neg hji] at he'
      exact edgesAt_target_lt hwf he'
  · have : g.appendEdge i e = g := by
      unfold graph.appendEdge
      rw [List.getElem?_eq_none (by omega)]
    rw [this] at he'
    exact edgesAt_target_lt hwf he'

theorem addNode_wf {g : graph P} (hwf : g.WF) (p : P) : (g.AddNode p).WF := by
  intro n hn e he
  simp only [graph.AddNode, List.mem_append, List.mem_singleton] at hn
  simp only [graph.AddNode, List.length_append, List.length_singleton]
  rcases hn with hn | rfl
  · exact Nat.lt_succ_of_lt (hwf n hn e he)
  · cases he

theorem addEdge_returned [DecidableEq P] {g g' : graph P} {a b : P} {cost : Int}
    (h : g.AddEdge a b cost = .returned g') :
    ∃ i j, g.nodeByPayload a = some i ∧ g.nodeByPayload b = some j ∧
      g' = g.appendEdge i ⟨j, cost⟩ := by
  unfold graph.AddEdge at h
  cases ha : g.nodeByPayload a with
  | none => simp [ha] at h
  | some i =>
    cases hb : g.nodeByPayload b with
    | none => simp [ha, hb] at h
    | some j =>
      simp only [ha, hb, Mutation.returned.injEq] at h
      exact ⟨i, j, rfl, rfl, h.symm⟩

theorem addEdge_panicked [DecidableEq P] {g g' : graph P} {a b : P} {cost : Int}
    (h : g.AddEdge a b cost = .panicked g') :
    g' = g ∧ (g.nodeByPayload a = none ∨ g.nodeByPayload b = none) := by
  unfold graph.AddEdge at h
  cases ha : g.nodeByPayload a with
  | none =>
    simp only [ha, Mutation.panicked.injEq] at h
    exact ⟨h.symm, Or.inl rfl⟩
  | some i =>
    cases hb : g.nodeByPayload b with
    | none =>
      simp only [ha, hb, Mutation.panicked.injEq] at h
      exact ⟨h.symm, Or.inr rfl⟩
    | some j => simp [ha, hb] at h

theorem addEdge_wf [DecidableEq P] {g g' : graph P} (hwf : g.WF) {a b : P} {cost : Int}
    (h : g.AddEdge a b cost = .returned g') : g'.WF := by
  obtain ⟨i, j, -, hb, rfl⟩ := addEdge_returned h
  exact appendEdge_wf hwf _ (nodeByPayload_lt hb)

/-! ## The selection loop with and without the early exit -/

/-- The selection loop, with or without the early exit, never touches the
entries of a node that has left `nodesLeft`, and puts no node back. -/
theorem mainLoop_frame {sortSlice : (Nat → Nat → Bool) → List Nat → List Nat}
    (hs : SortContract sortSlice) {g : graph P} (hwf : g.WF) (hnn : g.NonNeg) {src : Nat}
    (earlyExit : Bool) (dst : Nat) :
    ∀ (fuel : Nat) {st st' : State}, HeadInv g src st →
      mainLoop sortSlice earlyExit g dst fuel st = some st' →
      (∀ u, u ∉ st.nodesLeft →
        st'.distance u = st.distance u ∧ st'.previousNode u = st.previousNode u) ∧
      (∀ u ∈ st'.nodesLeft, u ∈ st.nodesLeft) := by
  intro fuel
  induction fuel with
  | zero =>
    intro st st' _ hm
    simp only [mainLoop] at hm
    split_ifs at hm
    cases hm
    exact ⟨fun _ _ => ⟨rfl, rfl⟩, fun _ hu => hu⟩
  | succ fuel ih =>
    intro st st' h hm
    simp only [mainLoop] at hm
    split_ifs at hm
    swap
    · cases hm
      exact ⟨fun _ _ => ⟨rfl, rfl⟩, fun _ hu => hu⟩
    split at hm
    · cases hm
    · rename_i cur rest hsort
      obtain ⟨hp, hmin⟩ := sorted_head hs hsort
      have hsub : ∀ y ∈ rest, y ∈ st.nodesLeft :=
        fun y hy => hp.mem_iff.1 (List.mem_cons_of_mem _ hy)
      split_ifs at hm
      · cases hm
        exact ⟨fun _ _ => ⟨rfl, rfl⟩, hsub⟩
      · obtain ⟨h2, f2⟩ := iteration_inv hwf hnn h hp hmin
        obtain ⟨i1, i2⟩ := ih h2 hm
        have hleft : (relaxEdges g cur { st with nodesLeft := rest } (g.edgesAt cur)).nodesLeft
            = rest := f2.left_eq
        refine ⟨?_, ?_⟩
        · intro u hu
          have hur : u ∉ rest := fun hmem => hu (hsub u hmem)
          obtain ⟨a1, a2⟩ := i1 u (by rw [hleft]; exact hur)
          exact ⟨a1.trans (f2.dist_eq u hur), a2.trans (f2.prev_eq u hur)⟩
        · intro u hu
          have := i2 u hu
          rw [hleft] at this
          exact hsub u this

/-- The state in which the loop of the source stops, with the slice it leaves:
`nodesLeft` of the iteration that selected `dst`, without `dst`. -/
theorem mainLoop_stop_perm {sortSlice : (Nat → Nat → Bool) → List Nat → List Nat}
    (hs : SortContract sortSlice) {g : graph P} (hwf : g.WF) (hnn : g.NonNeg) {src dst : Nat} :
    ∀ (fuel : Nat) {st st' : State}, HeadInv g src st → dst ∈ st.nodesLeft →
      mainLoop sortSlice true g dst fuel st = some st' →
      ∃ st0, HeadInv g src st0 ∧ (dst :: st'.nodesLeft).Perm st0.nodesLeft ∧
        (∀ y ∈ st0.nodesLeft, st0.distance dst ≤ st0.distance y) ∧
        st'.distance = st0.distance ∧ st'.previousNode = st0.previousNode := by
  intro fuel
  induction fuel with
  | zero =>
    intro st st' h hd hm
    have hpos : st.nodesLeft.length > 0 := List.length_pos_of_mem hd
    simp only [mainLoop, hpos, if_true] at hm
    cases hm
  | succ fuel ih =>
    intro st st' h hd hm
    have hpos : st.nodesLeft.length > 0 := List.length_pos_of_mem hd
    simp only [mainLoop, hpos, if_true] at hm
    split at hm
    · cases hm
    · rename_i cur rest hsort
      obtain ⟨hp, hmin⟩ := sorted_head hs hsort
      by_cases hcd : cur = dst
      · simp only [hcd, Bool.true_and, decide_True, if_true, Option.some.injEq] at hm
        subst hm
        exact ⟨st, h, hcd ▸ hp, fun y hy => hcd ▸ hmin y hy, rfl, rfl⟩
      · simp only [hcd, Bool.true_and, decide_False, Bool.false_eq_true, if_false] at hm
        obtain ⟨h2, f2⟩ := iteration_inv hwf hnn h hp hmin
        refine ih h2 ?_ hm
        rw [f2.left_eq]
        rcases List.mem_cons.1 (hp.mem_iff.2 hd) with h1 | h1
        · exact absurd h1.symm hcd
        · exact h1

/-- The loop without the early exit ends in a state that agrees with the state
in which the loop of the source stops, on every node outside the slice the
source leaves. -/
theorem mainLoop_noBreak_agree {sortSlice : (Nat → Nat → Bool) → List Nat → List Nat}
    (hs : SortContract sortSlice) {g : graph P} (hwf : g.WF) (hnn : g.NonNeg) {src dst : Nat} :
    ∀ (fuel : Nat) {st stT stF : State}, HeadInv g src st → dst ∈ st.nodesLeft →
      mainLoop sortSlice true g dst fuel st = some stT →
      mainLoop sortSlice false g dst fuel st = some stF →
      ∀ u, u ∉ stT.nodesLeft →
        stF.distance u = stT.distance u ∧ stF.previousNode u = stT.previousNode u := by
  intro fuel
  induction fuel with
  | zero =>
    intro st stT stF h hd hmT _
    have hpos : st.nodesLeft.length > 0 := List.length_pos_of_mem hd
    simp only [mainLoop, hpos, if_true] at hmT
    cases hmT
  | succ fuel ih =>
    intro st stT stF h hd hmT hmF
    have hpos : st.nodesLeft.length > 0 := List.length_pos_of_mem hd
    simp only [mainLoop, hpos, if_true] at hmT hmF
    split at hmT
    · cases hmT
    · rename_i cur rest hsort
      rw [hsort] at hmF
      simp only [Bool.false_and, Bool.false_eq_true, if_false] at hmF
      obtain ⟨hp, hmin⟩ := sorted_head hs hsort
      obtain ⟨h2, f2⟩ := iteration_inv hwf hnn h hp hmin
      have hleft : (relaxEdges g cur { st with nodesLeft := rest } (g.edgesAt cur)).nodesLeft
          = rest := f2.left_eq
      by_cases hcd : cur = dst
      · simp only [hcd, Bool.true_and, decide_True, if_true, Option.some.injEq] at hmT
        subst hmT
        intro u hu
        have hur : u ∉ rest := hu
        obtain ⟨a1, a2⟩ := (mainLoop_frame hs hwf hnn false dst fuel h2 hmF).1 u
          (by rw [hleft]; exact hur)
        exact ⟨a1.trans (f2.dist_eq u hur), a2.trans (f2.prev_eq u hur)⟩
      · simp only [hcd, Bool.true_and, decide_False, Bool.false_eq_true, if_false] at hmT
        refine ih h2 ?_ hmT hmF
        rw [hleft]
        rcases List.mem_cons.1 (hp.mem_iff.2 hd) with h1 | h1
        · exact absurd h1.symm hcd
        · exact h1

/-- On resolved nodes and with fuel for as many iterations as the graph has
nodes, the query with the early exit and the query without it return the
same. -/
theorem query_noBreak_eq {sortSlice : (Nat → Nat → Bool) → List Nat → List Nat}
    (hs : SortContract sortSlice) {g : graph P} (hwf : g.WF) (hnn : g.NonNeg) {src dst : Nat}
    (hsrc : src < g.Nodes.length) (hdst : dst < g.Nodes.length) {fuel : Nat}
    (hf : g.Nodes.length ≤ fuel) :
    shortestPathNodes sortSlice true fuel g src dst =
      shortestPathNodes sortSlice false fuel g src dst := by
  by_cases hdis : g.disabledAt src = true
  · rw [query_disabled sortSlice true fuel dst hdis, query_disabled sortSlice false fuel dst hdis]
  have hen : g.disabledAt src = false := by simpa using hdis
  have hinit := initState_inv g hsrc
  have hdl : dst ∈ (initState g src).nodesLeft := by
    rw [initState_nodesLeft]; exact List.mem_range.2 hdst
  have hlen : (initState g src).nodesLeft.length ≤ fuel := by
    rw [initState_nodesLeft, List.length_range]; exact hf
  obtain ⟨stT, hmT⟩ := mainLoop_returns hs true g dst fuel (initState g src) hlen
  obtain ⟨stF, hmF⟩ := mainLoop_returns hs false g dst fuel (initState g src) hlen
  obtain ⟨st0, h0, hperm, -, hdist, hprev⟩ := mainLoop_stop_perm hs hwf hnn fuel hinit hdl hmT
  have hagree := mainLoop_noBreak_agree hs hwf hnn fuel hinit hdl hmT hmF
  have hnd : (dst :: stT.nodesLeft).Nodup := hperm.nodup_iff.2 h0.core.left_nodup
  have hdT : dst ∉ stT.nodesLeft := (List.nodup_cons.1 hnd).1
  have hsubT : ∀ u, u ∈ stT.nodesLeft → u ∈ st0.nodesLeft :=
    fun u hu => hperm.mem_iff.1 (List.mem_cons_of_mem _ hu)
  obtain ⟨hd, hpd⟩ := hagree dst hdT
  have hwalk : ((stT.previousNode dst).isSome || decide (src = dst)) = true →
      walkBack g stF.previousNode fuel (some dst) [] =
        walkBack g stT.previousNode fuel (some dst) [] := by
    intro hcond
    have hfin : st0.distance dst ≠ Dist.inf := by
      intro hinf
      have hpn : st0.previousNode dst = none := (h0.core.prev_none dst hdst).2 (Or.inr hinf)
      rw [hprev, hpn] at hcond
      simp only [Option.isSome_none, Bool.false_or, decide_eq_true_eq] at hcond
      rw [← hcond, h0.core.dist_src] at hinf
      cases hinf
    obtain ⟨es, hes⟩ := h0.core.tree dst hdst hfin
    have hlt : ∀ v ∈ walkNodes src es, v < g.Nodes.length := isWalk_nodes_lt hwf hsrc hes.walk
    have hout : ∀ u ∈ walkNodes src es, u ∉ stT.nodesLeft := by
      intro u hu
      rcases hes.settled u hu with rfl | h1
      · exact hdT
      · exact fun hmem => h1 (hsubT u hmem)
    have hsT : src ∉ stT.nodesLeft := hout src (by simp [walkNodes])
    have hps0 : st0.previousNode src = none := (h0.core.prev_none src hsrc).2 (Or.inl rfl)
    have hpsT : stT.previousNode src = none := by rw [hprev]; exact hps0
    have hpsF : stF.previousNode src = none := by rw [(hagree src hsT).2]; exact hpsT
    have hlT : Linked stT.previousNode src es := by rw [hprev]; exact hes.linked
    have hlF : Linked stF.previousNode src es := by
      refine linked_congr ?_ hlT
      intro e he
      exact (hagree e.Node (hout e.Node (by
        simp only [walkNodes, List.mem_cons, List.mem_map]
        exact Or.inr ⟨e, he, rfl⟩))).2
    have h1 := walkBack_linked (g := g) hpsT es fuel [] hlT hlt
    have h2 := walkBack_linked (g := g) hpsF es fuel [] hlF hlt
    rw [hes.end_eq] at h1 h2
    rw [h1, h2]
  simp only [shortestPathNodes, hen, hmT, hmF, hpd, hd, Bool.false_eq_true, if_false]
  by_cases hcond : ((stT.previousNode dst).isSome || decide (src = dst)) = true
  · simp only [hcond, if_true, hwalk hcond]
  · simp only [hcond, Bool.false_eq_true, if_false]

/-! ## Termination and simple paths -/

/-- With fuel for as many iterations as the graph has nodes the query on
resolved nodes returns. -/
theorem query_returns {sortSlice : (Nat → Nat → Bool) → List Nat → List Nat}
    (hs : SortContract sortSlice) {g : graph P} (hwf : g.WF) (hnn : g.NonNeg) {src dst : Nat}
    (hsrc : src < g.Nodes.length) (hdst : dst < g.Nodes.length) {fuel : Nat}
    (hf : g.Nodes.length ≤ fuel) :
    ∃ path cost err, shortestPathNodes sortSlice true fuel g src dst = .ret path cost err := by
  by_cases hdis : g.disabledAt src = true
  · exact ⟨_, _, _, query_disabled sortSlice true fuel dst hdis⟩
  have hen : g.disabledAt src = false := by simpa using hdis
  rcases query_cases hs hwf hnn hsrc hdst hen fuel with ⟨-, hlt⟩ | ⟨st0, -, -, -, hc⟩
  · omega
  · rcases hc with ⟨-, -, hout⟩ | ⟨es, -, -, hout⟩
    · exact ⟨_, _, _, hout⟩
    · exact ⟨_, _, _, hout⟩

/-- Both loops of the query finish within as many iterations as the graph has
nodes. -/
theorem loops_terminate {sortSlice : (Nat → Nat → Bool) → List Nat → List Nat}
    (hs : SortContract sortSlice) {g : graph P} (hwf : g.WF) (hnn : g.NonNeg) {src dst : Nat}
    (hsrc : src < g.Nodes.length) (hdst : dst < g.Nodes.length) :
    ∃ st, mainLoop sortSlice true g dst g.Nodes.length (initState g src) = some st ∧
      ∃ path, walkBack g st.previousNode g.Nodes.length (some dst) [] = some path := by
  have hinit := initState_inv g hsrc
  have hdl : dst ∈ (initState g src).nodesLeft := by
    rw [initState_nodesLeft]; exact List.mem_range.2 hdst
  obtain ⟨st, hm⟩ := mainLoop_returns hs true g dst g.Nodes.length (initState g src)
    (by rw [initState_nodesLeft, List.length_range])
  obtain ⟨st0, h0, -, -, hdist, hprev⟩ := mainLoop_stop hs hwf hnn _ hinit hdl hm
  refine ⟨st, hm, ?_⟩
  rw [hprev]
  have hps : st0.previousNode src = none := (h0.core.prev_none src hsrc).2 (Or.inl rfl)
  by_cases hfin : st0.distance dst = Dist.inf
  · have hpd : st0.previousNode dst = none := (h0.core.prev_none dst hdst).2 (Or.inr hfin)
    obtain ⟨m, hm'⟩ : ∃ m, g.Nodes.length = m + 1 := ⟨g.Nodes.length - 1, by omega⟩
    rw [hm']
    simp only [walkBack, List.getElem?_eq_getElem hdst, hpd]
    cases m <;> exact ⟨_, rfl⟩
  · obtain ⟨es, hes⟩ := h0.core.tree dst hdst hfin
    have hlt : ∀ v ∈ walkNodes src es, v < g.Nodes.length := isWalk_nodes_lt hwf hsrc hes.walk
    have hwb := walkBack_linked (g := g) hps es g.Nodes.length [] hes.linked hlt
    rw [hes.end_eq] at hwb
    have hlen : es.length + 1 ≤ g.Nodes.length := by
      have := nodup_length_le hes.nodup hlt
      simpa [walkNodes] using this
    rw [hwb, if_pos hlen]
    exact ⟨_, rfl⟩

/-- With pairwise distinct payloads, the payloads of a list of nodes without
repetition have no repetition. -/
theorem payloads_nodup [DecidableEq P] {g : graph P}
    (hnd : (g.Nodes.map Node.Payload).Nodup) {ns : List Nat} (hns : ns.Nodup)
    (hlt : ∀ v ∈ ns, v < g.Nodes.length) : (g.payloads ns).Nodup := by
  have h1 : ((g.payloads ns).map g.nodeByPayload).Nodup := by
    rw [payloads_resolve hnd hlt]
    exact hns.map (fun a b h => Option.some.inj h)
  exact List.Nodup.of_map _ h1

/-- Once a node is its own predecessor, the loop that rebuilds the path never
leaves it. -/
theorem walkBack_selfLoop (g : graph P) (prev : Nat → Option Nat) (v : Nat)
    (hv : prev v = some v) :
    ∀ (fuel : Nat) (path : List P), walkBack g prev fuel (some v) path = none := by
  intro fuel
  induction fuel with
  | zero => intro path; rfl
  | succ fuel ih =>
    intro path
    simp only [walkBack, hv]
    split
    · exact ih _
    · rfl

/-- More fuel does not change what the selection loop returns. -/
theorem mainLoop_mono (sortSlice : (Nat → Nat → Bool) → List Nat → List Nat)
    (earlyExit : Bool) (g : graph P) (dst : Nat) :
    ∀ (fuel : Nat) {st st' : State}, mainLoop sortSlice earlyExit g dst fuel st = some st' →
      mainLoop sortSlice earlyExit g dst (fuel + 1) st = some st' := by
  intro fuel
  induction fuel with
  | zero =>
    intro st st' hm
    simp only [mainLoop] at hm
    split_ifs at hm with hpos
    cases hm
    simp only [mainLoop, hpos, if_false]
  | succ fuel ih =>
    intro st st' hm
    rw [mainLoop] at hm
    rw [mainLoop]
    split_ifs at hm ⊢ with hpos
    · split at hm
      · cases hm
      · rename_i cur rest hsort
        simp only [hsort]
        split_ifs at hm ⊢
        · exact hm
        · exact ih hm
    · exact hm

theorem mainLoop_mono_add (sortSlice : (Nat → Nat → Bool) → List Nat → List Nat)
    (earlyExit : Bool) (g : graph P) (dst : Nat) {fuel : Nat} {st st' : State}
    (hm : mainLoop sortSlice earlyExit g dst fuel st = some st') :
    ∀ k, mainLoop sortSlice earlyExit g dst (fuel + k) st = some st'
  | 0 => hm
  | k + 1 => mainLoop_mono sortSlice earlyExit g dst (fuel + k)
      (mainLoop_mono_add sortSlice earlyExit g dst hm k)

theorem not_registered_iff [DecidableEq P] (g : graph P) (p : P) :
    g.nodeByPayload p = none ↔ ∀ n ∈ g.Nodes, n.Payload ≠ p :=
  nodeByPayload_none

theorem addBidirectionalEdge_cases [DecidableEq P] (g : graph P) (a b : P) (cost : Int) :
    (g.AddBidirectionalEdge a b cost = .panicked g ∧
      (g.nodeByPayload a = none ∨ g.nodeByPayload b = none)) ∨
    ∃ i j, g.nodeByPayload a = some i ∧ g.nodeByPayload b = some j ∧
      g.AddBidirectionalEdge a b cost =
        .returned ((g.appendEdge i ⟨j, cost⟩).appendEdge j ⟨i, cost⟩) := by
  unfold graph.AddBidirectionalEdge graph.AddEdge
  cases ha : g.nodeByPayload a with
  | none => exact Or.inl ⟨rfl, Or.inl rfl⟩
  | some i =>
    cases hb : g.nodeByPayload b with
    | none => exact Or.inl ⟨rfl, Or.inr rfl⟩
    | some j =>
      right
      refine ⟨i, j, rfl, rfl, ?_⟩
      simp only [appendEdge_nodeByPayload, ha, hb]

theorem toggle_cases [DecidableEq P] (g : graph P) (p : P) (b : Bool) :
    ((if b then g.DisableNode p else g.EnableNode p) = .panicked g ∧ g.nodeByPayload p = none) ∨
    ∃ i, g.nodeByPayload p = some i ∧
      (if b then g.DisableNode p else g.EnableNode p) = .returned (g.setDisabled i b) := by
  cases hp : g.nodeByPayload p with
  | none =>
    left
    cases b <;> simp [graph.DisableNode, graph.EnableNode, hp]
  | some i =>
    right
    refine ⟨i, rfl, ?_⟩
    cases b <;> simp [graph.DisableNode, graph.EnableNode, hp]

theorem appendEdge_disabledList (g : graph P) (i : Nat) (e : Edge) :
    (g.appendEdge i e).Nodes.map Node.Disabled = g.Nodes.map Node.Disabled := by
  apply List.ext_getElem?
  intro j
  rw [List.getElem?_map, List.getElem?_map, appendEdge_getElem?]
  cases g.Nodes[j]? with
  | none => rfl
  | some n => by_cases hji : j = i <;> simp [hji]

theorem setDisabled_edgeLists (g : graph P) (i : Nat) (b : Bool) :
    (g.setDisabled i b).Nodes.map Node.Edges = g.Nodes.map Node.Edges := by
  apply List.ext_getElem?
  intro j
  rw [List.getElem?_map, List.getElem?_map, setDisabled_getElem?]
  cases g.Nodes[j]? with
  | none => rfl
  | some n => by_cases hji : j = i <;> simp [hji]

theorem addNode_fold_payloads (ps : List P) :
    ∀ g : graph P, (ps.foldl graph.AddNode g).Nodes.map Node.Payload =
      g.Nodes.map Node.Payload ++ ps := by
  induction ps with
  | nil => intro g; simp
  | cons p ps ih =>
    intro g
    rw [List.foldl_cons, ih]
    simp [graph.AddNode]

/-! # Claims -/

/-- C1 (as amended). Optimality in `float64`: on a graph with non-negative edge
costs, when `ShortestPath(from, to)` succeeds with cost `c`, then `c` is at most
the `float64` cost of every directed walk from the from-node to the to-node
whose nodes after the first are enabled, that is, the edge costs of the walk
added up from 0 in the order of the walk, each sum rounded as
`distance[chosen] + edge.Cost` is; hence `c` is at most the exact sum of the
edge costs of every such walk along which no addition rounds.  Self-loops,
parallel edges and zero-cost edges are edges like any other. -/
theorem shortestPath_optimal [DecidableEq P]
    (sortSlice : (Nat → Nat → Bool) → List Nat → List Nat) (hs : SortContract sortSlice)
    (g : graph P) (hwf : g.WF) (hnn : g.NonNeg) (fuel : Nat) (fromPayload toPayload : P)
    (src dst : Nat) (hsrc : g.nodeByPayload fromPayload = some src)
    (hdst : g.nodeByPayload toPayload = some dst) (path : List P) (c : Dist)
    (hret : g.ShortestPath sortSlice fuel fromPayload toPayload = .ret path c none)
    (es : List Edge) (hw : IsWalk g src es) (hend : walkEnd src es = dst)
    (hen : ∀ e ∈ es, g.disabledAt e.Node = false) :
    c ≤ roundedCost es ∧ (ExactSums es → c ≤ Dist.fin (walkCost es)) := by
  rw [shortestPath_resolved sortSlice fuel hsrc hdst] at hret
  obtain ⟨-, st0, h0, hmin, -, -, -, hc⟩ :=
    query_success hs hwf hnn (nodeByPayload_lt hsrc) (nodeByPayload_lt hdst) hret
  have hle : c ≤ roundedCost es := by
    rw [hc]
    exact dist_le_walk hnn h0 hmin hw hend hen
  refine ⟨hle, fun hex => ?_⟩
  rw [← roundedCost_exact es hex]
  exact hle

theorem shortestPath_optimal_witness :
    exampleGraph.ShortestPath insertionSort 4 "a" "d" =
      .ret ["a", "b", "d"] (Dist.fin (f64 2)) none ∧
    ExactSums [⟨2, f64 10⟩, ⟨3, f64 1⟩] ∧
    Dist.fin (f64 2) ≤ roundedCost [⟨2, f64 10⟩, ⟨3, f64 1⟩] ∧
    Dist.fin (f64 2) ≤ Dist.fin (walkCost [⟨2, f64 10⟩, ⟨3, f64 1⟩]) :=
  have h := shortestPath_optimal insertionSort insertionSort_contract exampleGraph (by decide)
    (by decide) 4 "a" "d" 0 3 (by decide) (by decide) ["a", "b", "d"] (Dist.fin (f64 2))
    (by decide) [⟨2, f64 10⟩, ⟨3, f64 1⟩] (by decide) (by decide) (by decide)
  ⟨by decide, by decide, h.1, h.2 (by decide)⟩

/-- C1 (as stated) fails.  On `roundGraph` the costs are non-negative `float64`
values and `ShortestPath(a, c)` returns the path `a c` with cost `2^53 + 4`,
while the walk `a b c` over enabled nodes has the summed edge cost `2^53 + 3`:
relaxing `b→c` computes `(2^53 + 2) + 1`, which rounds to `2^53 + 4` and is not
less than the distance `2^53 + 4` that `c` already has. -/
theorem optimal_exact_sum_fails :
    roundGraph.WF ∧ roundGraph.NonNeg ∧ roundGraph.F64Costs ∧
    roundGraph.nodeByPayload "a" = some 0 ∧ roundGraph.nodeByPayload "c" = some 2 ∧
    roundGraph.ShortestPath insertionSort 3 "a" "c" =
      .ret ["a", "c"] (Dist.fin (f64 9007199254740996)) none ∧
    IsWalk roundGraph 0 [⟨1, f64 9007199254740994⟩, ⟨2, f64 1⟩] ∧
    walkEnd 0 [⟨1, f64 9007199254740994⟩, ⟨2, f64 1⟩] = 2 ∧
    (∀ e ∈ [(⟨1, f64 9007199254740994⟩ : Edge), ⟨2, f64 1⟩],
      roundGraph.disabledAt e.Node = false) ∧
    walkCost [⟨1, f64 9007199254740994⟩, ⟨2, f64 1⟩] = f64 9007199254740995 ∧
    ¬ Dist.fin (f64 9007199254740996) ≤
      Dist.fin (walkCost [⟨1, f64 9007199254740994⟩, ⟨2, f64 1⟩]) := by
  decide

/-- C2 (as amended). Validity of the returned path: on a graph with
non-negative edge costs and pairwise distinct payloads, when
`ShortestPath(from, to)` succeeds with `(path, cost)`, the path is non-empty,
starts with `from`, ends with `to`, and there is a walk `es` from the from-node
to the to-node, one edge per consecutive pair of the path (the payloads of the
path resolve to the nodes of the walk, and each edge lies in the edge list of
the node before it), such that `cost` is the `float64` cost of the walk: its
edge costs added up from 0 in path order, each sum rounded.  When no addition
along the walk rounds, `cost` is the exact sum of the edge costs.  For a
one-element path the walk is empty and the cost is 0. -/
theorem shortestPath_valid [DecidableEq P]
    (sortSlice : (Nat → Nat → Bool) → List Nat → List Nat) (hs : SortContract sortSlice)
    (g : graph P) (hwf : g.WF) (hnn : g.NonNeg) (hnd : (g.Nodes.map Node.Payload).Nodup)
    (fuel : Nat) (fromPayload toPayload : P) (src dst : Nat)
    (hsrc : g.nodeByPayload fromPayload = some src)
    (hdst : g.nodeByPayload toPayload = some dst) (path : List P) (cost : Dist)
    (hret : g.ShortestPath sortSlice fuel fromPayload toPayload = .ret path cost none) :
    path ≠ [] ∧ path.head? = some fromPayload ∧ path.getLast? = some toPayload ∧
    ∃ es : List Edge, IsWalk g src es ∧ walkEnd src es = dst ∧
      path.map g.nodeByPayload = (walkNodes src es).map some ∧
      path.length = es.length + 1 ∧ cost = roundedCost es ∧
      (ExactSums es → cost = Dist.fin (walkCost es)) ∧
      (path.length = 1 → es = [] ∧ cost = Dist.fin 0) := by
  rw [shortestPath_resolved sortSlice fuel hsrc hdst] at hret
  have hsl := nodeByPayload_lt hsrc
  obtain ⟨-, st0, -, -, es, hes, hp, hc⟩ :=
    query_success hs hwf hnn hsl (nodeByPayload_lt hdst) hret
  have hlt : ∀ v ∈ walkNodes src es, v < g.Nodes.length := isWalk_nodes_lt hwf hsl hes.walk
  obtain ⟨ns, hns, hnp⟩ := nodeByPayload_some hsrc
  obtain ⟨nd, hnd', hndp⟩ := nodeByPayload_some hdst
  have hlen : path.length = es.length + 1 := by
    rw [hp, payloads_length _ hlt]; simp [walkNodes]
  have hcost : cost = roundedCost es := by rw [hc]; exact hes.cost
  refine ⟨?_, ?_, ?_, es, hes.walk, hes.end_eq, ?_, hlen, hcost, ?_, ?_⟩
  · intro hnil
    rw [hnil] at hlen
    simp at hlen
  · rw [hp, walkNodes, payloads_cons hns, List.head?_cons, hnp]
  · rw [hp, payloads_getLast? es hlt (hes.end_eq ▸ hnd'), hndp]
  · rw [hp]; exact payloads_resolve hnd hlt
  · intro hex
    rw [hcost]; exact roundedCost_exact es hex
  · intro h1
    have hnil : es = [] := List.length_eq_zero.1 (by omega)
    refine ⟨hnil, ?_⟩
    rw [hcost, hnil]; rfl

theorem shortestPath_valid_witness :
    ["a", "b", "d"] ≠ [] ∧ ["a", "b", "d"].head? = some "a" ∧
    ["a", "b", "d"].getLast? = some "d" ∧
    ∃ es : List Edge, IsWalk exampleGraph 0 es ∧ walkEnd 0 es = 3 ∧
      ["a", "b", "d"].map exampleGraph.nodeByPayload = (walkNodes 0 es).map some ∧
      ["a", "b", "d"].length = es.length + 1 ∧ Dist.fin (f64 2) = roundedCost es ∧
      (ExactSums es → Dist.fin (f64 2) = Dist.fin (walkCost es)) ∧
      (["a", "b", "d"].length = 1 → es = [] ∧ Dist.fin (f64 2) = Dist.fin 0) :=
  shortestPath_valid insertionSort insertionSort_contract exampleGraph (by decide) (by decide)
    (by decide) 4 "a" "d" 0 3 (by decide) (by decide) ["a", "b", "d"] (Dist.fin (f64 2))
    (by decide)

/-- C2 (as stated) fails.  On `absorbGraph` the costs are non-negative `float64`
values, the payloads are distinct, and `ShortestPath(a, d)` returns the path
`a b c d` with cost `2^53`, while the only edges that join the consecutive
pairs of the path have the costs `2^53`, `1` and `1`, which sum to `2^53 + 2`:
no walk along the path has summed edge cost `2^53`.  Each of the two additions
of `1` to `2^53` rounds back to `2^53`. -/
theorem valid_exact_sum_fails :
    absorbGraph.WF ∧ absorbGraph.NonNeg ∧ absorbGraph.F64Costs ∧
    (absorbGraph.Nodes.map Node.Payload).Nodup ∧
    absorbGraph.nodeByPayload "a" = some 0 ∧ absorbGraph.nodeByPayload "d" = some 3 ∧
    absorbGraph.ShortestPath insertionSort 4 "a" "d" =
      .ret ["a", "b", "c", "d"] (Dist.fin (f64 9007199254740992)) none ∧
    ¬ ∃ es : List Edge, IsWalk absorbGraph 0 es ∧ walkEnd 0 es = 3 ∧
      ["a", "b", "c", "d"].map absorbGraph.nodeByPayload = (walkNodes 0 es).map some ∧
      ["a", "b", "c", "d"].length = es.length + 1 ∧
      Dist.fin (f64 9007199254740992) = Dist.fin (walkCost es) := by
  refine ⟨by decide, by decide, by decide, by decide, by decide, by decide, by decide, ?_⟩
  rintro ⟨es, hw, -, -, hlen, hc⟩
  match es, hw, hlen, hc with
  | [e1, e2, e3], hw, _, hc =>
    obtain ⟨h1, h2, h3, -⟩ := hw
    have k1 : e1 = ⟨1, f64 9007199254740992⟩ := by
      have : e1 ∈ [(⟨1, f64 9007199254740992⟩ : Edge)] := h1
      exact List.mem_singleton.1 this
    subst k1
    have k2 : e2 = ⟨2, f64 1⟩ := by
      have : e2 ∈ [(⟨2, f64 1⟩ : Edge)] := h2
      exact List.mem_singleton.1 this
    subst k2
    have k3 : e3 = ⟨3, f64 1⟩ := by
      have : e3 ∈ [(⟨3, f64 1⟩ : Edge)] := h3
      exact List.mem_singleton.1 this
    subst k3
    exact absurd hc (by decide)

/-- C3 (as amended). Exact characterisation of NoPath in `float64`: on a graph
with non-negative edge costs, for registered `from` and `to` and fuel for as
many iterations as the graph has nodes, `ShortestPath(from, to)` returns
`ErrNoPath` if and only if the from-node is disabled, or the two nodes differ
and no directed walk from the from-node to the to-node has all its nodes
enabled and a finite `float64` cost (its edge costs added up from 0 in the
order of the walk do not overflow to `+Inf`); every other query succeeds.  On
a graph on which no walk from the from-node to the to-node over enabled nodes
that visits no node twice overflows, this is the characterisation by walks
alone: `ErrNoPath` if and only if the from-node is disabled, or the nodes
differ and no walk from the from-node to the to-node has all its nodes
enabled. -/
theorem noPath_iff [DecidableEq P]
    (sortSlice : (Nat → Nat → Bool) → List Nat → List Nat) (hs : SortContract sortSlice)
    (g : graph P) (hwf : g.WF) (hnn : g.NonNeg) (fuel : Nat) (hf : g.Nodes.length ≤ fuel)
    (fromPayload toPayload : P) (src dst : Nat)
    (hsrc : g.nodeByPayload fromPayload = some src)
    (hdst : g.nodeByPayload toPayload = some dst) :
    ((∃ path cost, g.ShortestPath sortSlice fuel fromPayload toPayload =
          .ret path cost (some .ErrNoPath)) ↔
      (g.disabledAt src = true ∨
        (src ≠ dst ∧ ¬ ∃ es : List Edge, IsWalk g src es ∧ walkEnd src es = dst ∧
          (∀ v ∈ walkNodes src es, g.disabledAt v = false) ∧ roundedCost es ≠ Dist.inf))) ∧
    (¬ (g.disabledAt src = true ∨
        (src ≠ dst ∧ ¬ ∃ es : List Edge, IsWalk g src es ∧ walkEnd src es = dst ∧
          (∀ v ∈ walkNodes src es, g.disabledAt v = false) ∧ roundedCost es ≠ Dist.inf)) →
      ∃ path cost, g.ShortestPath sortSlice fuel fromPayload toPayload =
        .ret path cost none) ∧
    ((∀ es : List Edge, IsWalk g src es → walkEnd src es = dst →
        (∀ v ∈ walkNodes src es, g.disabledAt v = false) → (walkNodes src es).Nodup →
        roundedCost es ≠ Dist.inf) →
      ((∃ path cost, g.ShortestPath sortSlice fuel fromPayload toPayload =
          .ret path cost (some .ErrNoPath)) ↔
        (g.disabledAt src = true ∨
          (src ≠ dst ∧ ¬ ∃ es : List Edge, IsWalk g src es ∧ walkEnd src es = dst ∧
            ∀ v ∈ walkNodes src es, g.disabledAt v = false)))) := by
  have hmain : ((∃ path cost, g.ShortestPath sortSlice fuel fromPayload toPayload =
          .ret path cost (some .ErrNoPath)) ↔
      (g.disabledAt src = true ∨
        (src ≠ dst ∧ ¬ ∃ es : List Edge, IsWalk g src es ∧ walkEnd src es = dst ∧
          (∀ v ∈ walkNodes src es, g.disabledAt v = false) ∧ roundedCost es ≠ Dist.inf))) ∧
    (¬ (g.disabledAt src = true ∨
        (src ≠ dst ∧ ¬ ∃ es : List Edge, IsWalk g src es ∧ walkEnd src es = dst ∧
          (∀ v ∈ walkNodes src es, g.disabledAt v = false) ∧ roundedCost es ≠ Dist.inf)) →
      ∃ path cost, g.ShortestPath sortSlice fuel fromPayload toPayload =
        .ret path cost none) := by
    rw [shortestPath_resolved sortSlice fuel hsrc hdst]
    have hsl := nodeByPayload_lt hsrc
    have hdl := nodeByPayload_lt hdst
    by_cases hdis : g.disabledAt src = true
    · rw [query_disabled sortSlice true fuel dst hdis]
      exact ⟨⟨fun _ => Or.inl hdis, fun _ => ⟨_, _, rfl⟩⟩, fun hn => absurd (Or.inl hdis) hn⟩
    have hen : g.disabledAt src = false := by simpa using hdis
    rcases query_cases hs hwf hnn hsl hdl hen fuel with ⟨-, hlt⟩ | ⟨st0, h0, -, hmin, hc⟩
    · omega
    rcases hc with ⟨hinf, hne, hout⟩ | ⟨es, hes, hfin, hout⟩
    · have hno : ¬ ∃ es : List Edge, IsWalk g src es ∧ walkEnd src es = dst ∧
          (∀ v ∈ walkNodes src es, g.disabledAt v = false) ∧ roundedCost es ≠ Dist.inf := by
        rintro ⟨es, hw, hend, hall, hfin⟩
        have hle := dist_le_walk hnn h0 hmin hw hend
          (fun e he => hall e.Node (by
            simp only [walkNodes, List.mem_cons, List.mem_map]
            exact Or.inr ⟨e, he, rfl⟩))
        rw [hinf] at hle
        exact hfin ((Dist.inf_le _).1 hle)
      rw [hout]
      exact ⟨⟨fun _ => Or.inr ⟨hne, hno⟩, fun _ => ⟨_, _, rfl⟩⟩,
        fun hn => absurd (Or.inr ⟨hne, hno⟩) hn⟩
    · have hyes : ∃ es : List Edge, IsWalk g src es ∧ walkEnd src es = dst ∧
          (∀ v ∈ walkNodes src es, g.disabledAt v = false) ∧ roundedCost es ≠ Dist.inf := by
        refine ⟨es, hes.walk, hes.end_eq, ?_, ?_⟩
        · intro v hv
          simp only [walkNodes, List.mem_cons, List.mem_map] at hv
          rcases hv with rfl | ⟨e, he, rfl⟩
          · exact hen
          · exact hes.enabled e he
        · rw [← hes.cost]; exact hfin
      rw [hout]
      refine ⟨⟨?_, ?_⟩, fun _ => ⟨_, _, rfl⟩⟩
      · rintro ⟨p, c, hpc⟩
        cases hpc
      · rintro (h1 | ⟨-, h1⟩)
        · exact absurd h1 hdis
        · exact absurd hyes h1
  refine ⟨hmain.1, hmain.2, fun hno => ?_⟩
  rw [hmain.1]
  have hiff : (∃ es : List Edge, IsWalk g src es ∧ walkEnd src es = dst ∧
        (∀ v ∈ walkNodes src es, g.disabledAt v = false) ∧ roundedCost es ≠ Dist.inf) ↔
      (∃ es : List Edge, IsWalk g src es ∧ walkEnd src es = dst ∧
        ∀ v ∈ walkNodes src es, g.disabledAt v = false) := by
    constructor
    · rintro ⟨es, h1, h2, h3, -⟩
      exact ⟨es, h1, h2, h3⟩
    · rintro ⟨es, h1, h2, h3⟩
      obtain ⟨fs, k1, k2, k3, k4⟩ := exists_simple_walk h1
      have k5 : ∀ v ∈ walkNodes src fs, g.disabledAt v = false := by
        intro v hv
        apply h3
        simp only [walkNodes, List.mem_cons, List.mem_map] at hv ⊢
        rcases hv with rfl | ⟨e, he, rfl⟩
        · exact Or.inl rfl
        · exact Or.inr ⟨e, k3 e he, rfl⟩
      exact ⟨fs, k1, k2.trans h2, k5, hno fs k1 (k2.trans h2) k5 k4⟩
  rw [hiff]

theorem noPath_iff_witness :
    ((∃ path cost, exampleGraphB.ShortestPath insertionSort 4 "a" "b" =
          .ret path cost (some .ErrNoPath)) ↔
      (exampleGraphB.disabledAt 0 = true ∨
        ((0 : Nat) ≠ 1 ∧ ¬ ∃ es : List Edge, IsWalk exampleGraphB 0 es ∧ walkEnd 0 es = 1 ∧
          (∀ v ∈ walkNodes 0 es, exampleGraphB.disabledAt v = false) ∧
          roundedCost es ≠ Dist.inf))) ∧
    (¬ (exampleGraphB.disabledAt 0 = true ∨
        ((0 : Nat) ≠ 1 ∧ ¬ ∃ es : List Edge, IsWalk exampleGraphB 0 es ∧ walkEnd 0 es = 1 ∧
          (∀ v ∈ walkNodes 0 es, exampleGraphB.disabledAt v = false) ∧
          roundedCost es ≠ Dist.inf)) →
      ∃ path cost, exampleGraphB.ShortestPath insertionSort 4 "a" "b" =
        .ret path cost none) ∧
    ((∀ es : List Edge, IsWalk exampleGraphB 0 es → walkEnd 0 es = 1 →
        (∀ v ∈ walkNodes 0 es, exampleGraphB.disabledAt v = false) →
        (walkNodes 0 es).Nodup → roundedCost es ≠ Dist.inf) →
      ((∃ path cost, exampleGraphB.ShortestPath insertionSort 4 "a" "b" =
          .ret path cost (some .ErrNoPath)) ↔
        (exampleGraphB.disabledAt 0 = true ∨
          ((0 : Nat) ≠ 1 ∧ ¬ ∃ es : List Edge, IsWalk exampleGraphB 0 es ∧
            walkEnd 0 es = 1 ∧ ∀ v ∈ walkNodes 0 es, exampleGraphB.disabledAt v = false)))) :=
  noPath_iff insertionSort insertionSort_contract exampleGraphB (by decide) (by decide) 4
    (by decide) "a" "b" 0 1 (by decide) (by decide)

/-- C3 (as stated) fails.  On `overflowGraph` the costs are non-negative finite
`float64` values, every node is enabled and the walk `a b c` leads from `a` to
`c`, yet `ShortestPath(a, c)` returns `ErrNoPath`: relaxing `b→c` computes
`2^1023 + 2^1023`, which overflows to `+Inf` and is not less than the distance
`+Inf` that `c` starts with, so `c` never receives a predecessor. -/
theorem noPath_iff_fails :
    overflowGraph.WF ∧ overflowGraph.NonNeg ∧ overflowGraph.F64Costs ∧
    overflowGraph.nodeByPayload "a" = some 0 ∧ overflowGraph.nodeByPayload "c" = some 2 ∧
    overflowGraph.ShortestPath insertionSort 3 "a" "c" =
      .ret [] Dist.inf (some .ErrNoPath) ∧
    overflowGraph.disabledAt 0 = false ∧
    IsWalk overflowGraph 0
      [⟨1, f64 ((1 <<< 1023 : Nat) : Int)⟩, ⟨2, f64 ((1 <<< 1023 : Nat) : Int)⟩] ∧
    walkEnd 0 [⟨1, f64 ((1 <<< 1023 : Nat) : Int)⟩, ⟨2, f64 ((1 <<< 1023 : Nat) : Int)⟩] = 2 ∧
    (∀ v ∈ walkNodes 0
        [⟨1, f64 ((1 <<< 1023 : Nat) : Int)⟩, ⟨2, f64 ((1 <<< 1023 : Nat) : Int)⟩],
      overflowGraph.disabledAt v = false) ∧
    roundedCost [⟨1, f64 ((1 <<< 1023 : Nat) : Int)⟩, ⟨2, f64 ((1 <<< 1023 : Nat) : Int)⟩] =
      Dist.inf ∧
    ¬ (overflowGraph.disabledAt 0 = true ∨
        ((0 : Nat) ≠ 2 ∧ ¬ ∃ es : List Edge, IsWalk overflowGraph 0 es ∧ walkEnd 0 es = 2 ∧
          ∀ v ∈ walkNodes 0 es, overflowGraph.disabledAt v = false)) := by
  refine ⟨by decide, by decide, by decide, by decide, by decide, by decide, by decide,
    by decide, by decide, by decide, by decide, ?_⟩
  rintro (h | ⟨-, h⟩)
  · exact absurd h (by decide)
  · exact h ⟨[⟨1, f64 ((1 <<< 1023 : Nat) : Int)⟩, ⟨2, f64 ((1 <<< 1023 : Nat) : Int)⟩],
      by decide, by decide, by decide⟩

/-- C4. Shape of the NoPath result: for every graph, every sorting function and
every call of `ShortestPath` that returns, the error is `ErrNoPath` if and only
if the returned path is empty, and with `ErrNoPath` the returned cost is
`+Inf`. -/
theorem noPath_shape [DecidableEq P]
    (sortSlice : (Nat → Nat → Bool) → List Nat → List Nat) (g : graph P) (fuel : Nat)
    (fromPayload toPayload : P) (path : List P) (cost : Dist) (err : Option Error)
    (hret : g.ShortestPath sortSlice fuel fromPayload toPayload = .ret path cost err) :
    (err = some .ErrNoPath ↔ path = []) ∧ (err = some .ErrNoPath → cost = Dist.inf) := by
  unfold graph.ShortestPath at hret
  cases hsrc : g.nodeByPayload fromPayload with
  | none => simp [hsrc] at hret
  | some src =>
    cases hdst : g.nodeByPayload toPayload with
    | none => simp [hsrc, hdst] at hret
    | some dst =>
      simp only [hsrc, hdst] at hret
      by_cases hdis : g.disabledAt src = true
      · rw [query_disabled sortSlice true fuel dst hdis] at hret
        cases hret
        simp
      · simp only [shortestPathNodes, hdis, if_false] at hret
        cases hm : mainLoop sortSlice true g dst fuel (initState g src) with
        | none => simp [hm] at hret
        | some st =>
          simp only [hm] at hret
          have hun := mainLoop_unreached sortSlice true g dst (initState g src).distance fuel
            (fun _ _ => rfl) hm
          by_cases hcond : ((st.previousNode dst).isSome || decide (src = dst)) = true
          · simp only [hcond, if_true] at hret
            cases hw : walkBack g st.previousNode fuel (some dst) [] with
            | none => simp [hw] at hret
            | some p =>
              have hlen := (walkBack_length g _ _ _ _ _ hw).2 rfl
              have hne : p.length ≠ 0 := by
                simp only [List.length_nil] at hlen; omega
              simp only [hw, hne, if_false] at hret
              cases hret
              have : path ≠ [] := fun hnil => hne (by rw [hnil]; rfl)
              simp [this]
          · have hcond' : st.previousNode dst = none ∧ src ≠ dst := by
              simpa [Bool.or_eq_true] using hcond
            simp only [hcond, List.length_nil, if_true] at hret
            simp at hret
            obtain ⟨h1, h2, h3⟩ := hret
            subst h1 h3
            refine ⟨by simp, fun _ => ?_⟩
            rw [← h2, hun dst hcond'.1, initState_distance]
            simp [Ne.symm hcond'.2, nodeByPayload_lt hdst]

theorem noPath_shape_witness :
    (some Error.ErrNoPath = some .ErrNoPath ↔ ([] : List String) = []) ∧
    (some Error.ErrNoPath = some .ErrNoPath → Dist.inf = Dist.inf) :=
  noPath_shape insertionSort exampleGraph 4 "d" "a" [] Dist.inf (some .ErrNoPath) (by decide)

/-- C5. Trivial path: for every graph, whatever its edges and edge costs, and
every registered payload `p` whose node is enabled, `ShortestPath(p, p)` returns
the one-element path `[p]`, cost 0 and no error (one unit of fuel is enough). -/
theorem trivial_path [DecidableEq P]
    (sortSlice : (Nat → Nat → Bool) → List Nat → List Nat) (hs : SortContract sortSlice)
    (g : graph P) (p : P) (src : Nat) (hres : g.nodeByPayload p = some src)
    (hen : g.disabledAt src = false) (fuel : Nat) (hf : 1 ≤ fuel) :
    g.ShortestPath sortSlice fuel p p = .ret [p] (Dist.fin 0) none := by
  rw [shortestPath_resolved sortSlice fuel hres hres]
  have hsl := nodeByPayload_lt hres
  obtain ⟨n, hn, hnp⟩ := nodeByPayload_some hres
  obtain ⟨rest, hsort⟩ := first_selected hs g hsl
  obtain ⟨f, rfl⟩ : ∃ f, fuel = f + 1 := ⟨fuel - 1, by omega⟩
  have hpos : (initState g src).nodesLeft.length > 0 := by
    rw [initState_nodesLeft, List.length_range]; omega
  have hd : (initState g src).distance src = Dist.fin 0 := by
    rw [initState_distance]; simp
  have hwalk : walkBack g (initState g src).previousNode (f + 1) (some src) [] = some [p] := by
    simp only [walkBack, hn, initState_previousNode]
    rw [hnp]
  simp only [shortestPathNodes, hen, mainLoop, hpos, hsort, Bool.false_eq_true, if_false,
    if_true, Bool.true_and, decide_True, Bool.or_true, hwalk, hd]
  simp

theorem trivial_path_witness :
    exampleGraph.ShortestPath insertionSort 1 "a" "a" = .ret ["a"] (Dist.fin 0) none :=
  trivial_path insertionSort insertionSort_contract exampleGraph "a" 0 (by decide) (by decide) 1
    (by decide)

/-- C6. Disabled source: for every graph and registered `from` and `to` with the
from-node disabled, `ShortestPath(from, to)` returns the empty path, cost
`+Inf` and `ErrNoPath`, whatever the destination is. -/
theorem disabled_source [DecidableEq P]
    (sortSlice : (Nat → Nat → Bool) → List Nat → List Nat) (g : graph P) (fuel : Nat)
    (fromPayload toPayload : P) (src dst : Nat)
    (hsrc : g.nodeByPayload fromPayload = some src)
    (hdst : g.nodeByPayload toPayload = some dst) (hdis : g.disabledAt src = true) :
    g.ShortestPath sortSlice fuel fromPayload toPayload = .ret [] Dist.inf (some .ErrNoPath) := by
  rw [shortestPath_resolved sortSlice fuel hsrc hdst]
  exact query_disabled sortSlice true fuel dst hdis

theorem disabled_source_witness :
    exampleGraphB.ShortestPath insertionSort 0 "b" "b" = .ret [] Dist.inf (some .ErrNoPath) :=
  disabled_source insertionSort exampleGraphB 0 "b" "b" 1 1 (by decide) (by decide) (by decide)

/-- C7. Disabled nodes never appear in a result: on a graph with non-negative
edge costs, when `ShortestPath(from, to)` succeeds, the returned path is the
list of payloads of a list of nodes that starts with the from-node, ends with
the to-node, and consists of enabled nodes of the graph only. -/
theorem shortestPath_enabled [DecidableEq P]
    (sortSlice : (Nat → Nat → Bool) → List Nat → List Nat) (hs : SortContract sortSlice)
    (g : graph P) (hwf : g.WF) (hnn : g.NonNeg) (fuel : Nat) (fromPayload toPayload : P)
    (src dst : Nat) (hsrc : g.nodeByPayload fromPayload = some src)
    (hdst : g.nodeByPayload toPayload = some dst) (path : List P) (cost : Dist)
    (hret : g.ShortestPath sortSlice fuel fromPayload toPayload = .ret path cost none) :
    ∃ ns : List Nat, path = g.payloads ns ∧ path.length = ns.length ∧
      ns.head? = some src ∧ ns.getLast? = some dst ∧
      ∀ v ∈ ns, v < g.Nodes.length ∧ g.disabledAt v = false := by
  rw [shortestPath_resolved sortSlice fuel hsrc hdst] at hret
  have hsl := nodeByPayload_lt hsrc
  obtain ⟨hen, st0, -, -, es, hes, hp, -⟩ :=
    query_success hs hwf hnn hsl (nodeByPayload_lt hdst) hret
  have hlt : ∀ v ∈ walkNodes src es, v < g.Nodes.length := isWalk_nodes_lt hwf hsl hes.walk
  refine ⟨walkNodes src es, hp, by rw [hp, payloads_length _ hlt], rfl, ?_, ?_⟩
  · rw [walkNodes_getLast?, hes.end_eq]
  · intro v hv
    refine ⟨hlt v hv, ?_⟩
    simp only [walkNodes, List.mem_cons, List.mem_map] at hv
    rcases hv with rfl | ⟨e, he, rfl⟩
    · exact hen
    · exact hes.enabled e he

theorem shortestPath_enabled_witness :
    ∃ ns : List Nat, ["a", "c", "d"] = exampleGraphB.payloads ns ∧
      ["a", "c", "d"].length = ns.length ∧
      ns.head? = some 0 ∧ ns.getLast? = some 3 ∧
      ∀ v ∈ ns, v < exampleGraphB.Nodes.length ∧ exampleGraphB.disabledAt v = false :=
  shortestPath_enabled insertionSort insertionSort_contract exampleGraphB (by decide) (by decide)
    4 "a" "d" 0 3 (by decide) (by decide) ["a", "c", "d"] (Dist.fin (f64 11)) (by decide)

/-- C8 (as amended). Disabling a node that is not on the returned path does not
change the result when the optimal path is unique: on a graph with non-negative
edge costs, when `ShortestPath(from, to)` succeeds with `(path, cost)` and the
registered payload `x` does not occur on `path`, then after `DisableNode(x)` the
query `ShortestPath(from, to)` succeeds with the same cost, on a path of
enabled nodes that does not pass through the node of `x`; and it returns the
same path whenever `path` is the only path of that cost, that is, whenever
every walk from the from-node to the to-node over enabled nodes that visits no
node twice and has the `float64` cost `cost` has the payloads `path`. -/
theorem disable_offpath_same_result [DecidableEq P]
    (sortSlice : (Nat → Nat → Bool) → List Nat → List Nat) (hs : SortContract sortSlice)
    (g : graph P) (hwf : g.WF) (hnn : g.NonNeg) (fuel : Nat) (fromPayload toPayload x : P)
    (src dst xi : Nat) (hsrc : g.nodeByPayload fromPayload = some src)
    (hdst : g.nodeByPayload toPayload = some dst) (hxi : g.nodeByPayload x = some xi)
    (path : List P) (cost : Dist)
    (hret : g.ShortestPath sortSlice fuel fromPayload toPayload = .ret path cost none)
    (hx : x ∉ path) (fuel' : Nat) (hf : g.Nodes.length ≤ fuel') :
    ∃ (path' : List P) (ns : List Nat),
      (g.DisableNode x).graph.ShortestPath sortSlice fuel' fromPayload toPayload =
        .ret path' cost none ∧
      path' = (g.DisableNode x).graph.payloads ns ∧
      (∀ v ∈ ns, (g.DisableNode x).graph.disabledAt v = false) ∧ xi ∉ ns ∧
      ((∀ es : List Edge, IsWalk g src es → walkEnd src es = dst →
          (∀ v ∈ walkNodes src es, g.disabledAt v = false) → (walkNodes src es).Nodup →
          roundedCost es = cost → g.payloads (walkNodes src es) = path) →
        path' = path) := by
  have hdn : (g.DisableNode x).graph = g.setDisabled xi true := by
    simp [graph.DisableNode, hxi, Mutation.graph]
  rw [hdn]
  obtain ⟨es, h1, h2, h3, h4, h5, h6, h7⟩ :=
    disable_offpath_core hs hwf hnn hsrc hdst hxi hret hx hf
  refine ⟨_, walkNodes src es, h1, rfl, h2, h3, fun huniq => ?_⟩
  rw [setDisabled_payloads]
  refine huniq es h4 h5 ?_ h6 h7
  intro v hv
  have hv2 := h2 v hv
  rw [setDisabled_disabledAt g (nodeByPayload_lt hxi) true] at hv2
  by_cases hvx : v = xi
  · rw [if_pos hvx] at hv2; cases hv2
  · rw [if_neg hvx] at hv2; exact hv2

theorem disable_offpath_same_result_witness :
    (exampleGraph.DisableNode "c").graph.ShortestPath insertionSort 4 "a" "d" =
      .ret ["a", "b", "d"] (Dist.fin (f64 2)) none := by
  obtain ⟨path', ns, h1, -, -, -, h5⟩ :=
    disable_offpath_same_result insertionSort insertionSort_contract exampleGraph (by decide)
      (by decide) 4 "a" "d" "c" 0 3 2 (by decide) (by decide) (by decide) ["a", "b", "d"]
      (Dist.fin (f64 2)) (by decide) (by decide) 4 (by decide)
  rw [h5 (fun es hw hend _ _ hc => exampleGraph_unique es hw hend hc)] at h1
  exact h1

/-- C8 (as stated) fails.  On `tieGraph`, `ShortestPath(a, t)` returns the path
`a m p t`; `x` is not on it; after `DisableNode(x)` the same query returns the
other path of cost 4, `a m q t`.  With `x` enabled, `p` receives a first
distance through `x` and is sorted in front of `q`; with `x` disabled, `q` stays
in front of `p`, and the tie between `p` and `q` at distance 3 is resolved the
other way. -/
theorem disable_offpath_changes_path :
    tieGraph.WF ∧ tieGraph.NonNeg ∧
    tieGraph.ShortestPath insertionSort 6 "a" "t" =
      .ret ["a", "m", "p", "t"] (Dist.fin (f64 4)) none ∧
    "x" ∉ ["a", "m", "p", "t"] ∧
    tieGraph.DisableNode "x" = .returned (tieGraph.setDisabled 1 true) ∧
    (tieGraph.DisableNode "x").graph.ShortestPath insertionSort 6 "a" "t" =
      .ret ["a", "m", "q", "t"] (Dist.fin (f64 4)) none := by
  decide

/-- C9. Disable/enable round trip: for every graph and registered payload `p`
whose node is enabled, `DisableNode(p)` returns, `EnableNode(p)` after it
returns the original graph (same nodes in the same order, same flags, same
edges), and so every `ShortestPath` query afterwards returns what it returns on
the original graph. -/
theorem disable_enable_roundTrip [DecidableEq P] (g : graph P) (p : P) (src : Nat)
    (hres : g.nodeByPayload p = some src) (hen : g.disabledAt src = false) :
    g.DisableNode p = .returned (g.setDisabled src true) ∧
    (g.DisableNode p).graph.EnableNode p = .returned g ∧
    ∀ (sortSlice : (Nat → Nat → Bool) → List Nat → List Nat) (fuel : Nat) (a b : P),
      ((g.DisableNode p).graph.EnableNode p).graph.ShortestPath sortSlice fuel a b =
        g.ShortestPath sortSlice fuel a b := by
  have h1 : g.DisableNode p = .returned (g.setDisabled src true) := by
    simp [graph.DisableNode, hres]
  have h2 : (g.DisableNode p).graph.EnableNode p = .returned g := by
    rw [h1]
    simp only [Mutation.graph, graph.EnableNode, setDisabled_nodeByPayload, hres]
    rw [setDisabled_roundTrip g src hen]
  refine ⟨h1, h2, ?_⟩
  intro sortSlice fuel a b
  rw [h2]
  rfl

theorem disable_enable_roundTrip_witness :
    exampleGraph.DisableNode "b" = .returned (exampleGraph.setDisabled 1 true) ∧
    (exampleGraph.DisableNode "b").graph.EnableNode "b" = .returned exampleGraph ∧
    ∀ (sortSlice : (Nat → Nat → Bool) → List Nat → List Nat) (fuel : Nat) (a b : String),
      ((exampleGraph.DisableNode "b").graph.EnableNode "b").graph.ShortestPath sortSlice fuel a b =
        exampleGraph.ShortestPath sortSlice fuel a b :=
  disable_enable_roundTrip exampleGraph "b" 1 (by decide) (by decide)

/-- C10. Fatal error of the query: on a graph with non-negative edge costs,
`ShortestPath(from, to)` panics if and only if `from` or `to` is the payload of
no node of the graph (so also for an unknown `to` with a disabled from-node);
when both payloads are registered and the fuel covers as many iterations as the
graph has nodes, it returns, with success or with `ErrNoPath`. -/
theorem panic_iff [DecidableEq P]
    (sortSlice : (Nat → Nat → Bool) → List Nat → List Nat) (hs : SortContract sortSlice)
    (g : graph P) (hwf : g.WF) (hnn : g.NonNeg) (fuel : Nat) (fromPayload toPayload : P) :
    (g.ShortestPath sortSlice fuel fromPayload toPayload = .panic ↔
      ((∀ n ∈ g.Nodes, n.Payload ≠ fromPayload) ∨ (∀ n ∈ g.Nodes, n.Payload ≠ toPayload))) ∧
    ((∃ n ∈ g.Nodes, n.Payload = fromPayload) → (∃ n ∈ g.Nodes, n.Payload = toPayload) →
      g.Nodes.length ≤ fuel →
      ∃ path cost, g.ShortestPath sortSlice fuel fromPayload toPayload = .ret path cost none ∨
        g.ShortestPath sortSlice fuel fromPayload toPayload =
          .ret path cost (some .ErrNoPath)) := by
  cases hsrc : g.nodeByPayload fromPayload with
  | none =>
    have hno := nodeByPayload_none.1 hsrc
    refine ⟨⟨fun _ => Or.inl hno, fun _ => by simp [graph.ShortestPath, hsrc]⟩, ?_⟩
    rintro ⟨n, hn, hp⟩
    exact absurd hp (hno n hn)
  | some src =>
    cases hdst : g.nodeByPayload toPayload with
    | none =>
      have hno := nodeByPayload_none.1 hdst
      refine ⟨⟨fun _ => Or.inr hno, fun _ => by simp [graph.ShortestPath, hsrc, hdst]⟩, ?_⟩
      rintro - ⟨n, hn, hp⟩
      exact absurd hp (hno n hn)
    | some dst =>
      rw [shortestPath_resolved sortSlice fuel hsrc hdst]
      obtain ⟨ns, hns, hnsp⟩ := nodeByPayload_some hsrc
      obtain ⟨nd, hnd, hndp⟩ := nodeByPayload_some hdst
      refine ⟨⟨fun h => absurd h (query_ne_panic _ _ _ _ _ _), ?_⟩, ?_⟩
      · rintro (h | h)
        · exact absurd hnsp (h ns (List.getElem?_mem hns))
        · exact absurd hndp (h nd (List.getElem?_mem hnd))
      · intro _ _ hf
        by_cases hdis : g.disabledAt src = true
        · rw [query_disabled sortSlice true fuel dst hdis]
          exact ⟨_, _, Or.inr rfl⟩
        · have hen : g.disabledAt src = false := by simpa using hdis
          rcases query_cases hs hwf hnn (nodeByPayload_lt hsrc) (nodeByPayload_lt hdst) hen fuel
            with ⟨-, hlt⟩ | ⟨st0, -, -, -, hc⟩
          · omega
          · rcases hc with ⟨-, -, hout⟩ | ⟨es, -, -, hout⟩
            · exact ⟨_, _, Or.inr hout⟩
            · exact ⟨_, _, Or.inl hout⟩

theorem panic_iff_witness :
    (exampleGraphB.ShortestPath insertionSort 4 "b" "z" = .panic ↔
      ((∀ n ∈ exampleGraphB.Nodes, n.Payload ≠ "b") ∨
        (∀ n ∈ exampleGraphB.Nodes, n.Payload ≠ "z"))) ∧
    ((∃ n ∈ exampleGraphB.Nodes, n.Payload = "b") →
      (∃ n ∈ exampleGraphB.Nodes, n.Payload = "z") →
      exampleGraphB.Nodes.length ≤ 4 →
      ∃ path cost, exampleGraphB.ShortestPath insertionSort 4 "b" "z" = .ret path cost none ∨
        exampleGraphB.ShortestPath insertionSort 4 "b" "z" =
          .ret path cost (some .ErrNoPath)) :=
  panic_iff insertionSort insertionSort_contract exampleGraphB (by decide) (by decide) 4 "b" "z"

/-- C11. Fail-fast and atomic mutations: `AddEdge(a, b, cost)` and
`AddBidirectionalEdge(a, b, cost)` panic if and only if `a` or `b` is the
payload of no node, `EnableNode(p)` and `DisableNode(p)` panic if and only if
`p` is the payload of no node, and a call that panics leaves the graph as it
was; so `AddBidirectionalEdge` never leaves only one of its two edges added. -/
theorem mutations_failFast [DecidableEq P] (g : graph P) (a b p : P) (cost : Int) :
    ((∃ g', g.AddEdge a b cost = .panicked g') ↔
      ((∀ n ∈ g.Nodes, n.Payload ≠ a) ∨ (∀ n ∈ g.Nodes, n.Payload ≠ b))) ∧
    ((∃ g', g.AddBidirectionalEdge a b cost = .panicked g') ↔
      ((∀ n ∈ g.Nodes, n.Payload ≠ a) ∨ (∀ n ∈ g.Nodes, n.Payload ≠ b))) ∧
    ((∃ g', g.EnableNode p = .panicked g') ↔ (∀ n ∈ g.Nodes, n.Payload ≠ p)) ∧
    ((∃ g', g.DisableNode p = .panicked g') ↔ (∀ n ∈ g.Nodes, n.Payload ≠ p)) ∧
    (∀ g', g.AddEdge a b cost = .panicked g' → g' = g) ∧
    (∀ g', g.AddBidirectionalEdge a b cost = .panicked g' → g' = g) ∧
    (∀ g', g.EnableNode p = .panicked g' → g' = g) ∧
    (∀ g', g.DisableNode p = .panicked g' → g' = g) := by
  rw [← not_registered_iff g a, ← not_registered_iff g b, ← not_registered_iff g p]
  refine ⟨⟨?_, ?_⟩, ⟨?_, ?_⟩, ⟨?_, ?_⟩, ⟨?_, ?_⟩, ?_, ?_, ?_, ?_⟩
  · rintro ⟨g', h⟩
    exact (addEdge_panicked h).2
  · intro h
    refine ⟨g, ?_⟩
    unfold graph.AddEdge
    rcases h with h | h
    · simp [h]
    · cases ha : g.nodeByPayload a <;> simp [h]
  · rintro ⟨g', h⟩
    rcases addBidirectionalEdge_cases g a b cost with ⟨-, h1⟩ | ⟨i, j, -, -, h1⟩
    · exact h1
    · rw [h1] at h; cases h
  · intro h
    rcases addBidirectionalEdge_cases g a b cost with ⟨h1, -⟩ | ⟨i, j, ha, hb, -⟩
    · exact ⟨g, h1⟩
    · rcases h with h | h
      · rw [h] at ha; cases ha
      · rw [h] at hb; cases hb
  · rintro ⟨g', h⟩
    rcases toggle_cases g p false with ⟨-, h1⟩ | ⟨i, -, h1⟩
    · exact h1
    · simp only [Bool.false_eq_true, if_false] at h1
      rw [h1] at h; cases h
  · intro h
    rcases toggle_cases g p false with ⟨h1, -⟩ | ⟨i, hi, -⟩
    · exact ⟨g, by simpa using h1⟩
    · rw [h] at hi; cases hi
  · rintro ⟨g', h⟩
    rcases toggle_cases g p true with ⟨-, h1⟩ | ⟨i, -, h1⟩
    · exact h1
    · simp only [if_true] at h1
      rw [h1] at h; cases h
  · intro h
    rcases toggle_cases g p true with ⟨h1, -⟩ | ⟨i, hi, -⟩
    · exact ⟨g, by simpa using h1⟩
    · rw [h] at hi; cases hi
  · intro g' h
    exact (addEdge_panicked h).1
  · intro g' h
    rcases addBidirectionalEdge_cases g a b cost with ⟨h1, -⟩ | ⟨i, j, -, -, h1⟩
    · rw [h1] at h; cases h; rfl
    · rw [h1] at h; cases h
  · intro g' h
    rcases toggle_cases g p false with ⟨h1, -⟩ | ⟨i, -, h1⟩
    · simp only [Bool.false_eq_true, if_false] at h1
      rw [h1] at h; cases h; rfl
    · simp only [Bool.false_eq_true, if_false] at h1
      rw [h1] at h; cases h
  · intro g' h
    rcases toggle_cases g p true with ⟨h1, -⟩ | ⟨i, -, h1⟩
    · simp only [if_true] at h1
      rw [h1] at h; cases h; rfl
    · simp only [if_true] at h1
      rw [h1] at h; cases h

/-- C12. Postcondition of `AddEdge`: for registered payloads `a` and `b`, whose
first nodes are `i` and `j`, `AddEdge(a, b, cost)` returns; afterwards the edge
list of node `i` is its previous edge list followed by the one new edge to `j`
with cost `cost`, every node other than `i` is unchanged, and the number, the
payloads and the disabled flags of the nodes are unchanged. -/
theorem addEdge_post [DecidableEq P] (g : graph P) (a b : P) (cost : Int) (i j : Nat)
    (ha : g.nodeByPayload a = some i) (hb : g.nodeByPayload b = some j) :
    (∃ n, g.Nodes[i]? = some n ∧ n.Payload = a) ∧
    (∀ k, k < i → ∀ n, g.Nodes[k]? = some n → n.Payload ≠ a) ∧
    (∃ n, g.Nodes[j]? = some n ∧ n.Payload = b) ∧
    (∀ k, k < j → ∀ n, g.Nodes[k]? = some n → n.Payload ≠ b) ∧
    ∃ g', g.AddEdge a b cost = .returned g' ∧
      g'.edgesAt i = g.edgesAt i ++ [⟨j, cost⟩] ∧
      (∀ k, k ≠ i → g'.Nodes[k]? = g.Nodes[k]?) ∧
      (∀ k, k ≠ i → g'.edgesAt k = g.edgesAt k) ∧
      g'.Nodes.length = g.Nodes.length ∧
      g'.Nodes.map Node.Payload = g.Nodes.map Node.Payload ∧
      g'.Nodes.map Node.Disabled = g.Nodes.map Node.Disabled := by
  refine ⟨nodeByPayload_some ha, nodeByPayload_first ha, nodeByPayload_some hb,
    nodeByPayload_first hb, g.appendEdge i ⟨j, cost⟩, ?_, ?_, ?_, ?_, appendEdge_length _ _ _,
    appendEdge_payloadList _ _ _, appendEdge_disabledList _ _ _⟩
  · simp [graph.AddEdge, ha, hb]
  · rw [appendEdge_edgesAt g (nodeByPayload_lt ha), if_pos rfl]
  · intro k hk
    rw [appendEdge_getElem?]
    cases g.Nodes[k]? <;> simp [hk]
  · intro k hk
    rw [appendEdge_edgesAt g (nodeByPayload_lt ha), if_neg hk]

theorem addEdge_post_witness :
    (∃ n, twoNodeGraph.Nodes[0]? = some n ∧ n.Payload = "a") ∧
    (∀ k, k < 0 → ∀ n, twoNodeGraph.Nodes[k]? = some n → n.Payload ≠ "a") ∧
    (∃ n, twoNodeGraph.Nodes[0]? = some n ∧ n.Payload = "a") ∧
    (∀ k, k < 0 → ∀ n, twoNodeGraph.Nodes[k]? = some n → n.Payload ≠ "a") ∧
    ∃ g', twoNodeGraph.AddEdge "a" "a" (f64 1) = .returned g' ∧
      g'.edgesAt 0 = twoNodeGraph.edgesAt 0 ++ [⟨0, f64 1⟩] ∧
      (∀ k, k ≠ 0 → g'.Nodes[k]? = twoNodeGraph.Nodes[k]?) ∧
      (∀ k, k ≠ 0 → g'.edgesAt k = twoNodeGraph.edgesAt k) ∧
      g'.Nodes.length = twoNodeGraph.Nodes.length ∧
      g'.Nodes.map Node.Payload = twoNodeGraph.Nodes.map Node.Payload ∧
      g'.Nodes.map Node.Disabled = twoNodeGraph.Nodes.map Node.Disabled :=
  addEdge_post twoNodeGraph "a" "a" (f64 1) 0 0 (by decide) (by decide)

/-- C13. Postcondition of `AddNode`: after `AddNode(p)` on a graph with `n`
nodes the graph has `n + 1` nodes, the first `n` nodes are the old ones in the
old order, and node `n` has payload `p`, is enabled and has no edges; hence
after adding the payloads `ps` to a new graph, one after the other, the payloads
of the nodes are `ps`, in this order. -/
theorem addNode_post (g : graph P) (p : P) :
    (g.AddNode p).Nodes = g.Nodes ++ [⟨p, false, []⟩] ∧
    (g.AddNode p).Nodes.length = g.Nodes.length + 1 ∧
    (∀ k, k < g.Nodes.length → (g.AddNode p).Nodes[k]? = g.Nodes[k]?) ∧
    (g.AddNode p).Nodes[g.Nodes.length]? = some ⟨p, false, []⟩ ∧
    (∀ ps : List P, (ps.foldl graph.AddNode (NewGraph P)).Nodes.map Node.Payload = ps) ∧
    (∀ (ps : List P) (k : Nat) (q : P), ps[k]? = some q →
      ∃ n, (ps.foldl graph.AddNode (NewGraph P)).Nodes[k]? = some n ∧ n.Payload = q) := by
  have hfold : ∀ ps : List P,
      (ps.foldl graph.AddNode (NewGraph P)).Nodes.map Node.Payload = ps := by
    intro ps
    rw [addNode_fold_payloads]
    simp [NewGraph]
  refine ⟨rfl, by simp [graph.AddNode], ?_, by simp [graph.AddNode], hfold, ?_⟩
  · intro k hk
    simp only [graph.AddNode]
    rw [List.getElem?_append_left hk]
  · intro ps k q hq
    have := congrArg (fun l => l[k]?) (hfold ps)
    simp only [List.getElem?_map, hq] at this
    cases hn : (ps.foldl graph.AddNode (NewGraph P)).Nodes[k]? with
    | none => rw [hn] at this; cases this
    | some n =>
      rw [hn] at this
      simp only [Option.map_some', Option.some.injEq] at this
      exact ⟨n, rfl, this⟩

/-- C14. Frame of `EnableNode` and `DisableNode`: for a registered payload `p`
whose first node is `i`, `DisableNode(p)` (respectively `EnableNode(p)`) returns
the graph in which the disabled flag of node `i` is `true` (respectively
`false`) and nothing else has changed: the number, order and payloads of the
nodes, every edge list and the flags of all other nodes are the old ones. -/
theorem toggle_frame [DecidableEq P] (g : graph P) (p : P) (i : Nat)
    (hp : g.nodeByPayload p = some i) :
    (∃ n, g.Nodes[i]? = some n ∧ n.Payload = p) ∧
    (∀ k, k < i → ∀ n, g.Nodes[k]? = some n → n.Payload ≠ p) ∧
    g.DisableNode p = .returned (g.setDisabled i true) ∧
    g.EnableNode p = .returned (g.setDisabled i false) ∧
    ∀ b : Bool,
      (g.setDisabled i b).disabledAt i = b ∧
      (∀ k, k ≠ i → (g.setDisabled i b).Nodes[k]? = g.Nodes[k]?) ∧
      (∀ k, k ≠ i → (g.setDisabled i b).disabledAt k = g.disabledAt k) ∧
      (∀ k, (g.setDisabled i b).edgesAt k = g.edgesAt k) ∧
      (g.setDisabled i b).Nodes.length = g.Nodes.length ∧
      (g.setDisabled i b).Nodes.map Node.Payload = g.Nodes.map Node.Payload ∧
      (g.setDisabled i b).Nodes.map Node.Edges = g.Nodes.map Node.Edges := by
  have hil := nodeByPayload_lt hp
  refine ⟨nodeByPayload_some hp, nodeByPayload_first hp, by simp [graph.DisableNode, hp],
    by simp [graph.EnableNode, hp], ?_⟩
  intro b
  refine ⟨?_, ?_, ?_, setDisabled_edgesAt g i b, setDisabled_length g i b,
    setDisabled_payloadList g i b, setDisabled_edgeLists g i b⟩
  · rw [setDisabled_disabledAt g hil, if_pos rfl]
  · intro k hk
    rw [setDisabled_getElem?]
    cases g.Nodes[k]? <;> simp [hk]
  · intro k hk
    rw [setDisabled_disabledAt g hil, if_neg hk]

theorem toggle_frame_witness :
    (∃ n, exampleGraph.Nodes[1]? = some n ∧ n.Payload = "b") ∧
    (∀ k, k < 1 → ∀ n, exampleGraph.Nodes[k]? = some n → n.Payload ≠ "b") ∧
    exampleGraph.DisableNode "b" = .returned (exampleGraph.setDisabled 1 true) ∧
    exampleGraph.EnableNode "b" = .returned (exampleGraph.setDisabled 1 false) ∧
    ∀ b : Bool,
      (exampleGraph.setDisabled 1 b).disabledAt 1 = b ∧
      (∀ k, k ≠ 1 → (exampleGraph.setDisabled 1 b).Nodes[k]? = exampleGraph.Nodes[k]?) ∧
      (∀ k, k ≠ 1 → (exampleGraph.setDisabled 1 b).disabledAt k = exampleGraph.disabledAt k) ∧
      (∀ k, (exampleGraph.setDisabled 1 b).edgesAt k = exampleGraph.edgesAt k) ∧
      (exampleGraph.setDisabled 1 b).Nodes.length = exampleGraph.Nodes.length ∧
      (exampleGraph.setDisabled 1 b).Nodes.map Node.Payload =
        exampleGraph.Nodes.map Node.Payload ∧
      (exampleGraph.setDisabled 1 b).Nodes.map Node.Edges = exampleGraph.Nodes.map Node.Edges :=
  toggle_frame exampleGraph "b" 1 (by decide)

/-- C15. The early exit is only an optimisation: on a graph with non-negative
edge costs, for registered `from` and `to` and fuel for as many iterations as
the graph has nodes, `ShortestPath` as implemented returns, and it returns the
same path, cost and error as the variant whose selection loop has no `break`
and runs until no node is left. -/
theorem earlyExit_refines [DecidableEq P]
    (sortSlice : (Nat → Nat → Bool) → List Nat → List Nat) (hs : SortContract sortSlice)
    (g : graph P) (hwf : g.WF) (hnn : g.NonNeg) (fuel : Nat) (hf : g.Nodes.length ≤ fuel)
    (fromPayload toPayload : P) (src dst : Nat)
    (hsrc : g.nodeByPayload fromPayload = some src)
    (hdst : g.nodeByPayload toPayload = some dst) :
    g.ShortestPath sortSlice fuel fromPayload toPayload =
      g.ShortestPathNoBreak sortSlice fuel fromPayload toPayload ∧
    ∃ path cost err,
      g.ShortestPath sortSlice fuel fromPayload toPayload = .ret path cost err := by
  have hsl := nodeByPayload_lt hsrc
  have hdl := nodeByPayload_lt hdst
  have hno : g.ShortestPathNoBreak sortSlice fuel fromPayload toPayload =
      shortestPathNodes sortSlice false fuel g src dst := by
    simp [graph.ShortestPathNoBreak, hsrc, hdst]
  rw [shortestPath_resolved sortSlice fuel hsrc hdst, hno]
  exact ⟨query_noBreak_eq hs hwf hnn hsl hdl hf, query_returns hs hwf hnn hsl hdl hf⟩

theorem earlyExit_refines_witness :
    tieGraph.ShortestPath insertionSort 6 "a" "t" =
      tieGraph.ShortestPathNoBreak insertionSort 6 "a" "t" ∧
    ∃ path cost err, tieGraph.ShortestPath insertionSort 6 "a" "t" = .ret path cost err :=
  earlyExit_refines insertionSort insertionSort_contract tieGraph (by decide) (by decide) 6
    (by decide) "a" "t" 0 5 (by decide) (by decide)

/-- C16. Termination of the query: on a graph with non-negative edge costs, for
registered `from` and `to`, the selection loop finishes within as many
iterations as the graph has nodes, the backward walk over the predecessor links
started at `to` reaches a node without predecessor within as many steps as the
graph has nodes, and so `ShortestPath(from, to)` returns whenever the fuel
covers that many iterations. -/
theorem shortestPath_terminates [DecidableEq P]
    (sortSlice : (Nat → Nat → Bool) → List Nat → List Nat) (hs : SortContract sortSlice)
    (g : graph P) (hwf : g.WF) (hnn : g.NonNeg) (fromPayload toPayload : P) (src dst : Nat)
    (hsrc : g.nodeByPayload fromPayload = some src)
    (hdst : g.nodeByPayload toPayload = some dst) :
    (∃ st, mainLoop sortSlice true g dst g.Nodes.length (initState g src) = some st ∧
      ∃ path, walkBack g st.previousNode g.Nodes.length (some dst) [] = some path) ∧
    ∀ fuel, g.Nodes.length ≤ fuel →
      ∃ path cost err,
        g.ShortestPath sortSlice fuel fromPayload toPayload = .ret path cost err := by
  have hsl := nodeByPayload_lt hsrc
  have hdl := nodeByPayload_lt hdst
  refine ⟨loops_terminate hs hwf hnn hsl hdl, ?_⟩
  intro fuel hf
  rw [shortestPath_resolved sortSlice fuel hsrc hdst]
  exact query_returns hs hwf hnn hsl hdl hf

theorem shortestPath_terminates_witness :
    (∃ st, mainLoop insertionSort true tieGraph 5 tieGraph.Nodes.length
        (initState tieGraph 0) = some st ∧
      ∃ path, walkBack tieGraph st.previousNode tieGraph.Nodes.length (some 5) [] =
        some path) ∧
    ∀ fuel, tieGraph.Nodes.length ≤ fuel →
      ∃ path cost err, tieGraph.ShortestPath insertionSort fuel "a" "t" = .ret path cost err :=
  shortestPath_terminates insertionSort insertionSort_contract tieGraph (by decide) (by decide)
    "a" "t" 0 5 (by decide) (by decide)

/-- C17. Edge-target invariant: the new graph is well formed, each of `AddNode`,
`AddEdge`, `AddBidirectionalEdge`, `EnableNode` and `DisableNode` that returns
takes a well-formed graph to a well-formed graph, and so in every graph
reachable from `NewGraph()` by such calls the target of every edge of every
node is a node of that graph. -/
theorem edge_target_invariant [DecidableEq P] :
    (NewGraph P).WF ∧
    (∀ (g : graph P) (p : P), g.WF → (g.AddNode p).WF) ∧
    (∀ (g g' : graph P) (a b : P) (cost : Int), g.WF →
      g.AddEdge a b cost = .returned g' → g'.WF) ∧
    (∀ (g g' : graph P) (a b : P) (cost : Int), g.WF →
      g.AddBidirectionalEdge a b cost = .returned g' → g'.WF) ∧
    (∀ (g g' : graph P) (p : P), g.WF → g.EnableNode p = .returned g' → g'.WF) ∧
    (∀ (g g' : graph P) (p : P), g.WF → g.DisableNode p = .returned g' → g'.WF) ∧
    (∀ g : graph P, Reachable g → g.WF) := by
  have hnew : (NewGraph P).WF := by
    intro n hn
    cases hn
  have hbi : ∀ (g g' : graph P) (a b : P) (cost : Int), g.WF →
      g.AddBidirectionalEdge a b cost = .returned g' → g'.WF := by
    intro g g' a b cost hwf h
    unfold graph.AddBidirectionalEdge at h
    cases h1 : g.AddEdge a b cost with
    | panicked g1 => simp [h1] at h
    | returned g1 =>
      simp only [h1] at h
      exact addEdge_wf (addEdge_wf hwf h1) h
  have hen : ∀ (g g' : graph P) (p : P), g.WF → g.EnableNode p = .returned g' → g'.WF := by
    intro g g' p hwf h
    unfold graph.EnableNode at h
    cases hp : g.nodeByPayload p with
    | none => simp [hp] at h
    | some i =>
      simp only [hp, Mutation.returned.injEq] at h
      rw [← h]; exact setDisabled_wf hwf i false
  have hdis : ∀ (g g' : graph P) (p : P), g.WF → g.DisableNode p = .returned g' → g'.WF := by
    intro g g' p hwf h
    unfold graph.DisableNode at h
    cases hp : g.nodeByPayload p with
    | none => simp [hp] at h
    | some i =>
      simp only [hp, Mutation.returned.injEq] at h
      rw [← h]; exact setDisabled_wf hwf i true
  refine ⟨hnew, fun g p hwf => addNode_wf hwf p, fun g g' a b cost hwf h => addEdge_wf hwf h,
    hbi, hen, hdis, ?_⟩
  intro g hr
  induction hr with
  | newGraph => exact hnew
  | addNode p _ ih => exact addNode_wf ih p
  | addEdge a b cost _ h ih => exact addEdge_wf ih h
  | addBidirectionalEdge a b cost _ h ih => exact hbi _ _ a b cost ih h
  | enableNode p _ h ih => exact hen _ _ p ih h
  | disableNode p _ h ih => exact hdis _ _ p ih h

theorem edge_target_invariant_witness : exampleGraphB.WF :=
  edge_target_invariant.2.2.2.2.2.2 exampleGraphB
    (.disableNode "b"
      (.addEdge "c" "d" (f64 1)
        (.addEdge "b" "d" (f64 1)
          (.addEdge "a" "c" (f64 10)
            (.addEdge "a" "b" (f64 1)
              (.addNode "d" (.addNode "c" (.addNode "b" (.addNode "a" .newGraph))))
              (by decide : _ = Mutation.returned
                ⟨[⟨"a", false, [⟨1, f64 1⟩]⟩, ⟨"b", false, []⟩, ⟨"c", false, []⟩,
                  ⟨"d", false, []⟩]⟩))
            (by decide : _ = Mutation.returned
              ⟨[⟨"a", false, [⟨1, f64 1⟩, ⟨2, f64 10⟩]⟩, ⟨"b", false, []⟩, ⟨"c", false, []⟩,
                ⟨"d", false, []⟩]⟩))
          (by decide : _ = Mutation.returned
            ⟨[⟨"a", false, [⟨1, f64 1⟩, ⟨2, f64 10⟩]⟩, ⟨"b", false, [⟨3, f64 1⟩]⟩,
              ⟨"c", false, []⟩, ⟨"d", false, []⟩]⟩))
        (by decide : _ = Mutation.returned exampleGraph))
      (by decide))

/-- C18. Disabling an off-path node preserves cost and status: on a graph with
non-negative edge costs, when `ShortestPath(from, to)` succeeds with
`(path, cost)` and the registered payload `x` does not occur on `path`, then
`DisableNode(x)` returns and afterwards `ShortestPath(from, to)` succeeds and
reports the same cost, whichever path of that cost it returns. -/
theorem disable_offpath_cost_status [DecidableEq P]
    (sortSlice : (Nat → Nat → Bool) → List Nat → List Nat) (hs : SortContract sortSlice)
    (g : graph P) (hwf : g.WF) (hnn : g.NonNeg) (fuel : Nat) (fromPayload toPayload x : P)
    (src dst xi : Nat) (hsrc : g.nodeByPayload fromPayload = some src)
    (hdst : g.nodeByPayload toPayload = some dst) (hxi : g.nodeByPayload x = some xi)
    (path : List P) (cost : Dist)
    (hret : g.ShortestPath sortSlice fuel fromPayload toPayload = .ret path cost none)
    (hx : x ∉ path) (fuel' : Nat) (hf : g.Nodes.length ≤ fuel') :
    ∃ g', g.DisableNode x = .returned g' ∧
      ∃ path', g'.ShortestPath sortSlice fuel' fromPayload toPayload = .ret path' cost none := by
  refine ⟨g.setDisabled xi true, by simp [graph.DisableNode, hxi], ?_⟩
  obtain ⟨es, h1, -, -⟩ := disable_offpath_core hs hwf hnn hsrc hdst hxi hret hx hf
  exact ⟨_, h1⟩

theorem disable_offpath_cost_status_witness :
    ∃ g', exampleGraph.DisableNode "c" = .returned g' ∧
      ∃ path', g'.ShortestPath insertionSort 4 "a" "d" = .ret path' (Dist.fin (f64 2)) none :=
  disable_offpath_cost_status insertionSort insertionSort_contract exampleGraph (by decide)
    (by decide) 4 "a" "d" "c" 0 3 2 (by decide) (by decide) (by decide) ["a", "b", "d"]
    (Dist.fin (f64 2)) (by decide) (by decide) 4 (by decide)

/-- C19. The returned path is simple: on a graph with non-negative edge costs,
when `ShortestPath(from, to)` succeeds, the returned path is the list of
payloads of a list of nodes of the graph in which no node occurs twice, so it
has at most as many elements as the graph has nodes; with pairwise distinct
payloads no payload occurs twice on the path either. -/
theorem shortestPath_simple [DecidableEq P]
    (sortSlice : (Nat → Nat → Bool) → List Nat → List Nat) (hs : SortContract sortSlice)
    (g : graph P) (hwf : g.WF) (hnn : g.NonNeg) (fuel : Nat) (fromPayload toPayload : P)
    (src dst : Nat) (hsrc : g.nodeByPayload fromPayload = some src)
    (hdst : g.nodeByPayload toPayload = some dst) (path : List P) (cost : Dist)
    (hret : g.ShortestPath sortSlice fuel fromPayload toPayload = .ret path cost none) :
    (∃ ns : List Nat, path = g.payloads ns ∧ path.length = ns.length ∧ ns.Nodup ∧
      ∀ v ∈ ns, v < g.Nodes.length) ∧
    path.length ≤ g.Nodes.length ∧
    ((g.Nodes.map Node.Payload).Nodup → path.Nodup) := by
  rw [shortestPath_resolved sortSlice fuel hsrc hdst] at hret
  have hsl := nodeByPayload_lt hsrc
  obtain ⟨-, st0, -, -, es, hes, hp, -⟩ :=
    query_success hs hwf hnn hsl (nodeByPayload_lt hdst) hret
  have hlt : ∀ v ∈ walkNodes src es, v < g.Nodes.length := isWalk_nodes_lt hwf hsl hes.walk
  have hlen : path.length = (walkNodes src es).length := by rw [hp, payloads_length _ hlt]
  refine ⟨⟨walkNodes src es, hp, hlen, hes.nodup, hlt⟩, ?_, ?_⟩
  · rw [hlen]; exact nodup_length_le hes.nodup hlt
  · intro hnd
    rw [hp]; exact payloads_nodup hnd hes.nodup hlt

theorem shortestPath_simple_witness :
    (∃ ns : List Nat, ["a", "m", "p", "t"] = tieGraph.payloads ns ∧
      ["a", "m", "p", "t"].length = ns.length ∧ ns.Nodup ∧
      ∀ v ∈ ns, v < tieGraph.Nodes.length) ∧
    ["a", "m", "p", "t"].length ≤ tieGraph.Nodes.length ∧
    ((tieGraph.Nodes.map Node.Payload).Nodup → ["a", "m", "p", "t"].Nodup) :=
  shortestPath_simple insertionSort insertionSort_contract tieGraph (by decide) (by decide) 6
    "a" "t" 0 5 (by decide) (by decide) ["a", "m", "p", "t"] (Dist.fin (f64 4)) (by decide)

/-- C20. A negative cost can make the query hang: `negativeLoopGraph` has the
nodes `a` and `b` and the edges `a→a` of cost -1 and `a→b` of cost 1; the
selection loop of `ShortestPath(a, b)` stops after two iterations with `a`
recorded as its own predecessor and as the predecessor of `b`, so the backward
walk started at `b` never reaches a node without predecessor, and
`ShortestPath(a, b)` returns for no amount of fuel. -/
theorem negative_cost_hangs :
    (∃ n ∈ negativeLoopGraph.Nodes, ∃ e ∈ n.Edges, e.Cost < 0) ∧
    (∃ st, mainLoop insertionSort true negativeLoopGraph 1 2 (initState negativeLoopGraph 0) =
        some st ∧
      st.previousNode 0 = some 0 ∧ st.previousNode 1 = some 0 ∧
      ∀ fuel path, walkBack negativeLoopGraph st.previousNode fuel (some 1) path = none) ∧
    ∀ fuel, negativeLoopGraph.ShortestPath insertionSort fuel "a" "b" = .hang := by
  have hloop : ∃ st, mainLoop insertionSort true negativeLoopGraph 1 2
      (initState negativeLoopGraph 0) = some st ∧
      st.previousNode 0 = some 0 ∧ st.previousNode 1 = some 0 := ⟨_, rfl, rfl, rfl⟩
  obtain ⟨st, hm, hp0, hp1⟩ := hloop
  have hwalk : ∀ fuel path,
      walkBack negativeLoopGraph st.previousNode fuel (some 1) path = none := by
    intro fuel path
    cases fuel with
    | zero => rfl
    | succ fuel =>
      simp only [walkBack, hp1]
      split
      · exact walkBack_selfLoop _ _ 0 hp0 _ _
      · rfl
  refine ⟨by decide, ⟨st, hm, hp0, hp1, hwalk⟩, ?_⟩
  intro fuel
  have hsrc : negativeLoopGraph.nodeByPayload "a" = some 0 := by decide
  have hdst : negativeLoopGraph.nodeByPayload "b" = some 1 := by decide
  rw [shortestPath_resolved insertionSort fuel hsrc hdst]
  have hen : negativeLoopGraph.disabledAt 0 = false := by decide
  match fuel with
  | 0 => rfl
  | 1 => rfl
  | f + 2 =>
    have hm' := mainLoop_mono_add insertionSort true negativeLoopGraph 1 hm f
    have hfe : 2 + f = f + 2 := by omega
    rw [hfe] at hm'
    simp only [shortestPathNodes, hen, hm', hp1, hwalk, Bool.false_eq_true, if_false,
      Option.isSome_some, Bool.true_or, if_true]

end Pathfinder
